import Mathlib

/-!
Shallow embedding of the LearnOS CPU-scheduling engine
(`server/app/services/cpu.py` and `server/app/models/cpu.py`).

Times and costs are Python floats in the source; they are embedded as
rationals (`Rat`).  Process ids and priorities are Python ints (`Int`).
The Python dict `{p.id: {...} for p in request.processes}` is embedded as a
list in request order; as in the source's data model, process ids are
assumed unique (theorems take a `Nodup` hypothesis where it matters).
Each `while` loop is embedded as a fuel-indexed recursion; a run returns
`Except SimErr SchedulingResult`, where `SimErr.valueError` /
`SimErr.indexError` stand for the exceptions Python would raise and
`SimErr.outOfFuel` for fuel exhaustion.

Arithmetic on `Rat` is written through the wrappers `qAdd`, `qSub`,
`qMul`, `qDiv`, `qLtB`, `qLeB` below, which are proved equal to the field
operations of `ℚ` (`qAdd_eq` etc.).  The wrappers exist only because the
library's `Rat.add`/`Rat.mul`/`Rat.inv` are `@[irreducible]`, which would
prevent evaluating the embedding on concrete workloads inside the kernel;
they do not change any semantics.
-/

namespace LearnOS

/-- Kernel-reducible `a + b` on `ℚ` (see module docstring). -/
def qAdd (a b : Rat) : Rat :=
  mkRat (a.num * (b.den : Int) + b.num * (a.den : Int)) (a.den * b.den)

/-- Kernel-reducible `-a` on `ℚ`. -/
def qNeg (a : Rat) : Rat := mkRat (-a.num) a.den

/-- Kernel-reducible `a - b` on `ℚ`. -/
def qSub (a b : Rat) : Rat := qAdd a (qNeg b)

/-- Kernel-reducible `a * b` on `ℚ`. -/
def qMul (a b : Rat) : Rat := mkRat (a.num * b.num) (a.den * b.den)

/-- Kernel-reducible `a⁻¹` on `ℚ` (0 ↦ 0; every division in the source is
guarded by a positivity check, so the 0 case is never exercised there). -/
def qInv (a : Rat) : Rat :=
  if a.num < 0 then mkRat (-(a.den : Int)) a.num.natAbs
  else mkRat (a.den : Int) a.num.toNat

/-- Kernel-reducible `a / b` on `ℚ`. -/
def qDiv (a b : Rat) : Rat := qMul a (qInv b)

/-- Kernel-reducible `a < b` on `ℚ`, as a `Bool`. -/
def qLtB (a b : Rat) : Bool :=
  decide (a.num * (b.den : Int) < b.num * (a.den : Int))

/-- Kernel-reducible `a ≤ b` on `ℚ`, as a `Bool`. -/
def qLeB (a b : Rat) : Bool :=
  decide (a.num * (b.den : Int) ≤ b.num * (a.den : Int))

/-- Kernel-reducible `min a b` on `ℚ` (Python `min(a, b)`). -/
def qMin (a b : Rat) : Rat := if qLtB b a then b else a

/-- `app/models/cpu.py` `Process`. -/
structure Process where
  id : Int
  arrival_time : Rat
  burst_time : Rat
  priority : Int := 0
  weight : Rat := 1
deriving DecidableEq

/-- `app/models/cpu.py` `MLFQConfig` (defaults from the pydantic model). -/
structure MLFQConfig where
  num_queues : Int := 3
  time_quantums : List Int := [2, 4, 8]
  aging_threshold : Int := 10
  boost_interval : Int := 100
  priority_boost : Bool := true
  feedback_mechanism : String := "time"
deriving DecidableEq

/-- `app/models/cpu.py` `SchedulingRequest`. -/
structure SchedulingRequest where
  processes : List Process
  time_quantum : Option Int := none
  context_switch_cost : Rat := mkRat 1 2
  preemptive : Bool := false
  rr_variation : Option String := some "standard"
  process_weights : Option (List (Int × Rat)) := none
  priority_type : Option String := some "fixed"
  mlfq_config : Option MLFQConfig := none
deriving DecidableEq

/-- `app/models/cpu.py` `ScheduleEntry`. -/
structure ScheduleEntry where
  process_id : Int
  start_time : Rat
  end_time : Rat
  type : String := "execution"
  queue_level : Option Int := none
deriving DecidableEq

/-- `app/models/cpu.py` `ProcessResult`. -/
structure ProcessResult where
  pid : Int
  arrival_time : Rat
  burst_time : Rat
  priority : Int
  completion_time : Rat
  turnaround_time : Rat
  waiting_time : Rat
  response_time : Option Rat := none
deriving DecidableEq

/-- `app/models/cpu.py` `SchedulingMetrics`. -/
structure SchedulingMetrics where
  average_waiting_time : Rat
  average_turnaround_time : Rat
  average_response_time : Rat
  cpu_utilization : Rat
  throughput : Rat
  context_switches : Nat := 0
  total_time : Rat := 0
deriving DecidableEq

/-- `app/models/cpu.py` `SchedulingResult`. -/
structure SchedulingResult where
  processes : List ProcessResult
  schedule : List ScheduleEntry
  metrics : SchedulingMetrics
  algorithm : String
deriving DecidableEq

/-- Runtime failure of a simulation: the Python exceptions the service can
raise (`ValueError` from `min()` on an empty sequence, `IndexError` from
indexing an empty list) plus fuel exhaustion of the embedded loop. -/
inductive SimErr where
  | valueError
  | indexError
  | keyError
  | outOfFuel
deriving DecidableEq

instance {ε α : Type} [DecidableEq ε] [DecidableEq α] : DecidableEq (Except ε α) := fun a b =>
  match a, b with
  | .error e, .error f =>
    if h : e = f then .isTrue (congrArg Except.error h)
    else .isFalse (fun hh => h (Except.error.inj hh))
  | .error _, .ok _ => .isFalse (fun hh => Except.noConfusion hh)
  | .ok _, .error _ => .isFalse (fun hh => Except.noConfusion hh)
  | .ok x, .ok y =>
    if h : x = y then .isTrue (congrArg Except.ok h)
    else .isFalse (fun hh => h (Except.ok.inj hh))

/-- Python `int(q)`: truncation toward zero (for a normalized rational
this is T-division of the numerator by the denominator). -/
def pyInt (q : Rat) : Int :=
  Int.tdiv q.num (q.den : Int)

/-- Python `x or d` for an optional int (`None` and `0` are falsy). -/
def pyOrInt (o : Option Int) (d : Int) : Int :=
  match o with
  | none => d
  | some v => if v = 0 then d else v

/-- Python `x or d` for an optional float (`None` and `0.0` are falsy). -/
def pyOrQ (o : Option Rat) (d : Rat) : Rat :=
  match o with
  | none => d
  | some v => if v = 0 then d else v

/-- Python `from_process or -1` (pids: `None` and `0` fall back to `-1`). -/
def pyOrPid (o : Option Int) : Int :=
  match o with
  | none => -1
  | some v => if v = 0 then -1 else v

/-- Python `weights.get(pid, 1.0)` over the `process_weights` dict. -/
def weightsGet (weights : Option (List (Int × Rat))) (pid : Int) : Rat :=
  match weights with
  | none => 1
  | some l =>
    match l.find? (fun kv => kv.1 = pid) with
    | none => 1
    | some kv => kv.2

/-- Strict comparison of a `(float, float, int)` Python key tuple
(`(burst, arrival, id)`, `(remaining, arrival, pid)` …). -/
def lexLtQQI (a b : Rat × Rat × Int) : Bool :=
  qLtB a.1 b.1 ||
    (decide (a.1 = b.1) &&
      (qLtB a.2.1 b.2.1 || (decide (a.2.1 = b.2.1) && decide (a.2.2 < b.2.2))))

/-- Strict comparison of an `(int, float, int)` Python key tuple
(`(priority, arrival, id)`). -/
def lexLtIQI (a b : Int × Rat × Int) : Bool :=
  decide (a.1 < b.1) ||
    (decide (a.1 = b.1) &&
      (qLtB a.2.1 b.2.1 || (decide (a.2.1 = b.2.1) && decide (a.2.2 < b.2.2))))

/-- Non-strict comparison of a `(float, int)` key tuple (`(arrival, id)`),
for the stable sorts. -/
def lexLeQI (a b : Rat × Int) : Bool :=
  qLtB a.1 b.1 || (decide (a.1 = b.1) && decide (a.2 ≤ b.2))

/-- Stable insertion: building block of `pySortLe` (with a non-strict
comparison, an inserted element stays after the elements equal to it that
were already in place only when they compare `le` to it first — matching
Python's stable `sorted`). -/
def pyInsortLe {α : Type} (le : α → α → Bool) (x : α) : List α → List α
  | [] => [x]
  | y :: ys => if le x y then x :: y :: ys else y :: pyInsortLe le x ys

/-- Python `sorted(l, key=...)`: stable sort, embedded as insertion sort
with a non-strict Boolean comparison. -/
def pySortLe {α : Type} (le : α → α → Bool) (l : List α) : List α :=
  l.foldr (pyInsortLe le) []

/-- Python `min(l, key=...)`: first element with the `lt`-least key;
`none` on the empty list (Python raises `ValueError` there). -/
def pyMinBy {α κ : Type} (lt : κ → κ → Bool) (key : α → κ) : List α → Option α
  | [] => none
  | x :: xs => some (xs.foldl (fun best y => if lt (key y) (key best) then y else best) x)

/-- Python `min` over plain rationals. -/
def pyMinQ (l : List Rat) : Option Rat :=
  pyMinBy qLtB id l

/-- Sum of `f` over a list (`sum(f(x) for x in l)`). -/
def sumBy {α : Type} (f : α → Rat) (l : List α) : Rat :=
  l.foldr (fun x acc => qAdd (f x) acc) 0

/-- `CPUSchedulingService._add_context_switch`, lines 14-26: appends a
context-switch entry (and advances the clock by the cost) only when the
cost is positive and the schedule is non-empty; returns the new schedule,
switch count, and clock. -/
def add_context_switch (cost : Rat) (schedule : List ScheduleEntry) (cs : Nat)
    (time : Rat) (from_process : Option Int) : List ScheduleEntry × Nat × Rat :=
  if qLtB 0 cost && decide (0 < schedule.length) then
    (schedule ++ [{ process_id := pyOrPid from_process, start_time := time,
                    end_time := qAdd time cost, type := "context_switch" }],
     cs + 1, qAdd time cost)
  else
    (schedule, cs, time)

/-- `CPUSchedulingService._calculate_metrics`, lines 877-905. -/
def calculate_metrics (context_switch_cost : Rat) (context_switches : Nat)
    (results : List ProcessResult) (total_time : Rat) : SchedulingMetrics :=
  if results.length = 0 then
    { average_waiting_time := 0, average_turnaround_time := 0,
      average_response_time := 0, cpu_utilization := 0, throughput := 0,
      context_switches := context_switches, total_time := total_time }
  else
    let total_waiting := sumBy (fun p => p.waiting_time) results
    let total_turnaround := sumBy (fun p => p.turnaround_time) results
    let total_response := sumBy (fun p => pyOrQ p.response_time 0) results
    let total_burst := sumBy (fun p => p.burst_time) results
    let total_execution_time := qAdd total_burst (qMul (context_switches : Int) context_switch_cost)
    { average_waiting_time := qDiv total_waiting (results.length : Int),
      average_turnaround_time := qDiv total_turnaround (results.length : Int),
      average_response_time := qDiv total_response (results.length : Int),
      cpu_utilization :=
        if qLtB 0 total_time then qMul (qDiv total_execution_time total_time) 100 else 0,
      throughput :=
        if qLtB 0 total_time then qDiv ((results.length : Int) : Rat) total_time else 0,
      context_switches := context_switches, total_time := total_time }

/-- One step of an embedded `while` loop body: continue with a new state,
leave the loop early (Python `break`), or raise. -/
inductive BodyStep (σ : Type) where
  | next (s : σ)
  | stop (s : σ)
  | fail (e : SimErr)
deriving DecidableEq

/-- Fuel-indexed runner for the service's `while` loops: while `cond`
holds run `body`; when `cond` fails (or the body breaks) build the
`SchedulingResult` with `finish`. -/
def runLoop {σ : Type} (cond : σ → Bool) (body : σ → BodyStep σ)
    (finish : σ → SchedulingResult) : Nat → σ → Except SimErr SchedulingResult
  | 0, _ => .error .outOfFuel
  | Nat.succ fuel, st =>
    if cond st then
      match body st with
      | .next st' => runLoop cond body finish fuel st'
      | .stop st' => .ok (finish st')
      | .fail e => .error e
    else
      .ok (finish st)

/-- Loop state shared by the non-preemptive selectors (`fcfs`,
`_sjf_non_preemptive`, `_priority_non_preemptive`): the mutable locals of
those functions plus the completed-id set and the switch counter. -/
structure NPState where
  processes : List Process
  schedule : List ScheduleEntry
  results : List ProcessResult
  current_time : Rat
  completed : List Int
  last_process : Option Int
  cs : Nat
deriving DecidableEq

/-- `fcfs` body, lines 40-69: one iteration of the `for process in
processes` loop (the clock catch-up, the conditional context switch, the
execution entry and the `ProcessResult`). -/
def fcfsStep (cost : Rat) (st : NPState) (process : Process) : NPState :=
  let current_time :=
    if qLtB st.current_time process.arrival_time then process.arrival_time else st.current_time
  let acs :=
    if st.last_process.isSome then
      add_context_switch cost st.schedule st.cs current_time st.last_process
    else
      (st.schedule, st.cs, current_time)
  let schedule := acs.1
  let cs := acs.2.1
  let start_time := acs.2.2
  let end_time := qAdd start_time process.burst_time
  { st with
    schedule := schedule ++ [{ process_id := process.id, start_time := start_time,
                               end_time := end_time, type := "execution" }],
    results := st.results ++ [{ pid := process.id, arrival_time := process.arrival_time,
                                burst_time := process.burst_time, priority := process.priority,
                                completion_time := end_time,
                                turnaround_time := qSub end_time process.arrival_time,
                                waiting_time := qSub start_time process.arrival_time,
                                response_time := some (qSub start_time process.arrival_time) }],
    current_time := end_time,
    last_process := some process.id,
    cs := cs }

/-- `CPUSchedulingService.fcfs`, lines 28-79 (total: the Python cannot
raise here). -/
def fcfs (request : SchedulingRequest) : SchedulingResult :=
  let cost := request.context_switch_cost
  let processes := pySortLe (fun a b => qLeB a.arrival_time b.arrival_time) request.processes
  let st := processes.foldl (fcfsStep cost)
    { processes := processes, schedule := [], results := [], current_time := 0,
      completed := [], last_process := none, cs := 0 }
  { processes := st.results, schedule := st.schedule,
    metrics := calculate_metrics cost st.cs st.results st.current_time,
    algorithm := "FCFS" }

/-- Ready filter of `_sjf_non_preemptive` / `_priority_non_preemptive`
(lines 102, 248): arrived and not completed. -/
def npAvailable (st : NPState) : List Process :=
  st.processes.filter (fun p =>
    qLeB p.arrival_time st.current_time && decide (p.id ∉ st.completed))

/-- Clock jump of the non-preemptive loops (lines 104-107, 250-253):
`min` of the arrival times of the not-completed processes; no entry of any
kind is appended for the skipped interval. -/
def npNextArrival (st : NPState) : Option Rat :=
  pyMinQ ((st.processes.filter (fun p => decide (p.id ∉ st.completed))).map
    (fun p => p.arrival_time))

/-- Dispatch of a non-preemptive selector (lines 111-137 / 264-290): the
conditional context switch, the full-burst execution entry, the
`ProcessResult`, and the bookkeeping. -/
def npDispatch (cost : Rat) (st : NPState) (selected : Process) : NPState :=
  let acs :=
    if st.last_process.isSome then
      add_context_switch cost st.schedule st.cs st.current_time st.last_process
    else
      (st.schedule, st.cs, st.current_time)
  let schedule := acs.1
  let cs := acs.2.1
  let start_time := acs.2.2
  let end_time := qAdd start_time selected.burst_time
  { st with
    schedule := schedule ++ [{ process_id := selected.id, start_time := start_time,
                               end_time := end_time, type := "execution" }],
    results := st.results ++ [{ pid := selected.id, arrival_time := selected.arrival_time,
                                burst_time := selected.burst_time, priority := selected.priority,
                                completion_time := end_time,
                                turnaround_time := qSub end_time selected.arrival_time,
                                waiting_time := qSub start_time selected.arrival_time,
                                response_time := some (qSub start_time selected.arrival_time) }],
    completed := st.completed ++ [selected.id],
    current_time := end_time,
    last_process := some selected.id,
    cs := cs }

/-- `_sjf_non_preemptive` loop body (lines 101-137). -/
def sjf_np_body (cost : Rat) (st : NPState) : BodyStep NPState :=
  let available := npAvailable st
  if available = [] then
    match npNextArrival st with
    | none => .fail .valueError
    | some next_arrival => .next { st with current_time := next_arrival }
  else
    match pyMinBy lexLtQQI (fun p => (p.burst_time, p.arrival_time, p.id)) available with
    | none => .fail .valueError
    | some selected => .next (npDispatch cost st selected)

/-- Initial state of the non-preemptive loops. -/
def npInit (request : SchedulingRequest) : NPState :=
  { processes := request.processes, schedule := [], results := [], current_time := 0,
    completed := [], last_process := none, cs := 0 }

/-- Loop condition `len(completed) < len(processes)`. -/
def npCond (st : NPState) : Bool :=
  decide (st.completed.length < st.processes.length)

/-- Post-loop result construction of a non-preemptive selector. -/
def npFinish (cost : Rat) (algorithm : String) (st : NPState) : SchedulingResult :=
  { processes := st.results, schedule := st.schedule,
    metrics := calculate_metrics cost st.cs st.results st.current_time,
    algorithm := algorithm }

/-- `CPUSchedulingService._sjf_non_preemptive`, lines 91-147. -/
def sjf_non_preemptive (fuel : Nat) (request : SchedulingRequest) :
    Except SimErr SchedulingResult :=
  runLoop npCond (sjf_np_body request.context_switch_cost)
    (npFinish request.context_switch_cost "SJF (Non-preemptive)") fuel (npInit request)

/-- `effective_priority` computed for each ready process in dynamic mode
(lines 256-259): `priority - int((current_time - arrival_time) / 10)`. -/
def effective_priority_np (t : Rat) (p : Process) : Int :=
  p.priority - pyInt (qDiv (qSub t p.arrival_time) 10)

/-- Selection of `_priority_non_preemptive` (lines 255-262): in dynamic
mode every ready process's `effective_priority` is recomputed (stored as
an attribute on the process object, found again by `getattr`), otherwise
the plain priority is used. -/
def priority_np_select (dynamic : Bool) (t : Rat) (available : List Process) : Option Process :=
  if dynamic then
    pyMinBy lexLtIQI (fun p => (effective_priority_np t p, p.arrival_time, p.id)) available
  else
    pyMinBy lexLtIQI (fun p => (p.priority, p.arrival_time, p.id)) available

/-- `_priority_non_preemptive` loop body (lines 247-290). -/
def priority_np_body (dynamic : Bool) (cost : Rat) (st : NPState) : BodyStep NPState :=
  let available := npAvailable st
  if available = [] then
    match npNextArrival st with
    | none => .fail .valueError
    | some next_arrival => .next { st with current_time := next_arrival }
  else
    match priority_np_select dynamic st.current_time available with
    | none => .fail .valueError
    | some selected => .next (npDispatch cost st selected)

/-- `CPUSchedulingService._priority_non_preemptive`, lines 237-300. -/
def priority_non_preemptive (fuel : Nat) (request : SchedulingRequest) :
    Except SimErr SchedulingResult :=
  let dynamic := request.priority_type = some "dynamic"
  runLoop npCond (priority_np_body dynamic request.context_switch_cost)
    (npFinish request.context_switch_cost
      (if dynamic then "Priority (Dynamic, Non-preemptive)"
       else "Priority (Fixed, Non-preemptive)"))
    fuel (npInit request)

/-- Per-process working record of the preemptive loops (`_srtf`,
`_priority_preemptive`, lines 151 / 304): the dict values
`{'process': p, 'remaining': ..., 'response_time': ...}`. -/
structure PreProc where
  process : Process
  remaining : Rat
  response_time : Option Rat
deriving DecidableEq

/-- Loop state of the preemptive selectors. -/
structure PreState where
  processes : List PreProc
  schedule : List ScheduleEntry
  results : List ProcessResult
  current_time : Rat
  last_process : Option Int
  cs : Nat
deriving DecidableEq

/-- Ready filter of the preemptive loops (lines 159-162 / 312-315). -/
def preAvailable (st : PreState) : List PreProc :=
  st.processes.filter (fun d =>
    qLeB d.process.arrival_time st.current_time && qLtB 0 d.remaining)

/-- Clock jump of the preemptive loops (lines 164-170 / 317-323). -/
def preNextArrival (st : PreState) : Option Rat :=
  pyMinQ ((st.processes.filter (fun d => qLtB 0 d.remaining)).map
    (fun d => d.process.arrival_time))

/-- The guarded context switch of the preemptive/queue-based loops
(`if last_process is not None and last_process != current: ...`,
lines 174-175, 342-343, 455-456, 550-551, 672-673, 822-823). -/
def guardedAcs (cost : Rat) (schedule : List ScheduleEntry) (cs : Nat) (t : Rat)
    (last : Option Int) (current : Int) : List ScheduleEntry × Nat × Rat :=
  match last with
  | some lp =>
    if lp = current then (schedule, cs, t)
    else add_context_switch cost schedule cs t last
  | none => (schedule, cs, t)

/-- In-place update of one process record of the embedded dict. -/
def updProc (pid : Int) (f : PreProc → PreProc) (l : List PreProc) : List PreProc :=
  l.map (fun d => if d.process.id = pid then f d else d)

/-- `next_events` of `_srtf` (lines 180-189): the completion time of the
selected process, plus the arrival times, within the slice, of the
not-yet-ready unfinished processes whose current `remaining` is strictly
below the selected process's current `remaining`. -/
def srtfNextEvents (processes : List PreProc) (current_time : Rat) (selRem : Rat) : List Rat :=
  qAdd current_time selRem ::
    (processes.filter (fun d =>
      qLtB current_time d.process.arrival_time && qLtB 0 d.remaining &&
      qLtB d.process.arrival_time (qAdd current_time selRem) &&
      qLtB d.remaining selRem)).map (fun d => d.process.arrival_time)

/-- Shared dispatch tail of the preemptive loops (lines 174-215 /
342-390): conditional context switch, first-run response recording, one
execution entry up to `next_event`, remaining-time update, and the
completion bookkeeping. -/
def preDispatch (cost : Rat) (st : PreState) (selected : PreProc) (next_events : Rat → List Rat) :
    BodyStep PreState :=
  let sid := selected.process.id
  let acs := guardedAcs cost st.schedule st.cs st.current_time st.last_process sid
  let schedule := acs.1
  let cs := acs.2.1
  let current_time := acs.2.2
  let response_time :=
    if selected.response_time = none then some (qSub current_time selected.process.arrival_time)
    else selected.response_time
  match pyMinQ (next_events current_time) with
  | none => .fail .valueError
  | some next_event =>
    let execution_time := qSub next_event current_time
    let schedule := schedule ++ [{ process_id := sid, start_time := current_time,
                                   end_time := qAdd current_time execution_time,
                                   type := "execution" }]
    let remaining := qSub selected.remaining execution_time
    let current_time := qAdd current_time execution_time
    let processes := updProc sid
      (fun d => { d with remaining := remaining, response_time := response_time }) st.processes
    let res : ProcessResult :=
      { pid := sid,
        arrival_time := selected.process.arrival_time,
        burst_time := selected.process.burst_time,
        priority := selected.process.priority,
        completion_time := current_time,
        turnaround_time := qSub current_time selected.process.arrival_time,
        waiting_time := qSub (qSub current_time selected.process.arrival_time)
          selected.process.burst_time,
        response_time := response_time }
    if remaining = 0 then
      .next { st with
        processes := processes, schedule := schedule, current_time := current_time, cs := cs,
        results := st.results ++ [res],
        last_process := none }
    else
      .next { st with
        processes := processes, schedule := schedule, current_time := current_time, cs := cs,
        last_process := some sid }

/-- `_srtf` loop body (lines 158-215). -/
def srtf_body (cost : Rat) (st : PreState) : BodyStep PreState :=
  let available := preAvailable st
  if available = [] then
    match preNextArrival st with
    | none => .fail .valueError
    | some next_arrival => .next { st with current_time := next_arrival }
  else
    match pyMinBy lexLtQQI
        (fun d => (d.remaining, d.process.arrival_time, d.process.id)) available with
    | none => .fail .valueError
    | some selected =>
      preDispatch cost st selected (fun t => srtfNextEvents st.processes t selected.remaining)

/-- Initial state of the preemptive loops (lines 151-156 / 304-309). -/
def preInit (request : SchedulingRequest) : PreState :=
  { processes := request.processes.map
      (fun p => { process := p, remaining := p.burst_time, response_time := none }),
    schedule := [], results := [], current_time := 0, last_process := none, cs := 0 }

/-- Loop condition `any(p['remaining'] > 0 ...)`. -/
def preCond (st : PreState) : Bool :=
  st.processes.any (fun d => qLtB 0 d.remaining)

/-- Post-loop result construction of a preemptive selector. -/
def preFinish (cost : Rat) (algorithm : String) (st : PreState) : SchedulingResult :=
  { processes := st.results, schedule := st.schedule,
    metrics := calculate_metrics cost st.cs st.results st.current_time,
    algorithm := algorithm }

/-- `CPUSchedulingService._srtf`, lines 149-225. -/
def srtf (fuel : Nat) (request : SchedulingRequest) : Except SimErr SchedulingResult :=
  runLoop preCond (srtf_body request.context_switch_cost)
    (preFinish request.context_switch_cost "SRTF (Preemptive SJF)") fuel (preInit request)

/-- `CPUSchedulingService.sjf`, lines 81-89. -/
def sjf (fuel : Nat) (request : SchedulingRequest) : Except SimErr SchedulingResult :=
  if request.preemptive then srtf fuel request else sjf_non_preemptive fuel request

/-- Selection of `_priority_preemptive` (lines 325-340).  In dynamic mode
the source stores `data['effective_priority']` as a dict key but then
reads it back with `getattr(x[1], 'effective_priority', x[1]['process'].priority)`;
`getattr` on a plain dict never sees dict keys, so the default — the base
priority — is what the comparison actually uses, in dynamic mode too. -/
def priority_preemptive_select (dynamic : Bool) (available : List PreProc) : Option PreProc :=
  if dynamic then
    pyMinBy lexLtIQI
      (fun d => (d.process.priority, d.process.arrival_time, d.process.id)) available
  else
    pyMinBy lexLtIQI
      (fun d => (d.process.priority, d.process.arrival_time, d.process.id)) available

/-- `arriving_priority` of a future arrival at a preemption check (lines
353-355): in dynamic mode the source subtracts
`int((arrival_time - arrival_time) / 10)`, i.e. zero. -/
def arriving_priority (dynamic : Bool) (d : PreProc) : Int :=
  d.process.priority -
    (if dynamic then pyInt (qDiv (qSub d.process.arrival_time d.process.arrival_time) 10) else 0)

/-- `current_priority` of the selected process at a preemption check
(lines 357-359): aged with the wait accumulated up to `current_time` (not
up to the future arrival instant). -/
def current_priority (dynamic : Bool) (t : Rat) (selected : PreProc) : Int :=
  selected.process.priority -
    (if dynamic then pyInt (qDiv (qSub t selected.process.arrival_time) 10) else 0)

/-- `next_events` of `_priority_preemptive` (lines 348-362). -/
def priorityNextEvents (dynamic : Bool) (processes : List PreProc) (t : Rat)
    (selected : PreProc) : List Rat :=
  qAdd t selected.remaining ::
    (processes.filter (fun d =>
      qLtB t d.process.arrival_time && qLtB 0 d.remaining &&
      decide (arriving_priority dynamic d < current_priority dynamic t selected))).map
      (fun d => d.process.arrival_time)

/-- `_priority_preemptive` loop body (lines 311-390). -/
def priority_p_body (dynamic : Bool) (cost : Rat) (st : PreState) : BodyStep PreState :=
  let available := preAvailable st
  if available = [] then
    match preNextArrival st with
    | none => .fail .valueError
    | some next_arrival => .next { st with current_time := next_arrival }
  else
    match priority_preemptive_select dynamic available with
    | none => .fail .valueError
    | some selected =>
      preDispatch cost st selected
        (fun t => priorityNextEvents dynamic st.processes t selected)

/-- `CPUSchedulingService._priority_preemptive`, lines 302-400. -/
def priority_preemptive (fuel : Nat) (request : SchedulingRequest) :
    Except SimErr SchedulingResult :=
  let dynamic := request.priority_type = some "dynamic"
  runLoop preCond (priority_p_body dynamic request.context_switch_cost)
    (preFinish request.context_switch_cost
      (if dynamic then "Priority (Dynamic, Preemptive)" else "Priority (Fixed, Preemptive)"))
    fuel (preInit request)

/-- `CPUSchedulingService.priority_scheduling`, lines 227-235. -/
def priority_scheduling (fuel : Nat) (request : SchedulingRequest) :
    Except SimErr SchedulingResult :=
  if request.preemptive then priority_preemptive fuel request
  else priority_non_preemptive fuel request

/-- Per-process working record of the round-robin family: the dict values
of `_standard_round_robin` / `_weighted_round_robin` /
`_deficit_round_robin` (lines 416, 517, 776-785).  `quantum` is used only
by the weighted variant, `deficit_counter` only by the deficit variant
(Python's `-=` of a float turns the counter into a float, hence `Rat`). -/
structure RRProc where
  process : Process
  remaining : Rat
  response_time : Option Rat
  quantum : Int := 0
  deficit_counter : Rat := 0
deriving DecidableEq

/-- Loop state of the round-robin family. -/
structure RRState where
  processes : List RRProc
  ready_queue : List Int
  schedule : List ScheduleEntry
  results : List ProcessResult
  current_time : Rat
  last_process : Option Int
  cs : Nat
deriving DecidableEq

/-- In-place update of one record of the embedded round-robin dict. -/
def updRR (pid : Int) (f : RRProc → RRProc) (l : List RRProc) : List RRProc :=
  l.map (fun d => if d.process.id = pid then f d else d)

/-- Arrived, unfinished and not yet queued (the membership test against
the ready queue in the source scans the queue as it grows; with unique
pids this equals the filter below). -/
def rrEligible (t : Rat) (ready : List Int) (d : RRProc) : Bool :=
  qLeB d.process.arrival_time t && qLtB 0 d.remaining &&
    decide (d.process.id ∉ ready)

/-- Top-of-loop arrival scan of `_standard_round_robin` (lines 433-442):
eligible pids are collected, sorted ascending, and appended to the tail
of the ready queue. -/
def rrAdmitSorted (st : RRState) : List Int :=
  st.ready_queue ++
    pySortLe (fun a b => decide (a ≤ b))
      (((st.processes.filter (rrEligible st.current_time st.ready_queue)).map
        (fun d => d.process.id)))

/-- Arrival scan of the weighted/deficit variants and the post-execution
scans (lines 534-537, 473-478, 568-571, 844-848): eligible pids are
appended in dict order, unsorted; `excluded` is the just-run process for
the post-execution scans (`pid != current_process_id`). -/
def rrAdmitPlain (procs : List RRProc) (t : Rat) (ready : List Int)
    (excluded : Option Int) : List Int :=
  ready ++
    ((procs.filter (fun d =>
      rrEligible t ready d && decide (some d.process.id ≠ excluded))).map
      (fun d => d.process.id))

/-- Clock jump of the round-robin family (lines 444-450, 539-545,
809-815): `min` of arrivals strictly in the future among unfinished
processes. -/
def rrNextArrival (st : RRState) : Option Rat :=
  pyMinQ ((st.processes.filter (fun d =>
    qLtB 0 d.remaining && qLtB st.current_time d.process.arrival_time)).map
    (fun d => d.process.arrival_time))

/-- Loop condition `ready_queue or any(p['remaining'] > 0 ...)` (lines
432, 533, 802). -/
def rrCond (st : RRState) : Bool :=
  !st.ready_queue.isEmpty || st.processes.any (fun d => qLtB 0 d.remaining)

/-- Arrival scan of `_deficit_round_robin` (lines 803-807, 844-848):
besides queueing, a newly admitted process has its `deficit_counter` set
to the base quantum. -/
def drrAdmit (base_quantum : Int) (procs : List RRProc) (t : Rat)
    (ready : List Int) (excluded : Option Int) : List RRProc × List Int :=
  (procs.map (fun d =>
     if rrEligible t ready d && decide (some d.process.id ≠ excluded) then
       { d with deficit_counter := ((base_quantum : Int) : Rat) }
     else d),
   rrAdmitPlain procs t ready excluded)

/-- Per-dispatch record update of the round-robin family: remaining time
and first-response bookkeeping, plus the deficit-counter decrement
(line 835) in deficit mode. -/
def rrUpd (deficitMode : Option Int) (remaining : Rat) (response_time : Option Rat)
    (execution_time : Rat) (x : RRProc) : RRProc :=
  match deficitMode with
  | none => { x with remaining := remaining, response_time := response_time }
  | some _ => { x with remaining := remaining, response_time := response_time,
                       deficit_counter := qSub x.deficit_counter execution_time }

/-- Post-execution arrival scan of the round-robin family: the plain scan
(lines 473-478, 568-571), or the counter-initializing scan of the deficit
variant (lines 844-848). -/
def rrPostAdmit (deficitMode : Option Int) (procs : List RRProc) (t : Rat)
    (restq : List Int) (current : Int) : List RRProc × List Int :=
  match deficitMode with
  | none => (procs, rrAdmitPlain procs t restq (some current))
  | some base_quantum => drrAdmit base_quantum procs t restq (some current)

/-- Completion clean-up of the round-robin family: the deficit variant
resets the finished process's counter to zero (lines 850-854). -/
def rrFinProcs (deficitMode : Option Int) (current : Int) (procs : List RRProc) :
    List RRProc :=
  match deficitMode with
  | none => procs
  | some _ => updRR current (fun x => { x with deficit_counter := 0 }) procs

/-- Shared dispatch tail of the round-robin family (lines 452-494 and the
analogous blocks of the weighted/deficit variants), parameterized by the
slice length `execution_time` and, for the deficit variant,
`deficitMode = some base_quantum` (which decrements the counter by the
run time, resets it to zero on completion, and uses the
counter-initializing arrival scan after the slice). -/
def rrDispatch (cost : Rat) (st : RRState) (current : Int) (restq : List Int)
    (d : RRProc) (execution_time : Rat) (deficitMode : Option Int) :
    BodyStep RRState :=
  let acs := guardedAcs cost st.schedule st.cs st.current_time st.last_process current
  let schedule := acs.1
  let cs := acs.2.1
  let current_time := acs.2.2
  let response_time :=
    if d.response_time = none then some (qSub current_time d.process.arrival_time)
    else d.response_time
  let schedule := schedule ++ [{ process_id := current, start_time := current_time,
                                 end_time := qAdd current_time execution_time,
                                 type := "execution" }]
  let remaining := qSub d.remaining execution_time
  let current_time := qAdd current_time execution_time
  let processes := updRR current
    (rrUpd deficitMode remaining response_time execution_time) st.processes
  let padm := rrPostAdmit deficitMode processes current_time restq current
  let processes := padm.1
  let ready := padm.2
  if qLtB 0 remaining then
    .next { st with processes := processes, ready_queue := ready ++ [current],
                    schedule := schedule, current_time := current_time,
                    last_process := some current, cs := cs }
  else
    let res : ProcessResult :=
      { pid := current, arrival_time := d.process.arrival_time,
        burst_time := d.process.burst_time, priority := d.process.priority,
        completion_time := current_time,
        turnaround_time := qSub current_time d.process.arrival_time,
        waiting_time := qSub (qSub current_time d.process.arrival_time) d.process.burst_time,
        response_time := response_time }
    .next { st with processes := rrFinProcs deficitMode current processes,
                    ready_queue := ready, schedule := schedule,
                    current_time := current_time,
                    results := st.results ++ [res], last_process := none, cs := cs }

/-- `_standard_round_robin` loop body (lines 433-494). -/
def rr_std_body (cost : Rat) (time_quantum : Int) (st : RRState) : BodyStep RRState :=
  let ready := rrAdmitSorted st
  match ready with
  | [] =>
    match rrNextArrival st with
    | none => .fail .valueError
    | some next_arrival => .next { st with ready_queue := ready, current_time := next_arrival }
  | current :: restq =>
    match st.processes.find? (fun d => d.process.id = current) with
    | none => .fail .keyError
    | some d =>
      rrDispatch cost { st with ready_queue := ready } current restq d
        (qMin ((time_quantum : Int) : Rat) d.remaining) none

/-- Initial ready queue shared by the round-robin family and MLFQ (lines
425-430, 526-531, 794-800): the ids with the earliest arrival, in
`(arrival_time, id)` order. -/
def rrInitialReady (processes : List Process) (earliest : Rat) : List Int :=
  ((pySortLe (fun a b => lexLeQI (a.arrival_time, a.id) (b.arrival_time, b.id))
    processes).filter (fun p => p.arrival_time = earliest)).map (fun p => p.id)

/-- Post-loop result construction of the round-robin family. -/
def rrFinish (cost : Rat) (algorithm : String) (st : RRState) : SchedulingResult :=
  { processes := st.results, schedule := st.schedule,
    metrics := calculate_metrics cost st.cs st.results st.current_time,
    algorithm := algorithm }

/-- `CPUSchedulingService._standard_round_robin`, lines 414-504. -/
def standard_round_robin (fuel : Nat) (request : SchedulingRequest) :
    Except SimErr SchedulingResult :=
  let time_quantum := pyOrInt request.time_quantum 2
  match pyMinQ (request.processes.map (fun p => p.arrival_time)) with
  | none => .error .valueError
  | some earliest_arrival =>
    runLoop rrCond (rr_std_body request.context_switch_cost time_quantum)
      (rrFinish request.context_switch_cost "Round Robin (Standard)") fuel
      { processes := request.processes.map
          (fun p => { process := p, remaining := p.burst_time, response_time := none }),
        ready_queue := rrInitialReady request.processes earliest_arrival,
        schedule := [], results := [], current_time := earliest_arrival,
        last_process := none, cs := 0 }

/-- Per-process quantum of `_weighted_round_robin` (lines 511-515):
`max(1, int(base_quantum * weight))`. -/
def weighted_quantum (base_quantum : Int) (weight : Rat) : Int :=
  let q := pyInt (qMul ((base_quantum : Int) : Rat) weight)
  if 1 < q then q else 1

/-- `_weighted_round_robin` loop body (lines 533-587). -/
def rr_weighted_body (cost : Rat) (st : RRState) : BodyStep RRState :=
  let ready := rrAdmitPlain st.processes st.current_time st.ready_queue none
  match ready with
  | [] =>
    match rrNextArrival st with
    | none => .fail .valueError
    | some next_arrival => .next { st with ready_queue := ready, current_time := next_arrival }
  | current :: restq =>
    match st.processes.find? (fun d => d.process.id = current) with
    | none => .fail .keyError
    | some d =>
      rrDispatch cost { st with ready_queue := ready } current restq d
        (qMin ((d.quantum : Int) : Rat) d.remaining) none

/-- `CPUSchedulingService._weighted_round_robin`, lines 506-597. -/
def weighted_round_robin (fuel : Nat) (request : SchedulingRequest) :
    Except SimErr SchedulingResult :=
  let base_quantum := pyOrInt request.time_quantum 2
  match pyMinQ (request.processes.map (fun p => p.arrival_time)) with
  | none => .error .valueError
  | some earliest_arrival =>
    runLoop rrCond (rr_weighted_body request.context_switch_cost)
      (rrFinish request.context_switch_cost "Round Robin (Weighted)") fuel
      { processes := request.processes.map
          (fun p => { process := p, remaining := p.burst_time, response_time := none,
                      quantum := weighted_quantum base_quantum
                        (weightsGet request.process_weights p.id) }),
        ready_queue := rrInitialReady request.processes earliest_arrival,
        schedule := [], results := [], current_time := earliest_arrival,
        last_process := none, cs := 0 }

/-- `_deficit_round_robin` loop body (lines 802-865). -/
def rr_deficit_body (cost : Rat) (base_quantum : Int) (st : RRState) : BodyStep RRState :=
  let adm := drrAdmit base_quantum st.processes st.current_time st.ready_queue none
  let processes := adm.1
  let ready := adm.2
  match ready with
  | [] =>
    match rrNextArrival { st with processes := processes } with
    | none => .fail .valueError
    | some next_arrival =>
      .next { st with processes := processes, ready_queue := ready,
                      current_time := next_arrival }
  | current :: restq =>
    match processes.find? (fun d => d.process.id = current) with
    | none => .fail .keyError
    | some d0 =>
      let d := { d0 with deficit_counter := qAdd d0.deficit_counter ((base_quantum : Int) : Rat) }
      let processes := updRR current (fun _ => d) processes
      rrDispatch cost { st with processes := processes, ready_queue := ready } current restq d
        (qMin d.deficit_counter d.remaining) (some base_quantum)

/-- `CPUSchedulingService._deficit_round_robin`, lines 773-875.  In the
initial ready queue (earliest arrivals) each queued process starts with
`deficit_counter = base_quantum` (line 800). -/
def deficit_round_robin (fuel : Nat) (request : SchedulingRequest) :
    Except SimErr SchedulingResult :=
  let base_quantum := pyOrInt request.time_quantum 2
  match pyMinQ (request.processes.map (fun p => p.arrival_time)) with
  | none => .error .valueError
  | some earliest_arrival =>
    runLoop rrCond (rr_deficit_body request.context_switch_cost base_quantum)
      (rrFinish request.context_switch_cost "Round Robin (Deficit)") fuel
      { processes := request.processes.map
          (fun p => { process := p, remaining := p.burst_time, response_time := none,
                      deficit_counter :=
                        if p.arrival_time = earliest_arrival
                        then ((base_quantum : Int) : Rat) else 0 }),
        ready_queue := rrInitialReady request.processes earliest_arrival,
        schedule := [], results := [], current_time := earliest_arrival,
        last_process := none, cs := 0 }

/-- Per-process working record of `mlfq` (lines 607-618). -/
structure MlfqProc where
  process : Process
  remaining : Rat
  queue_level : Nat
  response_time : Option Rat
  last_execution_time : Rat
  wait_start_time : Rat
  has_run : Bool
deriving DecidableEq

/-- Loop state of `mlfq`. -/
structure MlfqState where
  processes : List MlfqProc
  queues : List (List Int)
  schedule : List ScheduleEntry
  results : List ProcessResult
  current_time : Rat
  last_process : Option Int
  cs : Nat
  last_boost_time : Rat
deriving DecidableEq

/-- In-place update of one record of the embedded MLFQ dict. -/
def updMlfq (pid : Int) (f : MlfqProc → MlfqProc) (l : List MlfqProc) : List MlfqProc :=
  l.map (fun d => if d.process.id = pid then f d else d)

/-- `pid` sits in some queue (`any(pid in queue for queue in queues)`). -/
def inAnyQueue (queues : List (List Int)) (pid : Int) : Bool :=
  queues.any (fun q => decide (pid ∈ q))

/-- Arrival scan of `mlfq` (lines 635-641 and 697-704): arrived,
unfinished, in no queue (and not the just-run process, for the
post-execution scan): appended to queue 0 with `queue_level` and
`wait_start_time` reset. -/
def mlfqAdmit (procs : List MlfqProc) (queues : List (List Int)) (t : Rat)
    (excluded : Option Int) : List MlfqProc × List (List Int) :=
  let eligible := fun (d : MlfqProc) =>
    qLeB d.process.arrival_time t && qLtB 0 d.remaining &&
      !inAnyQueue queues d.process.id && decide (some d.process.id ≠ excluded)
  let admitted := (procs.filter eligible).map (fun d => d.process.id)
  ((procs.map (fun d =>
      if eligible d then { d with queue_level := 0, wait_start_time := t } else d)),
   queues.set 0 (queues.getD 0 [] ++ admitted))

/-- `CPUSchedulingService._priority_boost_corrected`, lines 741-750:
every pid of every queue below the top is popped in order and appended to
queue 0; moved processes get `queue_level = 0` and a fresh wait timer. -/
def priority_boost_corrected (queues : List (List Int)) (procs : List MlfqProc)
    (current_time : Rat) : List (List Int) × List MlfqProc :=
  match queues with
  | [] => ([], procs)
  | q0 :: rest =>
    let moved := rest.flatten
    ((q0 ++ moved) :: rest.map (fun _ => []),
     procs.map (fun d =>
       if d.process.id ∈ moved then
         { d with queue_level := 0, wait_start_time := current_time }
       else d))

/-- One index step of `_apply_aging_corrected` (lines 757-771): the
members of queue `i` whose wait since `wait_start_time` reached the
threshold are removed (in order) and appended to queue `i-1`, with
`queue_level = max(0, i-1)` and a fresh wait timer. -/
def mlfqIsOld (t : Rat) (aging_threshold : Int) (procs : List MlfqProc)
    (pid : Int) : Bool :=
  match procs.find? (fun d => d.process.id = pid) with
  | none => false
  | some d => qLeB ((aging_threshold : Int) : Rat) (qSub t d.wait_start_time)

def mlfqAgingAt (t : Rat) (aging_threshold : Int)
    (acc : List (List Int) × List MlfqProc) (i : Nat) : List (List Int) × List MlfqProc :=
  let queues := acc.1
  let procs := acc.2
  let qi := queues.getD i []
  let promoted := qi.filter (mlfqIsOld t aging_threshold procs)
  ((queues.set i (qi.filter (fun pid => !mlfqIsOld t aging_threshold procs pid))).set (i - 1)
     (queues.getD (i - 1) [] ++ promoted),
   procs.map (fun d =>
     if d.process.id ∈ promoted then
       { d with queue_level := Nat.max 0 (i - 1), wait_start_time := t }
     else d))

/-- `CPUSchedulingService._apply_aging_corrected`, lines 752-771: no-op
for a non-positive threshold, else the index step above for
`i = 1 … num_queues-1` in ascending order. -/
def apply_aging_corrected (queues : List (List Int)) (procs : List MlfqProc)
    (current_time : Rat) (aging_threshold : Int) : List (List Int) × List MlfqProc :=
  if aging_threshold ≤ 0 then (queues, procs)
  else (List.range' 1 (queues.length - 1)).foldl
    (mlfqAgingAt current_time aging_threshold) (queues, procs)

/-- Quantum of queue `level` (lines 678-680):
`time_quantums[level] if level < len(time_quantums) else time_quantums[-1]`;
`none` is the `IndexError` of `[-1]` on an empty list. -/
def mlfqQuantum (config : MLFQConfig) (level : Nat) : Option Int :=
  if level < config.time_quantums.length then config.time_quantums.get? level
  else config.time_quantums.getLast?

/-- Requeue decision of `mlfq` for a process that still has work left
(lines 706-717): demoted exactly one level — only when it consumed its
full quantum (`execution_time >= time_quantum`) and is not already in the
last queue — otherwise re-queued at its own level; either way the wait
timer restarts. -/
def mlfqRequeue (config : MLFQConfig) (current : Int) (current_queue_level : Nat)
    (time_quantum : Int) (execution_time : Rat) (current_time : Rat)
    (processes : List MlfqProc) (queues : List (List Int)) :
    List MlfqProc × List (List Int) :=
  if qLeB ((time_quantum : Int) : Rat) execution_time &&
      decide ((current_queue_level : Int) < config.num_queues - 1) then
    let new_queue_level := current_queue_level + 1
    (updMlfq current
       (fun x => { x with queue_level := new_queue_level,
                          wait_start_time := current_time }) processes,
     queues.set new_queue_level (queues.getD new_queue_level [] ++ [current]))
  else
    (updMlfq current (fun x => { x with wait_start_time := current_time }) processes,
     queues.set current_queue_level (queues.getD current_queue_level [] ++ [current]))

/-- Loop condition `any(queues) or any(p['remaining'] > 0 ...)` (line 634). -/
def mlfqCond (st : MlfqState) : Bool :=
  st.queues.any (fun q => !q.isEmpty) || st.processes.any (fun d => qLtB 0 d.remaining)

/-- The MLFQ top-of-loop bookkeeping (lines 635-676): arrival scan,
optional priority boost, optional aging. -/
def mlfqStage (config : MLFQConfig) (st : MlfqState) : MlfqState :=
  let adm := mlfqAdmit st.processes st.queues st.current_time none
  let processes := adm.1
  let queues := adm.2
  let boosted :=
    if config.priority_boost && decide (0 < config.boost_interval) &&
        qLeB ((config.boost_interval : Int) : Rat) st.current_time &&
        qLeB ((config.boost_interval : Int) : Rat) (qSub st.current_time st.last_boost_time) then
      let b := priority_boost_corrected queues processes st.current_time
      (b.1, b.2, st.current_time)
    else
      (queues, processes, st.last_boost_time)
  let queues := boosted.1
  let processes := boosted.2.1
  let last_boost_time := boosted.2.2
  let aged :=
    if decide (0 < config.aging_threshold) then
      apply_aging_corrected queues processes st.current_time config.aging_threshold
    else
      (queues, processes)
  { st with processes := aged.2, queues := aged.1, last_boost_time := last_boost_time }

/-- The MLFQ dispatch tail (lines 678-729): pop `current` from its queue,
charge the optional context switch, run one slice, rescan arrivals, then
requeue (with the demotion decision) or record the completed result. -/
def mlfqDispatch (cost : Rat) (config : MLFQConfig) (st : MlfqState)
    (current_queue_level : Nat) (current : Int) (restq : List Int) (d : MlfqProc) :
    BodyStep MlfqState :=
  let queues := st.queues.set current_queue_level restq
  let acs := guardedAcs cost st.schedule st.cs st.current_time st.last_process current
  let schedule := acs.1
  let cs := acs.2.1
  let current_time := acs.2.2
  let response_time :=
    if d.response_time = none then some (qSub current_time d.process.arrival_time)
    else d.response_time
  match mlfqQuantum config current_queue_level with
  | none => .fail .indexError
  | some time_quantum =>
    let execution_time := qMin ((time_quantum : Int) : Rat) d.remaining
    let schedule := schedule ++
      [{ process_id := current, start_time := current_time,
         end_time := qAdd current_time execution_time, type := "execution",
         queue_level := some (current_queue_level : Int) }]
    let remaining := qSub d.remaining execution_time
    let current_time := qAdd current_time execution_time
    let processes := updMlfq current
      (fun x => { x with remaining := remaining, response_time := response_time,
                         last_execution_time := current_time, has_run := true })
      st.processes
    let padm := mlfqAdmit processes queues current_time (some current)
    let processes := padm.1
    let queues := padm.2
    if qLtB 0 remaining then
      let requeued := mlfqRequeue config current current_queue_level time_quantum
        execution_time current_time processes queues
      .next { st with processes := requeued.1, queues := requeued.2,
                      schedule := schedule, current_time := current_time,
                      last_process := some current, cs := cs }
    else
      let res : ProcessResult :=
        { pid := current, arrival_time := d.process.arrival_time,
          burst_time := d.process.burst_time, priority := d.process.priority,
          completion_time := current_time,
          turnaround_time := qSub current_time d.process.arrival_time,
          waiting_time := qSub (qSub current_time d.process.arrival_time)
            d.process.burst_time,
          response_time := response_time }
      .next { st with processes := processes, queues := queues,
                      schedule := schedule, current_time := current_time,
                      results := st.results ++ [res], last_process := none, cs := cs }

/-- `mlfq` loop body (lines 634-729). -/
def mlfq_body (cost : Rat) (config : MLFQConfig) (st : MlfqState) : BodyStep MlfqState :=
  let st := mlfqStage config st
  match st.queues.findIdx? (fun q => !q.isEmpty) with
  | none =>
    let next_arrivals := (st.processes.filter (fun d =>
      qLtB 0 d.remaining && qLtB st.current_time d.process.arrival_time)).map
      (fun d => d.process.arrival_time)
    match pyMinQ next_arrivals with
    | some next_time => .next { st with current_time := next_time }
    | none => .stop st
  | some current_queue_level =>
    match st.queues.getD current_queue_level [] with
    | [] => .fail .indexError
    | current :: restq =>
      match st.processes.find? (fun d => d.process.id = current) with
      | none => .fail .keyError
      | some d => mlfqDispatch cost config st current_queue_level current restq d

/-- Post-loop result construction of `mlfq`. -/
def mlfqFinish (cost : Rat) (config : MLFQConfig) (st : MlfqState) : SchedulingResult :=
  { processes := st.results, schedule := st.schedule,
    metrics := calculate_metrics cost st.cs st.results st.current_time,
    algorithm := "MLFQ (" ++ toString config.num_queues ++ " queues, " ++
      config.feedback_mechanism ++ " feedback)" }

/-- `CPUSchedulingService.mlfq`, lines 599-739.  The initial
`queues[0].append` raises `IndexError` when `num_queues < 1` (the
`min` over arrivals having already raised `ValueError` on an empty
workload). -/
def mlfq (fuel : Nat) (request : SchedulingRequest) : Except SimErr SchedulingResult :=
  let config := request.mlfq_config.getD {}
  match pyMinQ (request.processes.map (fun p => p.arrival_time)) with
  | none => .error .valueError
  | some earliest_arrival =>
    if config.num_queues.toNat = 0 then .error .indexError
    else
      let initial := rrInitialReady request.processes earliest_arrival
      runLoop mlfqCond (mlfq_body request.context_switch_cost config)
        (mlfqFinish request.context_switch_cost config) fuel
        { processes := request.processes.map
            (fun p => { process := p, remaining := p.burst_time, queue_level := 0,
                        response_time := none, last_execution_time := p.arrival_time,
                        wait_start_time :=
                          if p.arrival_time = earliest_arrival then earliest_arrival
                          else p.arrival_time,
                        has_run := false }),
          queues := (List.replicate config.num_queues.toNat (([] : List Int))).set 0 initial,
          schedule := [], results := [], current_time := earliest_arrival,
          last_process := none, cs := 0, last_boost_time := 0 }

/-- `CPUSchedulingService.round_robin`, lines 402-412. -/
def round_robin (fuel : Nat) (request : SchedulingRequest) :
    Except SimErr SchedulingResult :=
  if request.rr_variation = some "weighted" then weighted_round_robin fuel request
  else if request.rr_variation = some "deficit" then deficit_round_robin fuel request
  else standard_round_robin fuel request

/-- `CFSProcess.calculate_weight`, `app/models/cpu.py` lines 96-108: the
nice → weight dict, with default 1024 for a nice value outside the dict
(`weights.get(nice, 1024)`), returned as a float. -/
def calculate_weight (nice : Int) : Rat :=
  if nice = -20 then 88761 else if nice = -19 then 71755
  else if nice = -18 then 56483 else if nice = -17 then 46273
  else if nice = -16 then 36291 else if nice = -15 then 29154
  else if nice = -14 then 23254 else if nice = -13 then 18705
  else if nice = -12 then 14949 else if nice = -11 then 11916
  else if nice = -10 then 9548 else if nice = -9 then 7620
  else if nice = -8 then 6100 else if nice = -7 then 4904
  else if nice = -6 then 3906 else if nice = -5 then 3121
  else if nice = -4 then 2501 else if nice = -3 then 1991
  else if nice = -2 then 1586 else if nice = -1 then 1277
  else if nice = 0 then 1024 else if nice = 1 then 820
  else if nice = 2 then 655 else if nice = 3 then 526
  else if nice = 4 then 423 else if nice = 5 then 335
  else if nice = 6 then 272 else if nice = 7 then 215
  else if nice = 8 then 172 else if nice = 9 then 137
  else if nice = 10 then 110 else if nice = 11 then 87
  else if nice = 12 then 70 else if nice = 13 then 56
  else if nice = 14 then 45 else if nice = 15 then 36
  else if nice = 16 then 29 else if nice = 17 then 23
  else if nice = 18 then 18 else if nice = 19 then 15
  else 1024

/-- Modelled from the spec: the fixed Linux nice-to-weight table of §4.6
("exact table: −20→88761 … 0→1024 … 19→15"), i.e. the kernel's
`sched_prio_to_weight` array, indexed by `nice + 20`. -/
def linux_nice_to_weight : List Rat :=
  [88761, 71755, 56483, 46273, 36291, 29154, 23254, 18705, 14949, 11916,
   9548, 7620, 6100, 4904, 3906, 3121, 2501, 1991, 1586, 1277,
   1024, 820, 655, 526, 423, 335, 272, 215, 172, 137,
   110, 87, 70, 56, 45, 36, 29, 23, 18, 15]

/-- Claim C1's stated contiguity (`entry[i].end_time == entry[i+1].start_time`). -/
def contiguousB : List ScheduleEntry → Bool
  | [] => true
  | [_] => true
  | a :: b :: rest => decide (a.end_time = b.start_time) && contiguousB (b :: rest)

/-- Sorted, non-overlapping timeline: every entry has `start ≤ end` and
consecutive entries satisfy `end_i ≤ start_{i+1}` (gaps allowed). -/
def chainWFB : List ScheduleEntry → Bool
  | [] => true
  | [e] => qLeB e.start_time e.end_time
  | a :: b :: rest => qLeB a.start_time a.end_time && qLeB a.end_time b.start_time &&
      chainWFB (b :: rest)

/-- No entry of the given type occurs in the schedule. -/
def noneOfType (t : String) (schedule : List ScheduleEntry) : Bool :=
  schedule.all (fun e => decide (e.type ≠ t))

/-- Number of context-switch entries of a schedule. -/
def countCS (schedule : List ScheduleEntry) : Nat :=
  (schedule.filter (fun e => decide (e.type = "context_switch"))).length

/-- Sum of the durations of the execution entries of a schedule. -/
def sumExecDur (schedule : List ScheduleEntry) : Rat :=
  sumBy (fun e => qSub e.end_time e.start_time)
    (schedule.filter (fun e => decide (e.type = "execution")))

/-- Sum of the burst times of a process list. -/
def sumBurst (processes : List Process) : Rat :=
  sumBy (fun p => p.burst_time) processes

/-- The first entry of a non-empty schedule is an execution entry. -/
def headIsExecB : List ScheduleEntry → Bool
  | [] => true
  | e :: _ => decide (e.type = "execution")

/-- Well-formed workload per §3 of the spec: unique ids, positive bursts,
non-negative arrivals. -/
def ValidWorkload (processes : List Process) : Prop :=
  (processes.map (fun p => p.id)).Nodup ∧
    ∀ p ∈ processes, 0 < p.burst_time ∧ 0 ≤ p.arrival_time

instance (processes : List Process) : Decidable (ValidWorkload processes) := by
  unfold ValidWorkload; infer_instance

/-- The effective round-robin quantum (`request.time_quantum or 2`) is
positive. -/
def ValidQuantum (tq : Option Int) : Prop := 0 < pyOrInt tq 2

instance (tq : Option Int) : Decidable (ValidQuantum tq) := by
  unfold ValidQuantum; infer_instance

/-- Well-formed MLFQ configuration per §7: at least one queue and
positive quanta. -/
def ValidMlfqConfig (c : MLFQConfig) : Prop :=
  1 ≤ c.num_queues ∧ c.time_quantums ≠ [] ∧ ∀ q ∈ c.time_quantums, 0 < q

instance (c : MLFQConfig) : Decidable (ValidMlfqConfig c) := by
  unfold ValidMlfqConfig; infer_instance

/-- Modelled from the spec, §4.3 / claim C5: the event time at which a
dispatched SRTF slice is claimed to end — the minimum of (a) the selected
process's completion time and (b) the earliest arrival of a not-yet-ready
unfinished process whose comparator tuple `(remaining, arrival, pid)`
would beat the selected process at that future arrival instant (the
selected process's remaining then being reduced by the elapsed time). -/
def srtfSpecNextEvent (processes : List PreProc) (t : Rat) (selected : PreProc) : Rat :=
  let completion := qAdd t selected.remaining
  let beats := processes.filter (fun d =>
    qLtB t d.process.arrival_time && qLtB 0 d.remaining &&
      lexLtQQI (d.remaining, d.process.arrival_time, d.process.id)
        (qSub selected.remaining (qSub d.process.arrival_time t),
         selected.process.arrival_time, selected.process.id))
  (beats.map (fun d => d.process.arrival_time)).foldl qMin completion

/-- Workload of the C1 counterexample: a gap between the two arrivals. -/
def c1Req : SchedulingRequest :=
  { processes := [⟨1, 0, 1, 0, 1⟩, ⟨2, 5, 1, 0, 1⟩], context_switch_cost := 0 }

/-- Empty workload with an otherwise valid configuration (C2). -/
def emptyReq : SchedulingRequest :=
  { processes := [], time_quantum := some 2, context_switch_cost := 1 }

/-- A workload the spec's validation rules would reject (burst ≤ 0,
arrival < 0), used to show nothing rejects it (C2). -/
def invalidReq : SchedulingRequest :=
  { processes := [⟨1, -2, -1, 0, 1⟩], context_switch_cost := 0 }

/-- Workload of the C4 failing input: dynamic preemptive priority where
aged and base priorities select different processes at t = 12. -/
def c4Req : SchedulingRequest :=
  { processes := [⟨1, 0, 12, 0, 1⟩, ⟨2, 0, 5, 6, 1⟩, ⟨3, 11, 5, 5, 1⟩],
    context_switch_cost := 0, preemptive := true, priority_type := some "dynamic" }

/-- Workload of the C5 counterexample: P2 arrives mid-slice with more
remaining work than P1 has left at that instant, yet the code ends P1's
slice there. -/
def c5Req : SchedulingRequest :=
  { processes := [⟨1, 0, 10, 0, 1⟩, ⟨2, 5, 7, 0, 1⟩], context_switch_cost := 0 }

/-- The record of P1 in `preInit c5Req` (selected at the first dispatch). -/
def c5Selected : PreProc :=
  { process := ⟨1, 0, 10, 0, 1⟩, remaining := 10, response_time := none }

/-- The state after the first SRTF dispatch on `c5Req`: P1 ran from 0 to
P2's arrival at 5. -/
def c5Step : PreState :=
  { processes := [⟨⟨1, 0, 10, 0, 1⟩, 5, some 0⟩, ⟨⟨2, 5, 7, 0, 1⟩, 7, none⟩],
    schedule := [⟨1, 0, 5, "execution", none⟩],
    results := [], current_time := 5, last_process := some 1, cs := 0 }

/-- Single-process workload used by some claim witnesses. -/
def oneReq : SchedulingRequest :=
  { processes := [⟨1, 0, 1, 0, 1⟩], context_switch_cost := 0 }

/-- The result of `sjf_non_preemptive` on `oneReq`. -/
def c3Res : SchedulingResult :=
  { processes := [⟨1, 0, 1, 0, 1, 1, 0, some 0⟩],
    schedule := [⟨1, 0, 1, "execution", none⟩],
    metrics := ⟨0, 1, 0, 100, 1, 0, 1⟩,
    algorithm := "SJF (Non-preemptive)" }

/-- A one-process deficit-round-robin state about to dispatch P1 (counter
2, quantum 2, 3 units of work left). -/
def c6St : RRState :=
  { processes := [⟨⟨1, 0, 3, 0, 1⟩, 3, none, 0, 2⟩],
    ready_queue := [1], schedule := [], results := [],
    current_time := 0, last_process := none, cs := 0 }

/-- The state `rr_deficit_body 0 2` produces from `c6St`: the top-up gives
counter 4, the slice is `min(4, 3) = 3`, P1 completes and its counter is
reset to 0. -/
def c6St' : RRState :=
  { processes := [⟨⟨1, 0, 3, 0, 1⟩, 0, some 0, 0, 0⟩],
    ready_queue := [], schedule := [⟨1, 0, 3, "execution", none⟩],
    results := [⟨1, 0, 3, 0, 3, 3, 0, some 0⟩],
    current_time := 3, last_process := none, cs := 0 }

/-- A single waiting MLFQ record (in queue 0 since t = 0), used by the C7
witness. -/
def c7Procs : List MlfqProc :=
  [⟨⟨1, 0, 3, 0, 1⟩, 3, 0, none, 0, 0, false⟩]

/-- The per-result properties of claim C8: non-negative waiting time,
`turnaround = waiting + burst`, and a recorded response time between 0
and the waiting time. -/
def ResultOk (res : ProcessResult) : Prop :=
  0 ≤ res.waiting_time ∧ res.turnaround_time = res.waiting_time + res.burst_time ∧
    ∃ rt, res.response_time = some rt ∧ 0 ≤ rt ∧ rt ≤ res.waiting_time

/-- Timeline/accounting invariant every loop maintains for its schedule,
switch counter and clock. -/
structure SchedInv (cost : Rat) (schedule : List ScheduleEntry) (cs : Nat) (t : Rat) :
    Prop where
  chain : chainWFB schedule = true
  ends_le : ∀ e ∈ schedule, e.end_time ≤ t
  head_exec : headIsExecB schedule = true
  no_idle : noneOfType "idle" schedule = true
  cs_count : countCS schedule = cs
  cs_zero : cost ≤ 0 → cs = 0

/-- First-dispatch/response bookkeeping invariant of one runtime record:
before the first dispatch the full burst remains; after it, the recorded
response is non-negative and the work done since fits between the first
dispatch and the current clock. -/
def RespInv (t arrival burst remaining : Rat) (response : Option Rat) : Prop :=
  (response = none → remaining = burst) ∧
    ∀ r, response = some r → 0 ≤ r ∧ arrival + r + (burst - remaining) ≤ t

/-- What the per-algorithm run lemmas establish about an `ok` result:
the C1 (amended), C3, C8 and C10 facts. -/
def GoodRun (cost : Rat) (P : List Process) (RP : ProcessResult → Prop)
    (r : SchedulingResult) : Prop :=
  chainWFB r.schedule = true ∧ noneOfType "idle" r.schedule = true ∧
    headIsExecB r.schedule = true ∧
    r.metrics.context_switches = countCS r.schedule ∧
    (cost ≤ 0 → countCS r.schedule = 0) ∧
    sumExecDur r.schedule = sumBurst P ∧
    ∀ res ∈ r.processes, RP res

/-- Loop invariant of the non-preemptive selectors. -/
structure NPInv (cost : Rat) (P : List Process) (st : NPState) : Prop where
  sched : SchedInv cost st.schedule st.cs st.current_time
  procs_eq : st.processes = P
  work : sumExecDur st.schedule =
    sumBy (fun p => if p.id ∈ st.completed then p.burst_time else 0) P
  completed_nodup : st.completed.Nodup
  completed_mem : ∀ i ∈ st.completed, i ∈ P.map (fun p => p.id)
  results_ok : ∀ res ∈ st.results, ResultOk res ∧ res.response_time = some res.waiting_time

/-- Loop invariant of the preemptive selectors. -/
structure PreInv (cost : Rat) (P : List Process) (st : PreState) : Prop where
  sched : SchedInv cost st.schedule st.cs st.current_time
  procs_map : st.processes.map (fun d => d.process) = P
  work : sumExecDur st.schedule + sumBy (fun d => d.remaining) st.processes = sumBurst P
  rem_nonneg : ∀ d ∈ st.processes, 0 ≤ d.remaining
  resp : ∀ d ∈ st.processes,
    RespInv st.current_time d.process.arrival_time d.process.burst_time d.remaining
      d.response_time
  results_ok : ∀ res ∈ st.results, ResultOk res

/-- Loop invariant of the round-robin family (`qspec` is the per-variant
side condition on the quantum/deficit bookkeeping fields). -/
structure RRInv (cost : Rat) (P : List Process) (qspec : RRProc → Prop)
    (st : RRState) : Prop where
  sched : SchedInv cost st.schedule st.cs st.current_time
  procs_map : st.processes.map (fun d => d.process) = P
  work : sumExecDur st.schedule + sumBy (fun d => d.remaining) st.processes = sumBurst P
  rem_nonneg : ∀ d ∈ st.processes, 0 ≤ d.remaining
  ready_nodup : st.ready_queue.Nodup
  ready_mem : ∀ pid ∈ st.ready_queue, ∃ d ∈ st.processes,
    d.process.id = pid ∧ 0 < d.remaining ∧ d.process.arrival_time ≤ st.current_time
  resp : ∀ d ∈ st.processes,
    RespInv st.current_time d.process.arrival_time d.process.burst_time d.remaining
      d.response_time
  qspec_all : ∀ d ∈ st.processes, qspec d
  results_ok : ∀ res ∈ st.results, ResultOk res

/-- Loop invariant of `mlfq`. -/
structure MlfqInv (cost : Rat) (P : List Process) (st : MlfqState) : Prop where
  sched : SchedInv cost st.schedule st.cs st.current_time
  procs_map : st.processes.map (fun d => d.process) = P
  work : sumExecDur st.schedule + sumBy (fun d => d.remaining) st.processes = sumBurst P
  rem_nonneg : ∀ d ∈ st.processes, 0 ≤ d.remaining
  queues_ne : st.queues ≠ []
  queued_mem : ∀ pid, inAnyQueue st.queues pid = true → ∃ d ∈ st.processes,
    d.process.id = pid ∧ d.process.arrival_time ≤ st.current_time
  resp : ∀ d ∈ st.processes,
    RespInv st.current_time d.process.arrival_time d.process.burst_time d.remaining
      d.response_time
  results_ok : ∀ res ∈ st.results, ResultOk res

/-- Stage invariant threaded through the MLFQ top-of-loop bookkeeping
(arrival scan, priority boost, aging): all facts about the process list
and queue contents that those stages preserve. -/
structure MCore (P : List Process) (W t : Rat) (procs : List MlfqProc)
    (queues : List (List Int)) : Prop where
  procs_map : procs.map (fun d => d.process) = P
  rem_sum : sumBy (fun d => d.remaining) procs = W
  rem_nonneg : ∀ d ∈ procs, 0 ≤ d.remaining
  resp : ∀ d ∈ procs,
    RespInv t d.process.arrival_time d.process.burst_time d.remaining d.response_time
  queued_mem : ∀ pid, inAnyQueue queues pid = true → ∃ d ∈ procs,
    d.process.id = pid ∧ d.process.arrival_time ≤ t
  qne : queues ≠ []

/-! ## Bridge lemmas: the kernel-reducible wrappers are the `ℚ` field
operations. -/

theorem qAdd_eq (a b : Rat) : qAdd a b = a + b := by
  rw [qAdd, Rat.mkRat_eq_div]
  push_cast
  conv_rhs => rw [← Rat.num_div_den a, ← Rat.num_div_den b]
  rw [div_add_div _ _ (by positivity) (by positivity)]
  ring_nf

theorem qNeg_eq (a : Rat) : qNeg a = -a := by
  rw [qNeg, Rat.mkRat_eq_div]
  push_cast
  rw [neg_div, Rat.num_div_den]

theorem qSub_eq (a b : Rat) : qSub a b = a - b := by
  rw [qSub, qAdd_eq, qNeg_eq, sub_eq_add_neg]

theorem qMul_eq (a b : Rat) : qMul a b = a * b := by
  rw [qMul, Rat.mkRat_eq_div]
  push_cast
  conv_rhs => rw [← Rat.num_div_den a, ← Rat.num_div_den b]
  rw [div_mul_div_comm]

theorem qInv_eq (a : Rat) : qInv a = a⁻¹ := by
  rw [qInv]
  split
  case isTrue h =>
    rw [Rat.mkRat_eq_div]
    conv_rhs => rw [← Rat.num_div_den a]
    rw [inv_div]
    push_cast [Int.cast_natAbs]
    rw [abs_of_neg (by exact_mod_cast h)]
    rw [div_neg, neg_div, neg_neg]
  case isFalse h =>
    rw [Rat.mkRat_eq_div]
    conv_rhs => rw [← Rat.num_div_den a]
    rw [inv_div]
    congr 1
    exact_mod_cast Int.toNat_of_nonneg (le_of_not_lt h)

theorem qDiv_eq (a b : Rat) : qDiv a b = a / b := by
  rw [qDiv, qMul_eq, qInv_eq, div_eq_mul_inv]

theorem qLtB_eq (a b : Rat) : qLtB a b = decide (a < b) := by
  rw [qLtB, decide_eq_decide]
  conv_rhs => rw [← Rat.num_div_den a, ← Rat.num_div_den b]
  rw [div_lt_div_iff₀ (by positivity) (by positivity)]
  constructor <;> intro h <;> exact_mod_cast h

theorem qLeB_eq (a b : Rat) : qLeB a b = decide (a ≤ b) := by
  rw [qLeB, decide_eq_decide]
  conv_rhs => rw [← Rat.num_div_den a, ← Rat.num_div_den b]
  rw [div_le_div_iff₀ (by positivity) (by positivity)]
  constructor <;> intro h <;> exact_mod_cast h

theorem qLtB_iff (a b : Rat) : qLtB a b = true ↔ a < b := by
  rw [qLtB_eq, decide_eq_true_iff]

theorem qLeB_iff (a b : Rat) : qLeB a b = true ↔ a ≤ b := by
  rw [qLeB_eq, decide_eq_true_iff]

theorem qLtB_eq_false_iff (a b : Rat) : qLtB a b = false ↔ b ≤ a := by
  rw [qLtB_eq, decide_eq_false_iff_not, not_lt]

theorem qLeB_eq_false_iff (a b : Rat) : qLeB a b = false ↔ b < a := by
  rw [qLeB_eq, decide_eq_false_iff_not, not_le]

theorem qMin_eq (a b : Rat) : qMin a b = min a b := by
  rw [qMin]
  rcases lt_or_le b a with h | h
  · rw [if_pos ((qLtB_iff b a).mpr h), min_eq_right h.le]
  · rw [if_neg (by rw [qLtB_eq, decide_eq_true_iff]; exact not_lt.mpr h),
      min_eq_left h]

theorem pyInt_eq_floor (q : Rat) (h : 0 ≤ q) : pyInt q = ⌊q⌋ := by
  rw [pyInt, Rat.floor_def]
  exact Int.tdiv_eq_ediv (Rat.num_nonneg.mpr h) (Int.ofNat_nonneg q.den)

/-! ## Helper lemmas about the Python-style list operations. -/

theorem foldlMin_mem {α κ : Type} (lt : κ → κ → Bool) (key : α → κ) :
    ∀ (xs : List α) (b : α) (L : List α), b ∈ L → (∀ x ∈ xs, x ∈ L) →
      xs.foldl (fun best y => if lt (key y) (key best) then y else best) b ∈ L := by
  intro xs
  induction xs with
  | nil => intro b L hb _; simpa using hb
  | cons y ys ih =>
    intro b L hb hxs
    rw [List.foldl_cons]
    refine ih _ L ?_ (fun x hx => hxs x (List.mem_cons_of_mem y hx))
    by_cases hlt : lt (key y) (key b) = true
    · rw [if_pos hlt]; exact hxs y (List.mem_cons_self y ys)
    · rw [if_neg hlt]; exact hb

theorem pyMinBy_mem {α κ : Type} (lt : κ → κ → Bool) (key : α → κ) (l : List α) (m : α)
    (h : pyMinBy lt key l = some m) : m ∈ l := by
  match l with
  | [] => simp [pyMinBy] at h
  | x :: xs =>
    rw [pyMinBy, Option.some_inj] at h
    subst h
    exact foldlMin_mem lt key xs x (x :: xs) (List.mem_cons_self x xs)
      (fun a ha => List.mem_cons_of_mem x ha)

theorem pyMinBy_isSome {α κ : Type} (lt : κ → κ → Bool) (key : α → κ) (l : List α)
    (h : l ≠ []) : ∃ m, pyMinBy lt key l = some m := by
  match l with
  | [] => exact absurd rfl h
  | x :: xs => exact ⟨_, rfl⟩

theorem pyMinQ_mem (l : List Rat) (m : Rat) (h : pyMinQ l = some m) : m ∈ l :=
  pyMinBy_mem qLtB id l m h

/-- The first-minimum fold over rationals computes the `ℚ` minimum. -/
theorem foldlMinQ_eq (xs : List Rat) (b : Rat) :
    xs.foldl (fun best y => if qLtB (id y) (id best) then y else best) b =
      xs.foldl min b := by
  induction xs generalizing b with
  | nil => rfl
  | cons y ys ih =>
    rw [List.foldl_cons, List.foldl_cons, ih]
    simp only [id_eq]
    congr 1
    rcases lt_or_le y b with h | h
    · rw [if_pos ((qLtB_iff y b).mpr h)]
      exact (min_eq_right h.le).symm
    · rw [if_neg (by rw [qLtB_eq, decide_eq_true_iff]; exact not_lt.mpr h)]
      exact (min_eq_left h).symm

theorem pyMinQ_cons (x : Rat) (xs : List Rat) :
    pyMinQ (x :: xs) = some (xs.foldl min x) := by
  rw [pyMinQ, pyMinBy, foldlMinQ_eq]

theorem foldl_min_le_init (xs : List Rat) (b : Rat) : xs.foldl min b ≤ b := by
  induction xs generalizing b with
  | nil => exact le_refl b
  | cons y ys ih =>
    rw [List.foldl_cons]
    exact le_trans (ih (min b y)) (min_le_left b y)

theorem foldl_min_le_mem (xs : List Rat) (b : Rat) (x : Rat) (hx : x ∈ xs) :
    xs.foldl min b ≤ x := by
  induction xs generalizing b with
  | nil => simp at hx
  | cons y ys ih =>
    rw [List.foldl_cons]
    rcases List.mem_cons.mp hx with rfl | hx
    · exact le_trans (foldl_min_le_init ys (min b x)) (min_le_right b x)
    · exact ih (min b y) hx

theorem pyMinQ_le (l : List Rat) (m : Rat) (h : pyMinQ l = some m) :
    ∀ x ∈ l, m ≤ x := by
  match l with
  | [] => simp [pyMinQ, pyMinBy] at h
  | x :: xs =>
    rw [pyMinQ_cons, Option.some_inj] at h
    subst h
    intro y hy
    rcases List.mem_cons.mp hy with rfl | hy
    · exact foldl_min_le_init xs y
    · exact foldl_min_le_mem xs x y hy

theorem pySortLe_perm {α : Type} (le : α → α → Bool) (l : List α) :
    (pySortLe le l).Perm l := by
  induction l with
  | nil => rfl
  | cons x xs ih =>
    rw [pySortLe, List.foldr_cons]
    have hins : ∀ (y : α) (m : List α), (pyInsortLe le y m).Perm (y :: m) := by
      intro y m
      induction m with
      | nil => rfl
      | cons z zs ihm =>
        rw [pyInsortLe]
        by_cases h : le y z = true
        · rw [if_pos h]
        · rw [if_neg h]
          exact (List.Perm.cons z ihm).trans (List.Perm.swap y z zs)
    exact (hins x _).trans (List.Perm.cons x ih)

/-! ## Sum and schedule-append lemmas. -/

theorem sumBy_eq_sum {α : Type} (f : α → Rat) (l : List α) : sumBy f l = (l.map f).sum := by
  induction l with
  | nil => rfl
  | cons x xs ih => rw [sumBy, List.foldr_cons, qAdd_eq, List.map_cons, List.sum_cons]
                    rw [← sumBy, ih]

theorem sumBy_append {α : Type} (f : α → Rat) (l₁ l₂ : List α) :
    sumBy f (l₁ ++ l₂) = sumBy f l₁ + sumBy f l₂ := by
  rw [sumBy_eq_sum, sumBy_eq_sum, sumBy_eq_sum, List.map_append, List.sum_append]

theorem sumBy_cons {α : Type} (f : α → Rat) (x : α) (l : List α) :
    sumBy f (x :: l) = f x + sumBy f l := by
  rw [sumBy_eq_sum, sumBy_eq_sum, List.map_cons, List.sum_cons]

theorem sumBy_zero {α : Type} (f : α → Rat) (l : List α) (h : ∀ x ∈ l, f x = 0) :
    sumBy f l = 0 := by
  induction l with
  | nil => rfl
  | cons x xs ih =>
    rw [sumBy_cons, h x (List.mem_cons_self x xs), zero_add]
    exact ih (fun y hy => h y (List.mem_cons_of_mem x hy))

theorem sumBy_congr {α : Type} (f g : α → Rat) (l : List α) (h : ∀ x ∈ l, f x = g x) :
    sumBy f l = sumBy g l := by
  rw [sumBy_eq_sum, sumBy_eq_sum]
  exact congrArg List.sum (List.map_congr_left h)

theorem chainWFB_append (l : List ScheduleEntry) (e : ScheduleEntry)
    (hl : chainWFB l = true) (hse : e.start_time ≤ e.end_time)
    (hlast : ∀ x ∈ l, x.end_time ≤ e.start_time) : chainWFB (l ++ [e]) = true := by
  induction l with
  | nil => simpa [chainWFB, qLeB_iff] using hse
  | cons a l ih =>
    cases l with
    | nil =>
      simp only [List.cons_append, List.nil_append, chainWFB, Bool.and_eq_true] at hl ⊢
      exact ⟨⟨hl, (qLeB_iff _ _).mpr (hlast a (List.mem_cons_self a []))⟩,
        (qLeB_iff _ _).mpr hse⟩
    | cons b m =>
      simp only [List.cons_append, chainWFB, Bool.and_eq_true] at hl ⊢
      refine ⟨hl.1, ?_⟩
      exact ih hl.2 (fun x hx => hlast x (List.mem_cons_of_mem a hx))

theorem countCS_append (l : List ScheduleEntry) (e : ScheduleEntry) :
    countCS (l ++ [e]) = countCS l + (if e.type = "context_switch" then 1 else 0) := by
  rw [countCS, countCS, List.filter_append, List.length_append]
  congr 1
  by_cases h : e.type = "context_switch"
  · simp [h]
  · simp [h]

theorem noneOfType_append (t : String) (l : List ScheduleEntry) (e : ScheduleEntry)
    (h : noneOfType t l = true) (he : e.type ≠ t) : noneOfType t (l ++ [e]) = true := by
  rw [noneOfType, List.all_append] at *
  simp only [Bool.and_eq_true, List.all_cons, List.all_nil, Bool.and_true]
  exact ⟨h, by simpa using he⟩

theorem headIsExecB_append (l : List ScheduleEntry) (e : ScheduleEntry)
    (hl : headIsExecB l = true) (h : l = [] → e.type = "execution") :
    headIsExecB (l ++ [e]) = true := by
  cases l with
  | nil => simpa [headIsExecB] using h rfl
  | cons a m => simpa [headIsExecB] using hl

theorem sumExecDur_append_exec (l : List ScheduleEntry) (e : ScheduleEntry)
    (he : e.type = "execution") :
    sumExecDur (l ++ [e]) = sumExecDur l + (e.end_time - e.start_time) := by
  rw [sumExecDur, sumExecDur, List.filter_append, sumBy_append]
  congr 1
  simp [he, sumBy_cons, sumBy, qSub_eq, qAdd_eq]

theorem sumExecDur_append_nonexec (l : List ScheduleEntry) (e : ScheduleEntry)
    (he : e.type ≠ "execution") : sumExecDur (l ++ [e]) = sumExecDur l := by
  rw [sumExecDur, sumExecDur, List.filter_append]
  have : List.filter (fun e => decide (e.type = "execution")) [e] = [] := by simp [he]
  rw [this, List.append_nil]

theorem SchedInv.mono {cost : Rat} {sch : List ScheduleEntry} {cs : Nat} {t t' : Rat}
    (h : SchedInv cost sch cs t) (ht : t ≤ t') : SchedInv cost sch cs t' :=
  ⟨h.chain, fun e he => le_trans (h.ends_le e he) ht, h.head_exec, h.no_idle,
    h.cs_count, h.cs_zero⟩

/-- `_add_context_switch` preserves the schedule invariant, advances the
clock, and adds no execution time. -/
theorem add_context_switch_inv (cost : Rat) (sch : List ScheduleEntry) (cs : Nat)
    (t : Rat) (fp : Option Int) (h : SchedInv cost sch cs t) :
    SchedInv cost (add_context_switch cost sch cs t fp).1
      (add_context_switch cost sch cs t fp).2.1
      (add_context_switch cost sch cs t fp).2.2 ∧
    t ≤ (add_context_switch cost sch cs t fp).2.2 ∧
    sumExecDur (add_context_switch cost sch cs t fp).1 = sumExecDur sch := by
  rw [add_context_switch]
  by_cases hc : (qLtB 0 cost && decide (0 < sch.length)) = true
  · rw [if_pos hc]
    rw [Bool.and_eq_true, qLtB_iff, decide_eq_true_iff] at hc
    obtain ⟨hcost, hlen⟩ := hc
    have htc : t ≤ qAdd t cost := by rw [qAdd_eq]; linarith
    refine ⟨⟨?_, ?_, ?_, ?_, ?_, ?_⟩, htc, ?_⟩
    · exact chainWFB_append sch _ h.chain (by simpa [qAdd_eq] using le_of_lt hcost)
        (fun x hx => h.ends_le x hx)
    · intro e he
      rcases List.mem_append.mp he with he | he
      · exact le_trans (h.ends_le e he) htc
      · rcases List.mem_singleton.mp he with rfl
        exact le_refl _
    · exact headIsExecB_append sch _ h.head_exec
        (fun hnil => absurd (hnil ▸ hlen) (by simp))
    · exact noneOfType_append _ sch _ h.no_idle (by simp)
    · rw [countCS_append, if_pos rfl, h.cs_count]
    · intro hle
      exact absurd (lt_of_lt_of_le hcost hle) (lt_irrefl 0)
    · exact sumExecDur_append_nonexec sch _ (by simp)
  · rw [if_neg hc]
    exact ⟨h, le_refl t, rfl⟩

/-- Appending an execution entry `[t, t + dur)` preserves the schedule
invariant with the clock advanced to its end, and adds `dur` of execution
time. -/
theorem append_exec_inv (cost : Rat) (sch : List ScheduleEntry) (cs : Nat) (t : Rat)
    (pid : Int) (dur : Rat) (ql : Option Int) (h : SchedInv cost sch cs t)
    (hdur : 0 ≤ dur) :
    SchedInv cost (sch ++ [⟨pid, t, qAdd t dur, "execution", ql⟩]) cs (qAdd t dur) ∧
    sumExecDur (sch ++ [⟨pid, t, qAdd t dur, "execution", ql⟩]) = sumExecDur sch + dur := by
  have htd : t ≤ qAdd t dur := by rw [qAdd_eq]; linarith
  refine ⟨⟨?_, ?_, ?_, ?_, ?_, h.cs_zero⟩, ?_⟩
  · exact chainWFB_append sch _ h.chain htd (fun x hx => h.ends_le x hx)
  · intro e he
    rcases List.mem_append.mp he with he | he
    · exact le_trans (h.ends_le e he) htd
    · rcases List.mem_singleton.mp he with rfl
      exact le_refl _
  · exact headIsExecB_append sch _ h.head_exec (fun _ => rfl)
  · exact noneOfType_append _ sch _ h.no_idle (by simp)
  · rw [countCS_append, if_neg (by simp), h.cs_count]
    omega
  · rw [sumExecDur_append_exec sch _ rfl]
    simp [qAdd_eq]

/-- Invariant induction over `runLoop`: an invariant preserved by the
body, implying the goal at every exit point, holds of any `ok` result. -/
theorem runLoop_inv {σ : Type} (cond : σ → Bool) (body : σ → BodyStep σ)
    (finish : σ → SchedulingResult) (Inv : σ → Prop) (P : SchedulingResult → Prop)
    (hnext : ∀ s s', cond s = true → Inv s → body s = .next s' → Inv s')
    (hstop : ∀ s s', cond s = true → Inv s → body s = .stop s' → P (finish s'))
    (hfin : ∀ s, cond s = false → Inv s → P (finish s)) :
    ∀ (fuel : Nat) (s : σ) (r : SchedulingResult),
      Inv s → runLoop cond body finish fuel s = .ok r → P r := by
  intro fuel
  induction fuel with
  | zero =>
    intro s r _ h
    simp [runLoop] at h
  | succ n ih =>
    intro s r hInv h
    rw [runLoop] at h
    by_cases hc : cond s = true
    · rw [if_pos hc] at h
      cases hb : body s with
      | next s' =>
        rw [hb] at h
        exact ih s' r (hnext s s' hc hInv hb) h
      | stop s' =>
        rw [hb] at h
        cases Except.ok.inj h
        exact hstop s s' hc hInv hb
      | fail e =>
        rw [hb] at h
        exact absurd h (by simp)
    · rw [if_neg hc] at h
      cases Except.ok.inj h
      exact hfin s (Bool.eq_false_iff.mpr hc ▸ rfl) hInv

/-- `(calculate_metrics …).context_switches` is the counter passed in. -/
theorem calculate_metrics_cs (c : Rat) (cs : Nat) (results : List ProcessResult)
    (t : Rat) : (calculate_metrics c cs results t).context_switches = cs := by
  rw [calculate_metrics]
  split <;> rfl

/-! ## FCFS invariant. -/

theorem fcfsStep_inv (cost : Rat) (st : NPState) (p : Process)
    (hsc : SchedInv cost st.schedule st.cs st.current_time)
    (hre : ∀ res ∈ st.results, ResultOk res ∧ res.response_time = some res.waiting_time)
    (hb : 0 < p.burst_time) :
    SchedInv cost (fcfsStep cost st p).schedule (fcfsStep cost st p).cs
      (fcfsStep cost st p).current_time ∧
    (∀ res ∈ (fcfsStep cost st p).results,
      ResultOk res ∧ res.response_time = some res.waiting_time) ∧
    sumExecDur (fcfsStep cost st p).schedule = sumExecDur st.schedule + p.burst_time := by
  simp only [fcfsStep]
  set t1 := if qLtB st.current_time p.arrival_time then p.arrival_time else st.current_time
    with ht1
  have h1 : p.arrival_time ≤ t1 ∧ st.current_time ≤ t1 := by
    rw [ht1]
    by_cases hq : qLtB st.current_time p.arrival_time = true
    · rw [if_pos hq]
      exact ⟨le_refl _, le_of_lt ((qLtB_iff _ _).mp hq)⟩
    · rw [if_neg hq]
      exact ⟨(qLtB_eq_false_iff _ _).mp (Bool.not_eq_true _ ▸ hq), le_refl _⟩
  have hsc1 : SchedInv cost st.schedule st.cs t1 := hsc.mono h1.2
  set acs := if st.last_process.isSome then
      add_context_switch cost st.schedule st.cs t1 st.last_process
    else (st.schedule, st.cs, t1) with hacs
  have hacs_inv : SchedInv cost acs.1 acs.2.1 acs.2.2 ∧ t1 ≤ acs.2.2 ∧
      sumExecDur acs.1 = sumExecDur st.schedule := by
    rw [hacs]
    by_cases hl : st.last_process.isSome
    · rw [if_pos hl]
      exact add_context_switch_inv cost st.schedule st.cs t1 st.last_process hsc1
    · rw [if_neg hl]
      exact ⟨hsc1, le_refl _, rfl⟩
  obtain ⟨hsc2, ht2, hsum2⟩ := hacs_inv
  have harr : p.arrival_time ≤ acs.2.2 := le_trans h1.1 ht2
  obtain ⟨hsc3, hsum3⟩ := append_exec_inv cost acs.1 acs.2.1 acs.2.2 p.id p.burst_time
    none hsc2 (le_of_lt hb)
  refine ⟨?_, ?_, ?_⟩
  · exact hsc3
  · intro res hres
    rcases List.mem_append.mp hres with hres | hres
    · exact hre res hres
    · rcases List.mem_singleton.mp hres with rfl
      refine ⟨⟨?_, ?_, ⟨qSub acs.2.2 p.arrival_time, rfl, ?_, le_refl _⟩⟩, rfl⟩
      · show 0 ≤ qSub acs.2.2 p.arrival_time
        rw [qSub_eq]; linarith
      · show qSub (qAdd acs.2.2 p.burst_time) p.arrival_time =
          qSub acs.2.2 p.arrival_time + p.burst_time
        rw [qSub_eq, qSub_eq, qAdd_eq]; ring
      · rw [qSub_eq]; linarith
  · exact hsum3.trans (by rw [hsum2])

theorem fcfs_fold (cost : Rat) (l : List Process) (hl : ∀ p ∈ l, 0 < p.burst_time) :
    ∀ st : NPState,
      SchedInv cost st.schedule st.cs st.current_time →
      (∀ res ∈ st.results, ResultOk res ∧ res.response_time = some res.waiting_time) →
      SchedInv cost (l.foldl (fcfsStep cost) st).schedule (l.foldl (fcfsStep cost) st).cs
        (l.foldl (fcfsStep cost) st).current_time ∧
      (∀ res ∈ (l.foldl (fcfsStep cost) st).results,
        ResultOk res ∧ res.response_time = some res.waiting_time) ∧
      sumExecDur (l.foldl (fcfsStep cost) st).schedule =
        sumExecDur st.schedule + sumBurst l := by
  induction l with
  | nil =>
    intro st hsc hre
    refine ⟨hsc, hre, ?_⟩
    rw [sumBurst, sumBy]
    simp
  | cons p rest ih =>
    intro st hsc hre
    obtain ⟨hsc1, hre1, hsum1⟩ := fcfsStep_inv cost st p hsc hre
      (hl p (List.mem_cons_self p rest))
    rw [List.foldl_cons]
    obtain ⟨hsc2, hre2, hsum2⟩ := ih (fun q hq => hl q (List.mem_cons_of_mem p hq))
      (fcfsStep cost st p) hsc1 hre1
    refine ⟨hsc2, hre2, ?_⟩
    rw [hsum2, hsum1]
    simp only [sumBurst]
    rw [sumBy_cons]
    ring

/-- The initial state of each loop has the trivial schedule invariant. -/
theorem SchedInv_init (cost : Rat) (t : Rat) : SchedInv cost [] 0 t :=
  ⟨rfl, fun e he => absurd he (List.not_mem_nil e), rfl, rfl, rfl, fun _ => rfl⟩

/-- FCFS produces a `GoodRun` on any workload with positive bursts. -/
theorem fcfs_good (request : SchedulingRequest)
    (hb : ∀ p ∈ request.processes, 0 < p.burst_time) :
    GoodRun request.context_switch_cost request.processes
      (fun res => ResultOk res ∧ res.response_time = some res.waiting_time)
      (fcfs request) := by
  have hperm := pySortLe_perm (fun a b => qLeB a.arrival_time b.arrival_time)
    request.processes
  have hb' : ∀ p ∈ pySortLe (fun a b => qLeB a.arrival_time b.arrival_time)
      request.processes, 0 < p.burst_time := fun p hp => hb p (hperm.mem_iff.mp hp)
  obtain ⟨hsc, hre, hsum⟩ := fcfs_fold request.context_switch_cost _ hb'
    { processes := pySortLe (fun a b => qLeB a.arrival_time b.arrival_time)
        request.processes, schedule := [], results := [], current_time := 0,
      completed := [], last_process := none, cs := 0 }
    (SchedInv_init _ 0) (fun res hres => absurd hres (List.not_mem_nil res))
  have hsum' : sumBurst (pySortLe (fun a b => qLeB a.arrival_time b.arrival_time)
      request.processes) = sumBurst request.processes := by
    rw [sumBurst, sumBurst, sumBy_eq_sum, sumBy_eq_sum]
    exact List.Perm.sum_eq (hperm.map (fun p => p.burst_time))
  simp only [GoodRun, fcfs]
  refine ⟨hsc.chain, hsc.no_idle, hsc.head_exec, ?_, ?_, ?_, hre⟩
  · rw [calculate_metrics_cs]
    exact hsc.cs_count.symm
  · intro hc
    rw [hsc.cs_count]
    exact hsc.cs_zero hc
  · rw [hsum]
    rw [sumExecDur, List.filter_nil, sumBy, List.foldr_nil, zero_add, hsum']

/-! ## Non-preemptive loop invariant. -/

theorem sumBy_if_mem_append (P : List Process) (completed : List Int) (sel : Process)
    (hnd : (P.map (fun p => p.id)).Nodup) (hmem : sel ∈ P) (hnin : sel.id ∉ completed) :
    sumBy (fun p => if p.id ∈ completed ++ [sel.id] then p.burst_time else 0) P =
      sumBy (fun p => if p.id ∈ completed then p.burst_time else 0) P + sel.burst_time := by
  induction P with
  | nil => simp at hmem
  | cons p rest ih =>
    rw [List.map_cons, List.nodup_cons] at hnd
    rw [sumBy_cons, sumBy_cons]
    rcases List.mem_cons.mp hmem with rfl | hmem'
    · have hrest : ∀ q ∈ rest,
          (if q.id ∈ completed ++ [sel.id] then q.burst_time else 0) =
            (if q.id ∈ completed then q.burst_time else 0) := by
        intro q hq
        have hne : q.id ≠ sel.id := by
          intro hh
          exact hnd.1 (hh ▸ List.mem_map_of_mem (fun p => p.id) hq)
        by_cases hqc : q.id ∈ completed
        · rw [if_pos hqc, if_pos (List.mem_append.mpr (Or.inl hqc))]
        · rw [if_neg hqc, if_neg (fun hh => by
            rcases List.mem_append.mp hh with hh | hh
            · exact hqc hh
            · exact hne (List.mem_singleton.mp hh))]
      rw [sumBy_congr _ _ rest hrest]
      rw [if_pos (List.mem_append.mpr (Or.inr (List.mem_singleton.mpr rfl))), if_neg hnin]
      ring
    · have hne : p.id ≠ sel.id := by
        intro hh
        exact hnd.1 (hh ▸ List.mem_map_of_mem (fun p => p.id) hmem')
      have hp : (if p.id ∈ completed ++ [sel.id] then p.burst_time else 0) =
          (if p.id ∈ completed then p.burst_time else 0) := by
        by_cases hqc : p.id ∈ completed
        · rw [if_pos hqc, if_pos (List.mem_append.mpr (Or.inl hqc))]
        · rw [if_neg hqc, if_neg (fun hh => by
            rcases List.mem_append.mp hh with hh | hh
            · exact hqc hh
            · exact hne (List.mem_singleton.mp hh))]
      rw [hp, ih hnd.2 hmem']
      ring

theorem npDispatch_inv (cost : Rat) (P : List Process) (st : NPState) (sel : Process)
    (hInv : NPInv cost P st) (hnd : (P.map (fun p => p.id)).Nodup)
    (hmem : sel ∈ st.processes) (harr : sel.arrival_time ≤ st.current_time)
    (hnin : sel.id ∉ st.completed) (hb : 0 < sel.burst_time) :
    NPInv cost P (npDispatch cost st sel) := by
  simp only [npDispatch]
  set acs := if st.last_process.isSome then
      add_context_switch cost st.schedule st.cs st.current_time st.last_process
    else (st.schedule, st.cs, st.current_time) with hacs
  have hacs_inv : SchedInv cost acs.1 acs.2.1 acs.2.2 ∧ st.current_time ≤ acs.2.2 ∧
      sumExecDur acs.1 = sumExecDur st.schedule := by
    rw [hacs]
    by_cases hl : st.last_process.isSome
    · rw [if_pos hl]
      exact add_context_switch_inv cost st.schedule st.cs st.current_time st.last_process
        hInv.sched
    · rw [if_neg hl]
      exact ⟨hInv.sched, le_refl _, rfl⟩
  obtain ⟨hsc2, ht2, hsum2⟩ := hacs_inv
  have harr2 : sel.arrival_time ≤ acs.2.2 := le_trans harr ht2
  obtain ⟨hsc3, hsum3⟩ := append_exec_inv cost acs.1 acs.2.1 acs.2.2 sel.id
    sel.burst_time none hsc2 (le_of_lt hb)
  refine ⟨hsc3, hInv.procs_eq, ?_, ?_, ?_, ?_⟩
  · rw [hsum3, hsum2, hInv.work, hInv.procs_eq,
      sumBy_if_mem_append P st.completed sel hnd (hInv.procs_eq ▸ hmem) hnin]
  · simp only [List.nodup_append, List.nodup_cons]
    exact ⟨hInv.completed_nodup, by simp, by simpa [List.disjoint_singleton] using hnin⟩
  · intro i hi
    rcases List.mem_append.mp hi with hi | hi
    · exact hInv.completed_mem i hi
    · rcases List.mem_singleton.mp hi with rfl
      exact List.mem_map_of_mem (fun p => p.id) (hInv.procs_eq ▸ hmem)
  · intro res hres
    rcases List.mem_append.mp hres with hres | hres
    · exact hInv.results_ok res hres
    · rcases List.mem_singleton.mp hres with rfl
      refine ⟨⟨?_, ?_, ⟨qSub acs.2.2 sel.arrival_time, rfl, ?_, le_refl _⟩⟩, rfl⟩
      · show 0 ≤ qSub acs.2.2 sel.arrival_time
        rw [qSub_eq]; linarith
      · show qSub (qAdd acs.2.2 sel.burst_time) sel.arrival_time =
          qSub acs.2.2 sel.arrival_time + sel.burst_time
        rw [qSub_eq, qSub_eq, qAdd_eq]; ring
      · rw [qSub_eq]; linarith

/-- Properties of a process selected from the ready filter. -/
theorem npAvailable_mem (st : NPState) (p : Process) (h : p ∈ npAvailable st) :
    p ∈ st.processes ∧ p.arrival_time ≤ st.current_time ∧ p.id ∉ st.completed := by
  rw [npAvailable] at h
  obtain ⟨hmem, hp⟩ := List.mem_filter.mp h
  rw [Bool.and_eq_true, qLeB_iff, decide_eq_true_iff] at hp
  exact ⟨hmem, hp.1, hp.2⟩

/-- When no process is ready, the jump target is strictly in the future. -/
theorem npNextArrival_gt (st : NPState) (hav : npAvailable st = []) (na : Rat)
    (h : npNextArrival st = some na) : st.current_time < na := by
  rw [npNextArrival] at h
  have hmem := pyMinQ_mem _ _ h
  obtain ⟨p, hp, hpa⟩ := List.mem_map.mp hmem
  obtain ⟨hpmem, hpc⟩ := List.mem_filter.mp hp
  rw [decide_eq_true_iff] at hpc
  by_contra hle
  rw [not_lt] at hle
  have : p ∈ npAvailable st := by
    rw [npAvailable, List.mem_filter]
    exact ⟨hpmem, by
      rw [Bool.and_eq_true, qLeB_iff, decide_eq_true_iff]
      exact ⟨hpa ▸ hle, hpc⟩⟩
  rw [hav] at this
  exact absurd this (List.not_mem_nil p)

/-- Every id of `P` appears among the completed ids once the counter says
all are done. -/
theorem completed_covers (P : List Process) (completed : List Int)
    (hnd : (P.map (fun p => p.id)).Nodup) (hcnd : completed.Nodup)
    (hsub : ∀ i ∈ completed, i ∈ P.map (fun p => p.id))
    (hlen : P.length ≤ completed.length) : ∀ p ∈ P, p.id ∈ completed := by
  intro p hp
  have hsub' : completed.toFinset ⊆ (P.map (fun p => p.id)).toFinset := by
    intro i hi
    exact List.mem_toFinset.mpr (hsub i (List.mem_toFinset.mp hi))
  have hcard : (P.map (fun p => p.id)).toFinset.card ≤ completed.toFinset.card := by
    rw [List.toFinset_card_of_nodup hcnd, List.toFinset_card_of_nodup hnd,
      List.length_map]
    exact hlen
  have heq := Finset.eq_of_subset_of_card_le hsub' hcard
  have : p.id ∈ (P.map (fun p => p.id)).toFinset :=
    List.mem_toFinset.mpr (List.mem_map_of_mem (fun p => p.id) hp)
  rw [← heq] at this
  exact List.mem_toFinset.mp this

/-- At loop exit the accounted work is the whole workload. -/
theorem npExit_work (cost : Rat) (P : List Process) (st : NPState)
    (hInv : NPInv cost P st) (hnd : (P.map (fun p => p.id)).Nodup)
    (hc : npCond st = false) : sumExecDur st.schedule = sumBurst P := by
  rw [npCond] at hc
  rw [decide_eq_false_iff_not, not_lt, hInv.procs_eq] at hc
  have hall := completed_covers P st.completed hnd hInv.completed_nodup
    hInv.completed_mem hc
  rw [hInv.work, sumBurst]
  exact sumBy_congr _ _ P (fun p hp => if_pos (hall p hp))

/-- The initial state satisfies the non-preemptive invariant. -/
theorem NPInv_init (cost : Rat) (request : SchedulingRequest) :
    NPInv cost request.processes (npInit request) := by
  simp only [npInit]
  refine ⟨SchedInv_init cost 0, rfl, ?_, List.nodup_nil, ?_, ?_⟩
  · rw [sumExecDur, List.filter_nil, sumBy, List.foldr_nil]
    exact (sumBy_zero _ _ (fun p _ => by simp)).symm
  · intro i hi
    exact absurd hi (List.not_mem_nil i)
  · intro res hres
    exact absurd hres (List.not_mem_nil res)

/-- `npFinish` of an invariant-satisfying exit state is a `GoodRun`. -/
theorem npFinish_good (cost : Rat) (P : List Process) (algorithm : String) (st : NPState)
    (hInv : NPInv cost P st) (hwork : sumExecDur st.schedule = sumBurst P) :
    GoodRun cost P (fun res => ResultOk res ∧ res.response_time = some res.waiting_time)
      (npFinish cost algorithm st) := by
  refine ⟨hInv.sched.chain, hInv.sched.no_idle, hInv.sched.head_exec, ?_, ?_, hwork,
    hInv.results_ok⟩
  · show (calculate_metrics cost st.cs st.results st.current_time).context_switches =
      countCS st.schedule
    rw [calculate_metrics_cs]
    exact hInv.sched.cs_count.symm
  · intro hc
    show countCS st.schedule = 0
    rw [hInv.sched.cs_count]
    exact hInv.sched.cs_zero hc

/-- `_sjf_non_preemptive` produces a `GoodRun` on valid workloads. -/
theorem sjf_np_good (fuel : Nat) (request : SchedulingRequest) (r : SchedulingResult)
    (hv : ValidWorkload request.processes)
    (h : sjf_non_preemptive fuel request = .ok r) :
    GoodRun request.context_switch_cost request.processes
      (fun res => ResultOk res ∧ res.response_time = some res.waiting_time) r := by
  obtain ⟨hnd, hpb⟩ := hv
  refine runLoop_inv npCond (sjf_np_body request.context_switch_cost)
    (npFinish request.context_switch_cost "SJF (Non-preemptive)")
    (NPInv request.context_switch_cost request.processes) _
    ?_ ?_ ?_ fuel (npInit request) r (NPInv_init _ request) h
  · intro s s' hc hInv hbody
    rw [sjf_np_body] at hbody
    by_cases hav : npAvailable s = []
    · rw [if_pos hav] at hbody
      cases hna : npNextArrival s with
      | none => rw [hna] at hbody; exact absurd hbody (by simp)
      | some na =>
        rw [hna] at hbody
        cases BodyStep.next.inj hbody
        exact ⟨hInv.sched.mono (le_of_lt (npNextArrival_gt s hav na hna)),
          hInv.procs_eq, hInv.work, hInv.completed_nodup, hInv.completed_mem,
          hInv.results_ok⟩
    · rw [if_neg hav] at hbody
      cases hsel : pyMinBy lexLtQQI (fun p => (p.burst_time, p.arrival_time, p.id))
          (npAvailable s) with
      | none => rw [hsel] at hbody; exact absurd hbody (by simp)
      | some sel =>
        rw [hsel] at hbody
        cases BodyStep.next.inj hbody
        obtain ⟨hmem, harr, hnin⟩ := npAvailable_mem s sel (pyMinBy_mem _ _ _ _ hsel)
        exact npDispatch_inv request.context_switch_cost request.processes s sel hInv
          hnd hmem harr hnin
          (hpb sel (hInv.procs_eq ▸ hmem)).1
  · intro s s' hc hInv hbody
    rw [sjf_np_body] at hbody
    by_cases hav : npAvailable s = []
    · rw [if_pos hav] at hbody
      cases hna : npNextArrival s with
      | none => rw [hna] at hbody; exact absurd hbody (by simp)
      | some na => rw [hna] at hbody; exact absurd hbody (by simp)
    · rw [if_neg hav] at hbody
      cases hsel : pyMinBy lexLtQQI (fun p => (p.burst_time, p.arrival_time, p.id))
          (npAvailable s) with
      | none => rw [hsel] at hbody; exact absurd hbody (by simp)
      | some sel => rw [hsel] at hbody; exact absurd hbody (by simp)
  · intro s hc hInv
    exact npFinish_good _ _ _ s hInv (npExit_work _ _ s hInv hnd hc)

/-- `_priority_non_preemptive` produces a `GoodRun` on valid workloads. -/
theorem priority_np_good (fuel : Nat) (request : SchedulingRequest) (r : SchedulingResult)
    (hv : ValidWorkload request.processes)
    (h : priority_non_preemptive fuel request = .ok r) :
    GoodRun request.context_switch_cost request.processes
      (fun res => ResultOk res ∧ res.response_time = some res.waiting_time) r := by
  obtain ⟨hnd, hpb⟩ := hv
  rw [priority_non_preemptive] at h
  refine runLoop_inv npCond
    (priority_np_body (request.priority_type = some "dynamic")
      request.context_switch_cost) _
    (NPInv request.context_switch_cost request.processes) _
    ?_ ?_ ?_ fuel (npInit request) r (NPInv_init _ request) h
  · intro s s' hc hInv hbody
    rw [priority_np_body] at hbody
    by_cases hav : npAvailable s = []
    · rw [if_pos hav] at hbody
      cases hna : npNextArrival s with
      | none => rw [hna] at hbody; exact absurd hbody (by simp)
      | some na =>
        rw [hna] at hbody
        cases BodyStep.next.inj hbody
        exact ⟨hInv.sched.mono (le_of_lt (npNextArrival_gt s hav na hna)),
          hInv.procs_eq, hInv.work, hInv.completed_nodup, hInv.completed_mem,
          hInv.results_ok⟩
    · rw [if_neg hav] at hbody
      cases hsel : priority_np_select (request.priority_type = some "dynamic")
          s.current_time (npAvailable s) with
      | none => rw [hsel] at hbody; exact absurd hbody (by simp)
      | some sel =>
        rw [hsel] at hbody
        cases BodyStep.next.inj hbody
        have hselmem : sel ∈ npAvailable s := by
          rw [priority_np_select] at hsel
          split at hsel <;> exact pyMinBy_mem _ _ _ _ hsel
        obtain ⟨hmem, harr, hnin⟩ := npAvailable_mem s sel hselmem
        exact npDispatch_inv request.context_switch_cost request.processes s sel hInv
          hnd hmem harr hnin (hpb sel (hInv.procs_eq ▸ hmem)).1
  · intro s s' hc hInv hbody
    rw [priority_np_body] at hbody
    by_cases hav : npAvailable s = []
    · rw [if_pos hav] at hbody
      cases hna : npNextArrival s with
      | none => rw [hna] at hbody; exact absurd hbody (by simp)
      | some na => rw [hna] at hbody; exact absurd hbody (by simp)
    · rw [if_neg hav] at hbody
      cases hsel : priority_np_select (request.priority_type = some "dynamic")
          s.current_time (npAvailable s) with
      | none => rw [hsel] at hbody; exact absurd hbody (by simp)
      | some sel => rw [hsel] at hbody; exact absurd hbody (by simp)
  · intro s hc hInv
    exact npFinish_good _ _ _ s hInv (npExit_work _ _ s hInv hnd hc)

/-! ## Preemptive loop invariant. -/

theorem RespInv.relax {t t' arrival burst remaining : Rat} {response : Option Rat}
    (h : RespInv t arrival burst remaining response) (ht : t ≤ t') :
    RespInv t' arrival burst remaining response := by
  refine ⟨h.1, fun r hr => ?_⟩
  obtain ⟨h0, h1⟩ := h.2 r hr
  exact ⟨h0, le_trans h1 ht⟩

/-- Updating the unique record with a given id rewrites exactly that
record. -/
theorem map_upd_decomp {α : Type} (idOf : α → Int) (pid : Int) (f : α → α)
    (l₁ l₂ : List α) (d : α) (hid : idOf d = pid)
    (hnd : ((l₁ ++ d :: l₂).map idOf).Nodup) :
    (l₁ ++ d :: l₂).map (fun x => if idOf x = pid then f x else x) = l₁ ++ f d :: l₂ := by
  rw [List.map_append, List.map_cons, if_pos hid]
  rw [List.map_append, List.map_cons] at hnd
  have hnotin : pid ∉ l₁.map idOf ∧ pid ∉ l₂.map idOf := by
    rw [List.nodup_append] at hnd
    refine ⟨fun hmem => ?_, fun hmem => ?_⟩
    · exact (hnd.2.2 hmem) (hid ▸ List.mem_cons_self _ _)
    · exact (List.nodup_cons.mp hnd.2.1).1 (hid ▸ hmem)
  congr 1
  · refine (List.map_congr_left ?_).trans (List.map_id l₁)
    intro x hx
    have hne : idOf x ≠ pid := by
      intro hh
      exact hnotin.1 (hh ▸ List.mem_map_of_mem idOf hx)
    rw [if_neg hne]
    rfl
  · congr 1
    refine (List.map_congr_left ?_).trans (List.map_id l₂)
    intro x hx
    have hne : idOf x ≠ pid := by
      intro hh
      exact hnotin.2 (hh ▸ List.mem_map_of_mem idOf hx)
    rw [if_neg hne]
    rfl

/-- Id-nodup of the runtime records from id-nodup of the workload. -/
theorem preProcs_id_nodup (P : List Process) (l : List PreProc)
    (hmap : l.map (fun d => d.process) = P)
    (hnd : (P.map (fun p => p.id)).Nodup) :
    (l.map (fun d => d.process.id)).Nodup := by
  have : l.map (fun d => d.process.id) = P.map (fun p => p.id) := by
    rw [← hmap, List.map_map]
    rfl
  rw [this]
  exact hnd

theorem srtfNextEvents_ub (procs : List PreProc) (t selRem v : Rat)
    (h : pyMinQ (srtfNextEvents procs t selRem) = some v) : v ≤ qAdd t selRem :=
  pyMinQ_le _ _ h _ (by rw [srtfNextEvents]; exact List.mem_cons_self _ _)

theorem srtfNextEvents_lb (procs : List PreProc) (t selRem v : Rat)
    (hrem : 0 < selRem) (h : pyMinQ (srtfNextEvents procs t selRem) = some v) :
    t < v := by
  have hmem := pyMinQ_mem _ _ h
  rw [srtfNextEvents] at hmem
  rcases List.mem_cons.mp hmem with rfl | hmem
  · rw [qAdd_eq]; linarith
  · obtain ⟨d, hd, hda⟩ := List.mem_map.mp hmem
    obtain ⟨_, hp⟩ := List.mem_filter.mp hd
    simp only [Bool.and_eq_true, qLtB_iff] at hp
    exact hda ▸ hp.1.1.1

theorem priorityNextEvents_ub (dynamic : Bool) (procs : List PreProc) (t : Rat)
    (sel : PreProc) (v : Rat)
    (h : pyMinQ (priorityNextEvents dynamic procs t sel) = some v) :
    v ≤ qAdd t sel.remaining :=
  pyMinQ_le _ _ h _ (by rw [priorityNextEvents]; exact List.mem_cons_self _ _)

theorem priorityNextEvents_lb (dynamic : Bool) (procs : List PreProc) (t : Rat)
    (sel : PreProc) (v : Rat) (hrem : 0 < sel.remaining)
    (h : pyMinQ (priorityNextEvents dynamic procs t sel) = some v) : t < v := by
  have hmem := pyMinQ_mem _ _ h
  rw [priorityNextEvents] at hmem
  rcases List.mem_cons.mp hmem with rfl | hmem
  · rw [qAdd_eq]; linarith
  · obtain ⟨d, hd, hda⟩ := List.mem_map.mp hmem
    obtain ⟨_, hp⟩ := List.mem_filter.mp hd
    simp only [Bool.and_eq_true, qLtB_iff] at hp
    exact hda ▸ hp.1.1

/-- Properties of a record selected from the preemptive ready filter. -/
theorem preAvailable_mem (st : PreState) (d : PreProc) (h : d ∈ preAvailable st) :
    d ∈ st.processes ∧ d.process.arrival_time ≤ st.current_time ∧ 0 < d.remaining := by
  rw [preAvailable] at h
  obtain ⟨hmem, hp⟩ := List.mem_filter.mp h
  rw [Bool.and_eq_true, qLeB_iff, qLtB_iff] at hp
  exact ⟨hmem, hp.1, hp.2⟩

/-- When no process is ready, the preemptive jump target is strictly in
the future. -/
theorem preNextArrival_gt (st : PreState) (hav : preAvailable st = []) (na : Rat)
    (h : preNextArrival st = some na) : st.current_time < na := by
  rw [preNextArrival] at h
  have hmem := pyMinQ_mem _ _ h
  obtain ⟨d, hd, hda⟩ := List.mem_map.mp hmem
  obtain ⟨hdmem, hdc⟩ := List.mem_filter.mp hd
  rw [qLtB_iff] at hdc
  by_contra hle
  rw [not_lt] at hle
  have : d ∈ preAvailable st := by
    rw [preAvailable, List.mem_filter]
    exact ⟨hdmem, by
      rw [Bool.and_eq_true, qLeB_iff, qLtB_iff]
      exact ⟨hda ▸ hle, hdc⟩⟩
  rw [hav] at this
  exact absurd this (List.not_mem_nil d)

theorem guardedAcs_inv (cost : Rat) (sch : List ScheduleEntry) (cs : Nat) (t : Rat)
    (last : Option Int) (current : Int) (h : SchedInv cost sch cs t) :
    SchedInv cost (guardedAcs cost sch cs t last current).1
      (guardedAcs cost sch cs t last current).2.1
      (guardedAcs cost sch cs t last current).2.2 ∧
    t ≤ (guardedAcs cost sch cs t last current).2.2 ∧
    sumExecDur (guardedAcs cost sch cs t last current).1 = sumExecDur sch := by
  cases last with
  | none => exact ⟨h, le_refl t, rfl⟩
  | some lp =>
    rw [guardedAcs]
    by_cases hlp : lp = current
    · rw [if_pos hlp]
      exact ⟨h, le_refl t, rfl⟩
    · rw [if_neg hlp]
      exact add_context_switch_inv cost sch cs t (some lp) h

/-- The preemptive dispatch preserves the loop invariant. -/
theorem preDispatch_inv (cost : Rat) (P : List Process) (st : PreState) (sel : PreProc)
    (ne : Rat → List Rat) (s' : PreState)
    (hInv : PreInv cost P st) (hnd : (P.map (fun p => p.id)).Nodup)
    (hmem : sel ∈ st.processes) (harr : sel.process.arrival_time ≤ st.current_time)
    (hrem : 0 < sel.remaining)
    (hne_ub : ∀ t v, pyMinQ (ne t) = some v → v ≤ qAdd t sel.remaining)
    (hne_lb : ∀ t v, pyMinQ (ne t) = some v → t < v)
    (hbody : preDispatch cost st sel ne = .next s') : PreInv cost P s' := by
  simp only [preDispatch] at hbody
  set acs := guardedAcs cost st.schedule st.cs st.current_time st.last_process
    sel.process.id with hacs
  obtain ⟨hsc2, ht2, hsum2⟩ := guardedAcs_inv cost st.schedule st.cs st.current_time
    st.last_process sel.process.id hInv.sched
  rw [← hacs] at hsc2 ht2 hsum2
  have harr2 : sel.process.arrival_time ≤ acs.2.2 := le_trans harr ht2
  -- the recorded response time
  set rt := if sel.response_time = none then some (qSub acs.2.2 sel.process.arrival_time)
    else sel.response_time with hrt
  have hrt_ok : ∃ r, rt = some r ∧ 0 ≤ r ∧
      sel.process.arrival_time + r +
        (sel.process.burst_time - sel.remaining) ≤ acs.2.2 := by
    rw [hrt]
    rcases hresp : sel.response_time with _ | r0
    · rw [if_pos rfl]
      refine ⟨qSub acs.2.2 sel.process.arrival_time, rfl, ?_, ?_⟩
      · rw [qSub_eq]; linarith
      · have hfull := (hInv.resp sel hmem).1 hresp
        rw [qSub_eq, hfull]
        ring_nf
        exact le_refl _
    · rw [if_neg (by simp)]
      obtain ⟨h0, h1⟩ := (hInv.resp sel hmem).2 r0 hresp
      exact ⟨r0, rfl, h0, le_trans h1 ht2⟩
  split at hbody
  case h_1 => exact absurd hbody (by simp)
  case h_2 next_event hne =>
    have hub := hne_ub acs.2.2 next_event hne
    have hlb := hne_lb acs.2.2 next_event hne
    set exec := qSub next_event acs.2.2 with hexec
    have hexec_pos : 0 < exec := by rw [hexec, qSub_eq]; linarith
    have hexec_le : exec ≤ sel.remaining := by
      rw [hexec, qSub_eq]
      rw [qAdd_eq] at hub
      linarith
    obtain ⟨hsc3, hsum3⟩ := append_exec_inv cost acs.1 acs.2.1 acs.2.2 sel.process.id
      exec none hsc2 (le_of_lt hexec_pos)
    -- decompose the process list around the selected record
    obtain ⟨l₁, l₂, hdec⟩ := List.append_of_mem hmem
    have hnd' : (st.processes.map (fun d => d.process.id)).Nodup :=
      preProcs_id_nodup P st.processes hInv.procs_map hnd
    have hupd : updProc sel.process.id
        (fun d => { d with remaining := qSub sel.remaining exec, response_time := rt })
        st.processes =
        l₁ ++ { sel with remaining := qSub sel.remaining exec, response_time := rt } :: l₂ := by
      rw [updProc, hdec]
      exact map_upd_decomp (fun d => d.process.id) sel.process.id _ l₁ l₂ sel rfl
        (hdec ▸ hnd')
    set sel' : PreProc :=
      { sel with remaining := qSub sel.remaining exec, response_time := rt } with hsel'
    -- facts shared by both completion branches
    have hmap' : (l₁ ++ sel' :: l₂).map (fun d => d.process) = P := by
      rw [← hInv.procs_map, hdec, List.map_append, List.map_append, List.map_cons,
        List.map_cons]
    have hwork' : sumExecDur (acs.1 ++
        [{ process_id := sel.process.id, start_time := acs.2.2,
           end_time := qAdd acs.2.2 exec, type := "execution", queue_level := none }]) +
        sumBy (fun d => d.remaining) (l₁ ++ sel' :: l₂) = sumBurst P := by
      rw [hsum3, hsum2, ← hInv.work, hdec, sumBy_append, sumBy_append, sumBy_cons,
        sumBy_cons]
      show sumExecDur st.schedule + exec +
        (sumBy (fun d => d.remaining) l₁ + (qSub sel.remaining exec +
          sumBy (fun d => d.remaining) l₂)) = _
      rw [qSub_eq]
      ring
    have hrem' : ∀ d ∈ l₁ ++ sel' :: l₂, 0 ≤ d.remaining := by
      intro d hd
      rcases List.mem_append.mp hd with hd | hd
      · exact hInv.rem_nonneg d (hdec ▸ List.mem_append.mpr (Or.inl hd))
      · rcases List.mem_cons.mp hd with rfl | hd
        · show 0 ≤ qSub sel.remaining exec
          rw [qSub_eq]; linarith
        · exact hInv.rem_nonneg d
            (hdec ▸ List.mem_append.mpr (Or.inr (List.mem_cons_of_mem sel hd)))
    have htt : st.current_time ≤ qAdd acs.2.2 exec := by
      rw [qAdd_eq]; linarith
    have hresp' : ∀ d ∈ l₁ ++ sel' :: l₂,
        RespInv (qAdd acs.2.2 exec) d.process.arrival_time d.process.burst_time
          d.remaining d.response_time := by
      intro d hd
      rcases List.mem_append.mp hd with hd | hd
      · exact (hInv.resp d (hdec ▸ List.mem_append.mpr (Or.inl hd))).relax htt
      · rcases List.mem_cons.mp hd with rfl | hd
        · obtain ⟨r, hr, hr0, hr1⟩ := hrt_ok
          refine ⟨fun hnone => ?_, fun r2 hr2 => ?_⟩
          · have hrtn : rt = none := hnone
            rw [hrtn] at hr
            exact absurd hr (by simp)
          have hr2' : rt = some r2 := hr2
          rw [hr] at hr2'
          have hrr : r = r2 := Option.some.inj hr2'
          subst hrr
          refine ⟨hr0, ?_⟩
          show sel.process.arrival_time + r +
            (sel.process.burst_time - qSub sel.remaining exec) ≤ qAdd acs.2.2 exec
          rw [qSub_eq, qAdd_eq]
          linarith
        · exact (hInv.resp d
            (hdec ▸ List.mem_append.mpr (Or.inr (List.mem_cons_of_mem sel hd)))).relax htt
    rw [hupd] at hbody
    by_cases hz : qSub sel.remaining exec = 0
    · rw [if_pos hz] at hbody
      cases BodyStep.next.inj hbody
      refine ⟨hsc3.mono (le_refl _), hmap', hwork', hrem', hresp', ?_⟩
      intro res hres
      rcases List.mem_append.mp hres with hres | hres
      · exact hInv.results_ok res hres
      · rcases List.mem_singleton.mp hres with rfl
        obtain ⟨r, hr, hr0, hr1⟩ := hrt_ok
        simp only [qSub_eq, qAdd_eq] at hz hr1
        refine ⟨?_, ?_, ⟨r, hr, hr0, ?_⟩⟩
        · show 0 ≤ qSub (qSub (qAdd acs.2.2 exec) sel.process.arrival_time)
            sel.process.burst_time
          simp only [qSub_eq, qAdd_eq]
          linarith
        · show qSub (qAdd acs.2.2 exec) sel.process.arrival_time =
            qSub (qSub (qAdd acs.2.2 exec) sel.process.arrival_time)
              sel.process.burst_time + sel.process.burst_time
          simp only [qSub_eq, qAdd_eq]
          ring
        · show r ≤ qSub (qSub (qAdd acs.2.2 exec) sel.process.arrival_time)
            sel.process.burst_time
          simp only [qSub_eq, qAdd_eq]
          linarith
    · rw [if_neg hz] at hbody
      cases BodyStep.next.inj hbody
      exact ⟨hsc3, hmap', hwork', hrem', hresp', hInv.results_ok⟩

theorem preExit_work (cost : Rat) (P : List Process) (st : PreState)
    (hInv : PreInv cost P st) (hc : preCond st = false) :
    sumExecDur st.schedule = sumBurst P := by
  rw [preCond, List.any_eq_false] at hc
  have hall : ∀ d ∈ st.processes, d.remaining = 0 := by
    intro d hd
    have h2 := (qLtB_eq_false_iff 0 d.remaining).mp (Bool.not_eq_true _ ▸ hc d hd)
    linarith [hInv.rem_nonneg d hd]
  have := hInv.work
  rw [sumBy_zero _ _ hall, add_zero] at this
  exact this

theorem PreInv_init (cost : Rat) (request : SchedulingRequest)
    (hb : ∀ p ∈ request.processes, 0 < p.burst_time) :
    PreInv cost request.processes (preInit request) := by
  simp only [preInit]
  refine ⟨SchedInv_init cost 0, ?_, ?_, ?_, ?_, ?_⟩
  · rw [List.map_map]
    exact List.map_id request.processes
  · rw [sumExecDur, List.filter_nil, sumBy, List.foldr_nil, zero_add, sumBurst,
      sumBy_eq_sum, sumBy_eq_sum, List.map_map]
    rfl
  · intro d hd
    obtain ⟨p, hp, rfl⟩ := List.mem_map.mp hd
    exact le_of_lt (hb p hp)
  · intro d hd
    obtain ⟨p, hp, rfl⟩ := List.mem_map.mp hd
    exact ⟨fun _ => rfl, fun r hr => absurd hr (by simp)⟩
  · intro res hres
    exact absurd hres (List.not_mem_nil res)

theorem preFinish_good (cost : Rat) (P : List Process) (algorithm : String)
    (st : PreState) (hInv : PreInv cost P st)
    (hwork : sumExecDur st.schedule = sumBurst P) :
    GoodRun cost P ResultOk (preFinish cost algorithm st) := by
  refine ⟨hInv.sched.chain, hInv.sched.no_idle, hInv.sched.head_exec, ?_, ?_, hwork,
    hInv.results_ok⟩
  · show (calculate_metrics cost st.cs st.results st.current_time).context_switches =
      countCS st.schedule
    rw [calculate_metrics_cs]
    exact hInv.sched.cs_count.symm
  · intro hc
    show countCS st.schedule = 0
    rw [hInv.sched.cs_count]
    exact hInv.sched.cs_zero hc

theorem srtf_body_inv (cost : Rat) (P : List Process)
    (hnd : (P.map (fun p => p.id)).Nodup) (s s' : PreState)
    (hInv : PreInv cost P s) (hbody : srtf_body cost s = .next s') :
    PreInv cost P s' := by
  rw [srtf_body] at hbody
  by_cases hav : preAvailable s = []
  · rw [if_pos hav] at hbody
    cases hna : preNextArrival s with
    | none => rw [hna] at hbody; exact absurd hbody (by simp)
    | some na =>
      rw [hna] at hbody
      cases BodyStep.next.inj hbody
      have hgt := le_of_lt (preNextArrival_gt s hav na hna)
      exact ⟨hInv.sched.mono hgt, hInv.procs_map, hInv.work, hInv.rem_nonneg,
        fun d hd => (hInv.resp d hd).relax hgt, hInv.results_ok⟩
  · rw [if_neg hav] at hbody
    cases hsel : pyMinBy lexLtQQI
        (fun d => (d.remaining, d.process.arrival_time, d.process.id))
        (preAvailable s) with
    | none => rw [hsel] at hbody; exact absurd hbody (by simp)
    | some sel =>
      rw [hsel] at hbody
      obtain ⟨hmem, harr, hrem⟩ := preAvailable_mem s sel (pyMinBy_mem _ _ _ _ hsel)
      exact preDispatch_inv cost P s sel _ s' hInv hnd hmem harr hrem
        (fun t v hv => srtfNextEvents_ub s.processes t sel.remaining v hv)
        (fun t v hv => srtfNextEvents_lb s.processes t sel.remaining v hrem hv)
        hbody

theorem preDispatch_no_stop (cost : Rat) (st : PreState) (sel : PreProc)
    (ne : Rat → List Rat) (s' : PreState) :
    preDispatch cost st sel ne ≠ .stop s' := by
  simp only [preDispatch]
  intro h
  split at h
  · exact BodyStep.noConfusion h
  · split at h <;> exact BodyStep.noConfusion h

theorem srtf_body_no_stop (cost : Rat) (s s' : PreState) :
    srtf_body cost s ≠ .stop s' := by
  rw [srtf_body]
  intro h
  by_cases hav : preAvailable s = []
  · rw [if_pos hav] at h
    cases hna : preNextArrival s with
    | none => rw [hna] at h; exact BodyStep.noConfusion h
    | some na => rw [hna] at h; exact BodyStep.noConfusion h
  · rw [if_neg hav] at h
    cases hsel : pyMinBy lexLtQQI
        (fun d => (d.remaining, d.process.arrival_time, d.process.id))
        (preAvailable s) with
    | none => rw [hsel] at h; exact BodyStep.noConfusion h
    | some sel =>
      rw [hsel] at h
      exact preDispatch_no_stop cost s sel _ s' h

/-- `_srtf` produces a `GoodRun` on valid workloads. -/
theorem srtf_good (fuel : Nat) (request : SchedulingRequest) (r : SchedulingResult)
    (hv : ValidWorkload request.processes) (h : srtf fuel request = .ok r) :
    GoodRun request.context_switch_cost request.processes ResultOk r := by
  obtain ⟨hnd, hpb⟩ := hv
  refine runLoop_inv preCond (srtf_body request.context_switch_cost)
    (preFinish request.context_switch_cost "SRTF (Preemptive SJF)")
    (PreInv request.context_switch_cost request.processes) _
    ?_ ?_ ?_ fuel (preInit request) r
    (PreInv_init _ request (fun p hp => (hpb p hp).1)) h
  · intro s s' hc hInv hbody
    exact srtf_body_inv request.context_switch_cost request.processes hnd s s' hInv hbody
  · intro s s' hc hInv hbody
    exact absurd hbody (srtf_body_no_stop request.context_switch_cost s s')
  · intro s hc hInv
    exact preFinish_good _ _ _ s hInv (preExit_work _ _ s hInv hc)

theorem priority_p_body_inv (dynamic : Bool) (cost : Rat) (P : List Process)
    (hnd : (P.map (fun p => p.id)).Nodup) (s s' : PreState)
    (hInv : PreInv cost P s) (hbody : priority_p_body dynamic cost s = .next s') :
    PreInv cost P s' := by
  rw [priority_p_body] at hbody
  by_cases hav : preAvailable s = []
  · rw [if_pos hav] at hbody
    cases hna : preNextArrival s with
    | none => rw [hna] at hbody; exact absurd hbody (by simp)
    | some na =>
      rw [hna] at hbody
      cases BodyStep.next.inj hbody
      have hgt := le_of_lt (preNextArrival_gt s hav na hna)
      exact ⟨hInv.sched.mono hgt, hInv.procs_map, hInv.work, hInv.rem_nonneg,
        fun d hd => (hInv.resp d hd).relax hgt, hInv.results_ok⟩
  · rw [if_neg hav] at hbody
    cases hsel : priority_preemptive_select dynamic (preAvailable s) with
    | none => rw [hsel] at hbody; exact absurd hbody (by simp)
    | some sel =>
      rw [hsel] at hbody
      have hselmem : sel ∈ preAvailable s := by
        rw [priority_preemptive_select] at hsel
        split at hsel <;> exact pyMinBy_mem _ _ _ _ hsel
      obtain ⟨hmem, harr, hrem⟩ := preAvailable_mem s sel hselmem
      exact preDispatch_inv cost P s sel _ s' hInv hnd hmem harr hrem
        (fun t v hv => priorityNextEvents_ub dynamic s.processes t sel v hv)
        (fun t v hv => priorityNextEvents_lb dynamic s.processes t sel v hrem hv)
        hbody

theorem priority_p_body_no_stop (dynamic : Bool) (cost : Rat) (s s' : PreState) :
    priority_p_body dynamic cost s ≠ .stop s' := by
  rw [priority_p_body]
  intro h
  by_cases hav : preAvailable s = []
  · rw [if_pos hav] at h
    cases hna : preNextArrival s with
    | none => rw [hna] at h; exact BodyStep.noConfusion h
    | some na => rw [hna] at h; exact BodyStep.noConfusion h
  · rw [if_neg hav] at h
    cases hsel : priority_preemptive_select dynamic (preAvailable s) with
    | none => rw [hsel] at h; exact BodyStep.noConfusion h
    | some sel =>
      rw [hsel] at h
      exact preDispatch_no_stop cost s sel _ s' h

/-- `_priority_preemptive` produces a `GoodRun` on valid workloads. -/
theorem priority_p_good (fuel : Nat) (request : SchedulingRequest) (r : SchedulingResult)
    (hv : ValidWorkload request.processes)
    (h : priority_preemptive fuel request = .ok r) :
    GoodRun request.context_switch_cost request.processes ResultOk r := by
  obtain ⟨hnd, hpb⟩ := hv
  rw [priority_preemptive] at h
  refine runLoop_inv preCond
    (priority_p_body (request.priority_type = some "dynamic")
      request.context_switch_cost) _
    (PreInv request.context_switch_cost request.processes) _
    ?_ ?_ ?_ fuel (preInit request) r
    (PreInv_init _ request (fun p hp => (hpb p hp).1)) h
  · intro s s' hc hInv hbody
    exact priority_p_body_inv _ request.context_switch_cost request.processes hnd
      s s' hInv hbody
  · intro s s' hc hInv hbody
    exact absurd hbody (priority_p_body_no_stop _ request.context_switch_cost s s')
  · intro s hc hInv
    exact preFinish_good _ _ _ s hInv (preExit_work _ _ s hInv hc)

/-! ## Round-robin loop invariant. -/

theorem condMap_proj {α β : Type} (f : α → α) (p : α → Bool) (proj : α → β)
    (l : List α) (h : ∀ x, proj (f x) = proj x) :
    (l.map (fun x => if p x then f x else x)).map proj = l.map proj := by
  rw [List.map_map]
  refine List.map_congr_left ?_
  intro x _
  show proj (if p x then f x else x) = proj x
  by_cases hp : p x = true
  · rw [if_pos hp, h]
  · rw [if_neg hp]

theorem condMap_forall {α : Type} (f : α → α) (p : α → Bool) (Q : α → Prop)
    (l : List α) (hl : ∀ x ∈ l, Q x) (hf : ∀ x ∈ l, Q x → Q (f x)) :
    ∀ y ∈ l.map (fun x => if p x then f x else x), Q y := by
  intro y hy
  obtain ⟨x, hx, rfl⟩ := List.mem_map.mp hy
  by_cases hp : p x = true
  · rw [if_pos hp]; exact hf x hx (hl x hx)
  · rw [if_neg hp]; exact hl x hx

theorem condMap_sumBy {α : Type} (f : α → α) (p : α → Bool) (g : α → Rat)
    (l : List α) (h : ∀ x, g (f x) = g x) :
    sumBy g (l.map (fun x => if p x then f x else x)) = sumBy g l := by
  rw [sumBy_eq_sum, sumBy_eq_sum, condMap_proj f p g l h]

/-- Two records of an id-nodup list with equal ids are equal. -/
theorem nodup_id_unique {α : Type} (idOf : α → Int) (l : List α)
    (hnd : (l.map idOf).Nodup) (d1 d2 : α) (h1 : d1 ∈ l) (h2 : d2 ∈ l)
    (hid : idOf d1 = idOf d2) : d1 = d2 :=
  List.inj_on_of_nodup_map hnd h1 h2 hid

theorem rrProcs_id_nodup (P : List Process) (l : List RRProc)
    (hmap : l.map (fun d => d.process) = P)
    (hnd : (P.map (fun p => p.id)).Nodup) :
    (l.map (fun d => d.process.id)).Nodup := by
  have : l.map (fun d => d.process.id) = P.map (fun p => p.id) := by
    rw [← hmap, List.map_map]
    rfl
  rw [this]
  exact hnd

/-- Membership facts about pids produced by the plain arrival scan. -/
theorem rrAdmitPlain_prop (procs : List RRProc) (t : Rat) (ready : List Int)
    (excl : Option Int) (pid : Int) (h : pid ∈ rrAdmitPlain procs t ready excl) :
    pid ∈ ready ∨ ∃ d ∈ procs, d.process.id = pid ∧ d.process.arrival_time ≤ t ∧
      0 < d.remaining := by
  rcases List.mem_append.mp h with h | h
  · exact Or.inl h
  · obtain ⟨d, hd, rfl⟩ := List.mem_map.mp h
    obtain ⟨hmem, hp⟩ := List.mem_filter.mp hd
    rw [Bool.and_eq_true] at hp
    rw [rrEligible, Bool.and_eq_true, Bool.and_eq_true] at hp
    obtain ⟨⟨⟨h1, h2⟩, _⟩, _⟩ := hp
    exact Or.inr ⟨d, hmem, rfl, (qLeB_iff _ _).mp h1, (qLtB_iff _ _).mp h2⟩

/-- The jump target of the round-robin family is strictly in the future
(the scan filters on `arrival_time > current_time` directly). -/
theorem rrNextArrival_gt (st : RRState) (na : Rat) (h : rrNextArrival st = some na) :
    st.current_time < na := by
  rw [rrNextArrival] at h
  have hmem := pyMinQ_mem _ _ h
  obtain ⟨d, hd, hda⟩ := List.mem_map.mp hmem
  obtain ⟨_, hp⟩ := List.mem_filter.mp hd
  rw [Bool.and_eq_true, qLtB_iff, qLtB_iff] at hp
  exact hda ▸ hp.2

/-- Tracking a record through a conditional map that preserves the
process and the remaining time. -/
theorem rrCondMap_track (f : RRProc → RRProc) (p : RRProc → Bool)
    (hf : ∀ z, (f z).process = z.process ∧ (f z).remaining = z.remaining)
    (l : List RRProc) (x : RRProc) (hx : x ∈ l) :
    ∃ y ∈ l.map (fun z => if p z then f z else z),
      y.process = x.process ∧ y.remaining = x.remaining := by
  refine ⟨if p x then f x else x, List.mem_map.mpr ⟨x, hx, rfl⟩, ?_⟩
  by_cases hp : p x = true
  · rw [if_pos hp]; exact hf x
  · rw [if_neg hp]; exact ⟨rfl, rfl⟩

theorem updRR_proj {β : Type} (proj : RRProc → β) (pid : Int) (f : RRProc → RRProc)
    (h : ∀ x, proj (f x) = proj x) (l : List RRProc) :
    (updRR pid f l).map proj = l.map proj := by
  rw [updRR, List.map_map]
  refine List.map_congr_left ?_
  intro x _
  show proj (if x.process.id = pid then f x else x) = proj x
  by_cases hp : x.process.id = pid
  · rw [if_pos hp, h]
  · rw [if_neg hp]

theorem updRR_forall (Q : RRProc → Prop) (pid : Int) (f : RRProc → RRProc)
    (l : List RRProc) (hl : ∀ x ∈ l, Q x) (hf : ∀ x ∈ l, Q x → Q (f x)) :
    ∀ y ∈ updRR pid f l, Q y := by
  intro y hy
  rw [updRR] at hy
  obtain ⟨x, hx, rfl⟩ := List.mem_map.mp hy
  by_cases hp : x.process.id = pid
  · rw [if_pos hp]; exact hf x hx (hl x hx)
  · rw [if_neg hp]; exact hl x hx

theorem updRR_track (pid : Int) (f : RRProc → RRProc)
    (hf : ∀ y, (f y).process = y.process ∧ (f y).remaining = y.remaining)
    (l : List RRProc) (x : RRProc) (hx : x ∈ l) :
    ∃ y ∈ updRR pid f l, y.process = x.process ∧ y.remaining = x.remaining := by
  refine ⟨if x.process.id = pid then f x else x, ?_, ?_⟩
  · rw [updRR]
    exact List.mem_map.mpr ⟨x, hx, rfl⟩
  · by_cases hp : x.process.id = pid
    · rw [if_pos hp]; exact hf x
    · rw [if_neg hp]; exact ⟨rfl, rfl⟩

/-- Unfolding equations of the post-execution scan stage. -/
theorem rrPostAdmit_fst_none (procs : List RRProc) (t : Rat) (restq : List Int)
    (current : Int) : (rrPostAdmit none procs t restq current).1 = procs := rfl

theorem rrPostAdmit_fst_some (b : Int) (procs : List RRProc) (t : Rat)
    (restq : List Int) (current : Int) :
    (rrPostAdmit (some b) procs t restq current).1 = procs.map (fun x =>
      if rrEligible t restq x && decide (some x.process.id ≠ some current) then
        { x with deficit_counter := ((b : Int) : Rat) }
      else x) := rfl

theorem rrPostAdmit_snd (dm : Option Int) (procs : List RRProc) (t : Rat)
    (restq : List Int) (current : Int) :
    (rrPostAdmit dm procs t restq current).2 =
      rrAdmitPlain procs t restq (some current) := by
  cases dm <;> rfl

theorem rrPostAdmit_proj {β : Type} (proj : RRProc → β)
    (hp : ∀ (x : RRProc) (c : Rat), proj { x with deficit_counter := c } = proj x)
    (dm : Option Int) (procs : List RRProc) (t : Rat) (restq : List Int)
    (current : Int) :
    ((rrPostAdmit dm procs t restq current).1).map proj = procs.map proj := by
  cases dm with
  | none => rfl
  | some b =>
    rw [rrPostAdmit_fst_some]
    exact condMap_proj _ _ proj procs (fun x => hp x _)

theorem rrPostAdmit_forall (Q : RRProc → Prop)
    (hQ : ∀ (x : RRProc) (c : Rat), Q x → Q { x with deficit_counter := c })
    (dm : Option Int) (procs : List RRProc) (t : Rat) (restq : List Int)
    (current : Int) (h : ∀ x ∈ procs, Q x) :
    ∀ y ∈ (rrPostAdmit dm procs t restq current).1, Q y := by
  cases dm with
  | none => exact h
  | some b =>
    rw [rrPostAdmit_fst_some]
    exact condMap_forall _ _ Q procs h (fun x hx hq => hQ x _ hq)

theorem rrPostAdmit_qspec (qspec : RRProc → Prop) (dm : Option Int)
    (procs : List RRProc) (t : Rat) (restq : List Int) (current : Int)
    (h : ∀ x ∈ procs, qspec x)
    (hpost : ∀ (x : RRProc) (b : Int), dm = some b →
      qspec { x with deficit_counter := ((b : Int) : Rat) }) :
    ∀ y ∈ (rrPostAdmit dm procs t restq current).1, qspec y := by
  cases dm with
  | none => exact h
  | some b =>
    rw [rrPostAdmit_fst_some]
    exact condMap_forall _ _ qspec procs h (fun x hx _ => hpost x b rfl)

theorem rrPostAdmit_track (dm : Option Int) (procs : List RRProc) (t : Rat)
    (restq : List Int) (current : Int) (x : RRProc) (hx : x ∈ procs) :
    ∃ y ∈ (rrPostAdmit dm procs t restq current).1,
      y.process = x.process ∧ y.remaining = x.remaining := by
  cases dm with
  | none => exact ⟨x, hx, rfl, rfl⟩
  | some b =>
    rw [rrPostAdmit_fst_some]
    exact rrCondMap_track
      (fun z => { z with deficit_counter := ((b : Int) : Rat) })
      (fun z => rrEligible t restq z && decide (some z.process.id ≠ some current))
      (fun z => ⟨rfl, rfl⟩) procs x hx

/-- Unfolding/preservation lemmas for the completion clean-up stage. -/
theorem rrFinProcs_proj {β : Type} (proj : RRProc → β)
    (hp : ∀ (x : RRProc) (c : Rat), proj { x with deficit_counter := c } = proj x)
    (dm : Option Int) (current : Int) (procs : List RRProc) :
    (rrFinProcs dm current procs).map proj = procs.map proj := by
  cases dm with
  | none => rfl
  | some b => exact updRR_proj proj current _ (fun x => hp x 0) procs

theorem rrFinProcs_forall (Q : RRProc → Prop)
    (hQ : ∀ x : RRProc, Q x → Q { x with deficit_counter := 0 }) (dm : Option Int)
    (current : Int) (procs : List RRProc) (h : ∀ x ∈ procs, Q x) :
    ∀ y ∈ rrFinProcs dm current procs, Q y := by
  cases dm with
  | none => exact h
  | some b => exact updRR_forall Q current _ procs h (fun x hx hq => hQ x hq)

theorem rrFinProcs_track (dm : Option Int) (current : Int) (procs : List RRProc)
    (x : RRProc) (hx : x ∈ procs) :
    ∃ y ∈ rrFinProcs dm current procs,
      y.process = x.process ∧ y.remaining = x.remaining := by
  cases dm with
  | none => exact ⟨x, hx, rfl, rfl⟩
  | some b =>
    exact updRR_track current (fun y => { y with deficit_counter := 0 })
      (fun y => ⟨rfl, rfl⟩) procs x hx

/-- The ready queue built by the plain arrival scan has no duplicates
(the scan admits only pids not already queued, and distinct records have
distinct pids). -/
theorem rrAdmitPlain_nodup (procs : List RRProc) (t : Rat) (ready : List Int)
    (excl : Option Int) (hready : ready.Nodup)
    (hnd : (procs.map (fun d => d.process.id)).Nodup) :
    (rrAdmitPlain procs t ready excl).Nodup := by
  rw [rrAdmitPlain]
  refine List.Nodup.append hready
    (List.Nodup.sublist ((List.filter_sublist _).map _) hnd) ?_
  intro pid hp hq
  obtain ⟨x, hx, rfl⟩ := List.mem_map.mp hq
  obtain ⟨_, hpred⟩ := List.mem_filter.mp hx
  rw [Bool.and_eq_true, rrEligible, Bool.and_eq_true] at hpred
  exact (of_decide_eq_true hpred.1.2) hp

/-- The excluded pid is never admitted by the post-execution scan. -/
theorem rrAdmitPlain_excl (procs : List RRProc) (t : Rat) (ready : List Int)
    (c : Int) (hc : c ∉ ready) : c ∉ rrAdmitPlain procs t ready (some c) := by
  rw [rrAdmitPlain]
  intro h
  rcases List.mem_append.mp h with h | h
  · exact hc h
  · obtain ⟨x, hx, hxc⟩ := List.mem_map.mp h
    obtain ⟨_, hpred⟩ := List.mem_filter.mp hx
    rw [Bool.and_eq_true] at hpred
    exact (of_decide_eq_true hpred.2) (by rw [hxc])

/-- The round-robin dispatch tail preserves the loop invariant. -/
theorem rrDispatch_inv (cost : Rat) (P : List Process) (qspec : RRProc → Prop)
    (st : RRState) (current : Int) (restq : List Int) (d : RRProc)
    (exec : Rat) (deficitMode : Option Int) (s' : RRState)
    (hsched : SchedInv cost st.schedule st.cs st.current_time)
    (hmap : st.processes.map (fun d => d.process) = P)
    (hwork : sumExecDur st.schedule + sumBy (fun d => d.remaining) st.processes =
      sumBurst P)
    (hremn : ∀ x ∈ st.processes, 0 ≤ x.remaining)
    (hresp : ∀ x ∈ st.processes,
      RespInv st.current_time x.process.arrival_time x.process.burst_time x.remaining
        x.response_time)
    (hqs : ∀ x ∈ st.processes, qspec x)
    (hrok : ∀ res ∈ st.results, ResultOk res)
    (hnd : (P.map (fun p => p.id)).Nodup)
    (hmem : d ∈ st.processes) (hid : d.process.id = current)
    (harr : d.process.arrival_time ≤ st.current_time) (hrem : 0 < d.remaining)
    (hrest : ∀ pid ∈ restq, ∃ x ∈ st.processes,
      x.process.id = pid ∧ 0 < x.remaining ∧ x.process.arrival_time ≤ st.current_time)
    (hqnodup : restq.Nodup) (hcur_notin : current ∉ restq)
    (hexec_pos : 0 < exec) (hexec_le : exec ≤ d.remaining)
    (hq_run : ∀ rt', qspec (rrUpd deficitMode (qSub d.remaining exec) rt' exec d))
    (hq_post : ∀ (x : RRProc) (b : Int), deficitMode = some b →
      qspec { x with deficit_counter := ((b : Int) : Rat) })
    (hq_zero : ∀ (x : RRProc), qspec x → qspec { x with deficit_counter := 0 })
    (hbody : rrDispatch cost st current restq d exec deficitMode = .next s') :
    RRInv cost P qspec s' := by
  simp only [rrDispatch] at hbody
  set acs := guardedAcs cost st.schedule st.cs st.current_time st.last_process current
    with hacs
  obtain ⟨hsc2, ht2, hsum2⟩ := guardedAcs_inv cost st.schedule st.cs st.current_time
    st.last_process current hsched
  rw [← hacs] at hsc2 ht2 hsum2
  have harr2 : d.process.arrival_time ≤ acs.2.2 := le_trans harr ht2
  set rt := if d.response_time = none then some (qSub acs.2.2 d.process.arrival_time)
    else d.response_time with hrt
  have hrt_ok : ∃ r, rt = some r ∧ 0 ≤ r ∧
      d.process.arrival_time + r + (d.process.burst_time - d.remaining) ≤ acs.2.2 := by
    rw [hrt]
    rcases hresp0 : d.response_time with _ | r0
    · rw [if_pos rfl]
      refine ⟨qSub acs.2.2 d.process.arrival_time, rfl, ?_, ?_⟩
      · rw [qSub_eq]; linarith
      · have hfull := (hresp d hmem).1 hresp0
        rw [qSub_eq, hfull]
        ring_nf
        exact le_refl _
    · rw [if_neg (by simp)]
      obtain ⟨h0, h1⟩ := (hresp d hmem).2 r0 hresp0
      exact ⟨r0, rfl, h0, le_trans h1 ht2⟩
  obtain ⟨hsc3, hsum3⟩ := append_exec_inv cost acs.1 acs.2.1 acs.2.2 current exec none
    hsc2 (le_of_lt hexec_pos)
  -- stage 1: the update of the running record
  obtain ⟨l₁, l₂, hdec⟩ := List.append_of_mem hmem
  have hnd' : (st.processes.map (fun x => x.process.id)).Nodup :=
    rrProcs_id_nodup P st.processes hmap hnd
  set u : RRProc → RRProc := rrUpd deficitMode (qSub d.remaining exec) rt exec with hu
  have hupd : updRR current u st.processes = l₁ ++ u d :: l₂ := by
    rw [updRR, hdec]
    exact map_upd_decomp (fun x => x.process.id) current u l₁ l₂ d hid (hdec ▸ hnd')
  have hud_proc : (u d).process = d.process := by
    rw [hu]; cases deficitMode <;> rfl
  have hud_rem : (u d).remaining = qSub d.remaining exec := by
    rw [hu]; cases deficitMode <;> rfl
  have hud_resp : (u d).response_time = rt := by
    rw [hu]; cases deficitMode <;> rfl
  set procs1 := l₁ ++ u d :: l₂ with hprocs1
  have hmap1 : procs1.map (fun x => x.process) = P := by
    rw [hprocs1, ← hmap, hdec, List.map_append, List.map_append, List.map_cons,
      List.map_cons, hud_proc]
  have hwork1 : sumExecDur (acs.1 ++
      [{ process_id := current, start_time := acs.2.2, end_time := qAdd acs.2.2 exec,
         type := "execution", queue_level := none }]) +
      sumBy (fun x => x.remaining) procs1 = sumBurst P := by
    rw [hsum3, hsum2, ← hwork, hprocs1, hdec, sumBy_append, sumBy_append, sumBy_cons,
      sumBy_cons, hud_rem]
    rw [qSub_eq]
    ring
  have hrem1 : ∀ x ∈ procs1, 0 ≤ x.remaining := by
    intro x hx
    rw [hprocs1] at hx
    rcases List.mem_append.mp hx with hx | hx
    · exact hremn x (hdec ▸ List.mem_append.mpr (Or.inl hx))
    · rcases List.mem_cons.mp hx with rfl | hx
      · rw [hud_rem, qSub_eq]; linarith
      · exact hremn x (hdec ▸ List.mem_append.mpr (Or.inr (List.mem_cons_of_mem d hx)))
  have htt : st.current_time ≤ qAdd acs.2.2 exec := by
    rw [qAdd_eq]; linarith
  have hresp1 : ∀ x ∈ procs1,
      RespInv (qAdd acs.2.2 exec) x.process.arrival_time x.process.burst_time
        x.remaining x.response_time := by
    intro x hx
    rw [hprocs1] at hx
    rcases List.mem_append.mp hx with hx | hx
    · exact (hresp x (hdec ▸ List.mem_append.mpr (Or.inl hx))).relax htt
    · rcases List.mem_cons.mp hx with rfl | hx
      · rw [hud_proc, hud_rem, hud_resp]
        obtain ⟨r, hr, hr0, hr1⟩ := hrt_ok
        refine ⟨fun hnone => ?_, fun r2 hr2 => ?_⟩
        · rw [hnone] at hr
          exact absurd hr (by simp)
        · rw [hr] at hr2
          have hrr : r = r2 := Option.some.inj hr2
          subst hrr
          refine ⟨hr0, ?_⟩
          rw [qSub_eq, qAdd_eq]
          linarith
      · exact (hresp x
          (hdec ▸ List.mem_append.mpr (Or.inr (List.mem_cons_of_mem d hx)))).relax htt
  have hqs1 : ∀ x ∈ procs1, qspec x := by
    intro x hx
    rw [hprocs1] at hx
    rcases List.mem_append.mp hx with hx | hx
    · exact hqs x (hdec ▸ List.mem_append.mpr (Or.inl hx))
    · rcases List.mem_cons.mp hx with rfl | hx
      · rw [hu]
        exact hq_run rt
      · exact hqs x (hdec ▸ List.mem_append.mpr (Or.inr (List.mem_cons_of_mem d hx)))
  have hcur1 : u d ∈ procs1 := by
    rw [hprocs1]
    exact List.mem_append.mpr (Or.inr (List.mem_cons_self _ _))
  have hnd1 : (procs1.map (fun x => x.process.id)).Nodup :=
    rrProcs_id_nodup P procs1 hmap1 hnd
  -- stage 2: fold the body into the named stages and split on completion
  rw [hupd] at hbody
  set padm := rrPostAdmit deficitMode procs1 (qAdd acs.2.2 exec) restq current
    with hpadm
  split at hbody
  case isTrue hpos =>
    cases BodyStep.next.inj hbody
    refine ⟨hsc3, ?_, ?_, ?_, ?_, ?_, ?_, ?_, hrok⟩
    · show padm.1.map (fun x => x.process) = P
      rw [hpadm, rrPostAdmit_proj (fun x => x.process) (fun x c => rfl)]
      exact hmap1
    · show sumExecDur (acs.1 ++
        [{ process_id := current, start_time := acs.2.2,
           end_time := qAdd acs.2.2 exec, type := "execution", queue_level := none }]) +
        sumBy (fun x => x.remaining) padm.1 = sumBurst P
      have h1 : sumBy (fun x => x.remaining) padm.1 =
          sumBy (fun x => x.remaining) procs1 := by
        rw [hpadm, sumBy_eq_sum, sumBy_eq_sum,
          rrPostAdmit_proj (fun x => x.remaining) (fun x c => rfl)]
      rw [h1]
      exact hwork1
    · show ∀ y ∈ padm.1, 0 ≤ y.remaining
      rw [hpadm]
      exact rrPostAdmit_forall _ (fun x c h => h) deficitMode procs1 _ restq current
        hrem1
    · show (padm.2 ++ [current]).Nodup
      rw [hpadm, rrPostAdmit_snd]
      refine List.Nodup.append
        (rrAdmitPlain_nodup procs1 _ restq _ hqnodup hnd1)
        (List.nodup_singleton current) ?_
      intro a ha hb
      rw [List.mem_singleton.mp hb] at ha
      exact rrAdmitPlain_excl procs1 _ restq current hcur_notin ha
    · show ∀ pid ∈ padm.2 ++ [current], ∃ y ∈ padm.1,
        y.process.id = pid ∧ 0 < y.remaining ∧
          y.process.arrival_time ≤ qAdd acs.2.2 exec
      rw [hpadm, rrPostAdmit_snd]
      intro pid hpid
      rcases List.mem_append.mp hpid with hpid | hpid
      · rcases rrAdmitPlain_prop procs1 _ restq _ pid hpid with
          hpid | ⟨x, hx, hxid, hxarr, hxrem⟩
        · obtain ⟨x, hx, hxid, hxrem, hxarr⟩ := hrest pid hpid
          have hpidne : pid ≠ current := fun h => hcur_notin (h ▸ hpid)
          have hxmem1 : x ∈ procs1 := by
            rw [hprocs1]
            rw [hdec] at hx
            rcases List.mem_append.mp hx with h | h
            · exact List.mem_append.mpr (Or.inl h)
            · rcases List.mem_cons.mp h with heq | h
              · rw [heq] at hxid
                exact absurd (hxid.symm.trans hid) hpidne
              · exact List.mem_append.mpr (Or.inr (List.mem_cons_of_mem _ h))
          obtain ⟨y, hy, hyproc, hyrem⟩ :=
            rrPostAdmit_track deficitMode procs1 _ restq current x hxmem1
          refine ⟨y, hy, ?_, ?_, ?_⟩
          · rw [hyproc]; exact hxid
          · rw [hyrem]; exact hxrem
          · rw [hyproc]; exact le_trans hxarr htt
        · obtain ⟨y, hy, hyproc, hyrem⟩ :=
            rrPostAdmit_track deficitMode procs1 _ restq current x hx
          refine ⟨y, hy, ?_, ?_, ?_⟩
          · rw [hyproc]; exact hxid
          · rw [hyrem]; exact hxrem
          · rw [hyproc]; exact hxarr
      · rw [List.mem_singleton.mp hpid]
        obtain ⟨y, hy, hyproc, hyrem⟩ :=
          rrPostAdmit_track deficitMode procs1 _ restq current (u d) hcur1
        refine ⟨y, hy, ?_, ?_, ?_⟩
        · rw [hyproc, hud_proc]; exact hid
        · rw [hyrem, hud_rem]; exact (qLtB_iff _ _).mp hpos
        · rw [hyproc, hud_proc]
          exact le_trans harr htt
    · show ∀ y ∈ padm.1, RespInv (qAdd acs.2.2 exec) y.process.arrival_time
        y.process.burst_time y.remaining y.response_time
      rw [hpadm]
      exact rrPostAdmit_forall _ (fun x c h => h) deficitMode procs1 _ restq current
        hresp1
    · show ∀ y ∈ padm.1, qspec y
      rw [hpadm]
      exact rrPostAdmit_qspec qspec deficitMode procs1 _ restq current hqs1 hq_post
  case isFalse hneg =>
    cases BodyStep.next.inj hbody
    have hrem0 : qSub d.remaining exec = 0 := by
      have hz : ¬ (0 < qSub d.remaining exec) :=
        fun hlt => hneg ((qLtB_iff _ _).mpr hlt)
      rw [qSub_eq] at hz ⊢
      push_neg at hz
      linarith
    refine ⟨hsc3, ?_, ?_, ?_, ?_, ?_, ?_, ?_, ?_⟩
    · show (rrFinProcs deficitMode current padm.1).map (fun x => x.process) = P
      rw [hpadm, rrFinProcs_proj (fun x => x.process) (fun x c => rfl),
        rrPostAdmit_proj (fun x => x.process) (fun x c => rfl)]
      exact hmap1
    · show sumExecDur (acs.1 ++
        [{ process_id := current, start_time := acs.2.2,
           end_time := qAdd acs.2.2 exec, type := "execution", queue_level := none }]) +
        sumBy (fun x => x.remaining) (rrFinProcs deficitMode current padm.1) =
        sumBurst P
      have h1 : sumBy (fun x => x.remaining) (rrFinProcs deficitMode current padm.1) =
          sumBy (fun x => x.remaining) procs1 := by
        rw [hpadm, sumBy_eq_sum, sumBy_eq_sum,
          rrFinProcs_proj (fun x => x.remaining) (fun x c => rfl),
          rrPostAdmit_proj (fun x => x.remaining) (fun x c => rfl)]
      rw [h1]
      exact hwork1
    · show ∀ y ∈ rrFinProcs deficitMode current padm.1, 0 ≤ y.remaining
      rw [hpadm]
      exact rrFinProcs_forall _ (fun x h => h) deficitMode current _
        (rrPostAdmit_forall _ (fun x c h => h) deficitMode procs1 _ restq current
          hrem1)
    · show (padm.2).Nodup
      rw [hpadm, rrPostAdmit_snd]
      exact rrAdmitPlain_nodup procs1 _ restq _ hqnodup hnd1
    · show ∀ pid ∈ padm.2, ∃ y ∈ rrFinProcs deficitMode current padm.1,
        y.process.id = pid ∧ 0 < y.remaining ∧
          y.process.arrival_time ≤ qAdd acs.2.2 exec
      rw [hpadm, rrPostAdmit_snd]
      intro pid hpid
      rcases rrAdmitPlain_prop procs1 _ restq _ pid hpid with
        hpid | ⟨x, hx, hxid, hxarr, hxrem⟩
      · obtain ⟨x, hx, hxid, hxrem, hxarr⟩ := hrest pid hpid
        have hpidne : pid ≠ current := fun h => hcur_notin (h ▸ hpid)
        have hxmem1 : x ∈ procs1 := by
          rw [hprocs1]
          rw [hdec] at hx
          rcases List.mem_append.mp hx with h | h
          · exact List.mem_append.mpr (Or.inl h)
          · rcases List.mem_cons.mp h with heq | h
            · rw [heq] at hxid
              exact absurd (hxid.symm.trans hid) hpidne
            · exact List.mem_append.mpr (Or.inr (List.mem_cons_of_mem _ h))
        obtain ⟨y1, hy1, hy1proc, hy1rem⟩ :=
          rrPostAdmit_track deficitMode procs1 _ restq current x hxmem1
        obtain ⟨y, hy, hyproc, hyrem⟩ :=
          rrFinProcs_track deficitMode current _ y1 hy1
        refine ⟨y, hy, ?_, ?_, ?_⟩
        · rw [hyproc, hy1proc]; exact hxid
        · rw [hyrem, hy1rem]; exact hxrem
        · rw [hyproc, hy1proc]; exact le_trans hxarr htt
      · obtain ⟨y1, hy1, hy1proc, hy1rem⟩ :=
          rrPostAdmit_track deficitMode procs1 _ restq current x hx
        obtain ⟨y, hy, hyproc, hyrem⟩ :=
          rrFinProcs_track deficitMode current _ y1 hy1
        refine ⟨y, hy, ?_, ?_, ?_⟩
        · rw [hyproc, hy1proc]; exact hxid
        · rw [hyrem, hy1rem]; exact hxrem
        · rw [hyproc, hy1proc]; exact hxarr
    · show ∀ y ∈ rrFinProcs deficitMode current padm.1,
        RespInv (qAdd acs.2.2 exec) y.process.arrival_time y.process.burst_time
          y.remaining y.response_time
      rw [hpadm]
      exact rrFinProcs_forall _ (fun x h => h) deficitMode current _
        (rrPostAdmit_forall _ (fun x c h => h) deficitMode procs1 _ restq current
          hresp1)
    · show ∀ y ∈ rrFinProcs deficitMode current padm.1, qspec y
      rw [hpadm]
      exact rrFinProcs_forall qspec hq_zero deficitMode current _
        (rrPostAdmit_qspec qspec deficitMode procs1 _ restq current hqs1 hq_post)
    · show ∀ res ∈ st.results ++
        [{ pid := current, arrival_time := d.process.arrival_time,
           burst_time := d.process.burst_time, priority := d.process.priority,
           completion_time := qAdd acs.2.2 exec,
           turnaround_time := qSub (qAdd acs.2.2 exec) d.process.arrival_time,
           waiting_time := qSub (qSub (qAdd acs.2.2 exec) d.process.arrival_time)
             d.process.burst_time,
           response_time := rt }], ResultOk res
      intro res hres
      rcases List.mem_append.mp hres with hres | hres
      · exact hrok res hres
      · rcases List.mem_singleton.mp hres with rfl
        obtain ⟨r, hr, hr0, hr1⟩ := hrt_ok
        rw [qSub_eq] at hrem0
        refine ⟨?_, ?_, ⟨r, hr, hr0, ?_⟩⟩
        · show 0 ≤ qSub (qSub (qAdd acs.2.2 exec) d.process.arrival_time)
            d.process.burst_time
          simp only [qSub_eq, qAdd_eq]
          linarith
        · show qSub (qAdd acs.2.2 exec) d.process.arrival_time =
            qSub (qSub (qAdd acs.2.2 exec) d.process.arrival_time)
              d.process.burst_time + d.process.burst_time
          simp only [qSub_eq, qAdd_eq]
          ring
        · show r ≤ qSub (qSub (qAdd acs.2.2 exec) d.process.arrival_time)
            d.process.burst_time
          simp only [qSub_eq, qAdd_eq]
          linarith

/-- Unfolding equations of the deficit variant's arrival scan. -/
theorem drrAdmit_snd (b : Int) (procs : List RRProc) (t : Rat) (ready : List Int)
    (excl : Option Int) :
    (drrAdmit b procs t ready excl).2 = rrAdmitPlain procs t ready excl := rfl

theorem drrAdmit_proj {β : Type} (proj : RRProc → β)
    (hp : ∀ (x : RRProc) (c : Rat), proj { x with deficit_counter := c } = proj x)
    (b : Int) (procs : List RRProc) (t : Rat) (ready : List Int) (excl : Option Int) :
    ((drrAdmit b procs t ready excl).1).map proj = procs.map proj := by
  have h := condMap_proj (fun x => { x with deficit_counter := ((b : Int) : Rat) })
    (fun x => rrEligible t ready x && decide (some x.process.id ≠ excl)) proj procs
    (fun x => hp x _)
  exact h

theorem drrAdmit_forall (b : Int) (Q : RRProc → Prop) (procs : List RRProc) (t : Rat)
    (ready : List Int) (excl : Option Int) (h : ∀ x ∈ procs, Q x)
    (hQ : ∀ x ∈ procs, Q x → Q { x with deficit_counter := ((b : Int) : Rat) }) :
    ∀ y ∈ (drrAdmit b procs t ready excl).1, Q y := by
  intro y hy
  have hy' : y ∈ procs.map (fun x =>
      if rrEligible t ready x && decide (some x.process.id ≠ excl) then
        ({ x with deficit_counter := ((b : Int) : Rat) } : RRProc)
      else x) := hy
  exact condMap_forall (fun x => { x with deficit_counter := ((b : Int) : Rat) })
    (fun x => rrEligible t ready x && decide (some x.process.id ≠ excl)) Q procs h hQ
    y hy'

theorem drrAdmit_track (b : Int) (procs : List RRProc) (t : Rat) (ready : List Int)
    (excl : Option Int) (x : RRProc) (hx : x ∈ procs) :
    ∃ y ∈ (drrAdmit b procs t ready excl).1,
      y.process = x.process ∧ y.remaining = x.remaining := by
  exact rrCondMap_track (fun z => { z with deficit_counter := ((b : Int) : Rat) })
    (fun z => rrEligible t ready z && decide (some z.process.id ≠ excl))
    (fun z => ⟨rfl, rfl⟩) procs x hx

/-- Membership facts about pids produced by the sorted arrival scan of
the standard variant. -/
theorem rrAdmitSorted_prop (s : RRState) (pid : Int) (h : pid ∈ rrAdmitSorted s) :
    pid ∈ s.ready_queue ∨ ∃ d ∈ s.processes, d.process.id = pid ∧
      d.process.arrival_time ≤ s.current_time ∧ 0 < d.remaining := by
  rw [rrAdmitSorted] at h
  rcases List.mem_append.mp h with h | h
  · exact Or.inl h
  · have h' := (pySortLe_perm _ _).mem_iff.mp h
    obtain ⟨d, hd, rfl⟩ := List.mem_map.mp h'
    obtain ⟨hmem, hp⟩ := List.mem_filter.mp hd
    rw [rrEligible, Bool.and_eq_true, Bool.and_eq_true] at hp
    exact Or.inr ⟨d, hmem, rfl, (qLeB_iff _ _).mp hp.1.1, (qLtB_iff _ _).mp hp.1.2⟩

theorem rrAdmitSorted_nodup (s : RRState) (hready : s.ready_queue.Nodup)
    (hnd : (s.processes.map (fun d => d.process.id)).Nodup) :
    (rrAdmitSorted s).Nodup := by
  rw [rrAdmitSorted]
  have hperm := pySortLe_perm (fun a b => decide (a ≤ b))
    ((s.processes.filter (rrEligible s.current_time s.ready_queue)).map
      (fun d => d.process.id))
  refine List.Nodup.append hready ?_ ?_
  · exact hperm.nodup_iff.mpr
      (List.Nodup.sublist ((List.filter_sublist _).map _) hnd)
  · intro pid hp hq
    have hq' := hperm.mem_iff.mp hq
    obtain ⟨d, hd, rfl⟩ := List.mem_map.mp hq'
    obtain ⟨_, hpred⟩ := List.mem_filter.mp hd
    rw [rrEligible, Bool.and_eq_true] at hpred
    exact (of_decide_eq_true hpred.2) hp

/-- Every pid of the initial ready queue names a process that arrives at
the earliest arrival time. -/
theorem rrInitialReady_prop (P : List Process) (earliest : Rat) (pid : Int)
    (h : pid ∈ rrInitialReady P earliest) :
    ∃ p ∈ P, p.id = pid ∧ p.arrival_time = earliest := by
  rw [rrInitialReady] at h
  obtain ⟨p, hp, rfl⟩ := List.mem_map.mp h
  obtain ⟨hmem, hpred⟩ := List.mem_filter.mp hp
  have hmem' := (pySortLe_perm _ _).mem_iff.mp hmem
  exact ⟨p, hmem', rfl, of_decide_eq_true hpred⟩

theorem rrInitialReady_nodup (P : List Process) (earliest : Rat)
    (hnd : (P.map (fun p => p.id)).Nodup) : (rrInitialReady P earliest).Nodup := by
  rw [rrInitialReady]
  have hperm := pySortLe_perm
    (fun a b => lexLeQI (a.arrival_time, a.id) (b.arrival_time, b.id)) P
  have hnds : ((pySortLe
      (fun a b => lexLeQI (a.arrival_time, a.id) (b.arrival_time, b.id)) P).map
      (fun p => p.id)).Nodup := (hperm.map (fun p => p.id)).nodup_iff.mpr hnd
  exact List.Nodup.sublist ((List.filter_sublist _).map _) hnds

/-- The dispatch tail never issues a `stop` step. -/
theorem rrDispatch_no_stop (cost : Rat) (st : RRState) (current : Int)
    (restq : List Int) (d : RRProc) (exec : Rat) (dm : Option Int) (s' : RRState) :
    rrDispatch cost st current restq d exec dm ≠ .stop s' := by
  simp only [rrDispatch]
  intro h
  split at h <;> exact BodyStep.noConfusion h

/-- When the round-robin loop condition fails, all work is done. -/
theorem rrExit_work (cost : Rat) (P : List Process) (qspec : RRProc → Prop)
    (st : RRState) (hInv : RRInv cost P qspec st) (hc : rrCond st = false) :
    sumExecDur st.schedule = sumBurst P := by
  rw [rrCond, Bool.or_eq_false_iff] at hc
  obtain ⟨h1, h2⟩ := hc
  rw [List.any_eq_false] at h2
  have hall : ∀ d ∈ st.processes, d.remaining = 0 := by
    intro d hd
    have h3 := (qLtB_eq_false_iff 0 d.remaining).mp (Bool.not_eq_true _ ▸ h2 d hd)
    linarith [hInv.rem_nonneg d hd]
  have hw := hInv.work
  rw [sumBy_zero _ _ hall, add_zero] at hw
  exact hw

theorem rrFinish_good (cost : Rat) (P : List Process) (qspec : RRProc → Prop)
    (algorithm : String) (st : RRState) (hInv : RRInv cost P qspec st)
    (hwork : sumExecDur st.schedule = sumBurst P) :
    GoodRun cost P ResultOk (rrFinish cost algorithm st) := by
  refine ⟨hInv.sched.chain, hInv.sched.no_idle, hInv.sched.head_exec, ?_, ?_, hwork,
    hInv.results_ok⟩
  · show (calculate_metrics cost st.cs st.results st.current_time).context_switches =
      countCS st.schedule
    rw [calculate_metrics_cs]
    exact hInv.sched.cs_count.symm
  · intro hc
    show countCS st.schedule = 0
    rw [hInv.sched.cs_count]
    exact hInv.sched.cs_zero hc

/-- The shared initial state of the round-robin family satisfies the
loop invariant. -/
theorem RRInv_init (cost : Rat) (P : List Process) (qspec : RRProc → Prop)
    (mk : Process → RRProc) (earliest : Rat)
    (hmk_proc : ∀ p, (mk p).process = p)
    (hmk_rem : ∀ p, (mk p).remaining = p.burst_time)
    (hmk_resp : ∀ p, (mk p).response_time = none)
    (hmk_q : ∀ p ∈ P, qspec (mk p))
    (hnd : (P.map (fun p => p.id)).Nodup)
    (hb : ∀ p ∈ P, 0 < p.burst_time) :
    RRInv cost P qspec
      { processes := P.map mk, ready_queue := rrInitialReady P earliest,
        schedule := [], results := [], current_time := earliest,
        last_process := none, cs := 0 } := by
  refine ⟨SchedInv_init cost earliest, ?_, ?_, ?_, ?_, ?_, ?_, ?_, ?_⟩
  · rw [List.map_map]
    have hcomp : ((fun d : RRProc => d.process) ∘ mk) = fun p => p :=
      funext (fun p => hmk_proc p)
    rw [hcomp]
    exact List.map_id P
  · show sumExecDur [] + sumBy (fun d => d.remaining) (P.map mk) = sumBurst P
    rw [sumExecDur, List.filter_nil, sumBy, List.foldr_nil, zero_add, sumBurst,
      sumBy_eq_sum, sumBy_eq_sum, List.map_map]
    have hcomp : P.map ((fun d : RRProc => d.remaining) ∘ mk) =
        P.map (fun p => p.burst_time) :=
      List.map_congr_left (fun p _ => hmk_rem p)
    rw [hcomp]
  · intro d hd
    obtain ⟨p, hp, rfl⟩ := List.mem_map.mp hd
    rw [hmk_rem]
    exact le_of_lt (hb p hp)
  · exact rrInitialReady_nodup P earliest hnd
  · intro pid hpid
    obtain ⟨p, hp, hpid', hparr⟩ := rrInitialReady_prop P earliest pid hpid
    refine ⟨mk p, List.mem_map.mpr ⟨p, hp, rfl⟩, ?_, ?_, ?_⟩
    · rw [hmk_proc]; exact hpid'
    · rw [hmk_rem]; exact hb p hp
    · rw [hmk_proc]; exact le_of_eq hparr
  · intro d hd
    obtain ⟨p, hp, rfl⟩ := List.mem_map.mp hd
    refine ⟨fun _ => ?_, fun r hr => ?_⟩
    · rw [hmk_rem, hmk_proc]
    · rw [hmk_resp] at hr
      exact absurd hr (by simp)
  · intro d hd
    obtain ⟨p, hp, rfl⟩ := List.mem_map.mp hd
    exact hmk_q p hp
  · intro res hres
    exact absurd hres (List.not_mem_nil res)

/-- The weighted per-process quantum is at least one time unit. -/
theorem weighted_quantum_pos (b : Int) (w : Rat) : 1 ≤ weighted_quantum b w := by
  simp only [weighted_quantum]
  split <;> omega

theorem rr_std_body_inv (cost : Rat) (tq : Int) (P : List Process)
    (hnd : (P.map (fun p => p.id)).Nodup) (htq : 0 < tq) (s s' : RRState)
    (hInv : RRInv cost P (fun _ => True) s)
    (hbody : rr_std_body cost tq s = .next s') :
    RRInv cost P (fun _ => True) s' := by
  simp only [rr_std_body] at hbody
  split at hbody
  case h_1 hadm =>
    rw [hadm] at hbody
    cases hna : rrNextArrival s with
    | none => rw [hna] at hbody; exact BodyStep.noConfusion hbody
    | some na =>
      rw [hna] at hbody
      cases BodyStep.next.inj hbody
      have hgt : s.current_time ≤ na := le_of_lt (rrNextArrival_gt s na hna)
      exact ⟨hInv.sched.mono hgt, hInv.procs_map, hInv.work, hInv.rem_nonneg,
        List.nodup_nil, fun pid hpid => absurd hpid (List.not_mem_nil pid),
        fun d hd => (hInv.resp d hd).relax hgt, hInv.qspec_all, hInv.results_ok⟩
  case h_2 current restq hadm =>
    rw [hadm] at hbody
    cases hfind : s.processes.find? (fun d => d.process.id = current) with
    | none => rw [hfind] at hbody; exact BodyStep.noConfusion hbody
    | some d =>
      rw [hfind] at hbody
      have hmem : d ∈ s.processes := List.mem_of_find?_eq_some hfind
      have hpd := List.find?_some hfind
      have hid : d.process.id = current := of_decide_eq_true hpd
      have hnd' : (s.processes.map (fun z => z.process.id)).Nodup :=
        rrProcs_id_nodup P s.processes hInv.procs_map hnd
      have hready_rec : ∀ pid ∈ current :: restq, ∃ x ∈ s.processes,
          x.process.id = pid ∧ 0 < x.remaining ∧
            x.process.arrival_time ≤ s.current_time := by
        intro pid hpid
        rw [← hadm] at hpid
        rcases rrAdmitSorted_prop s pid hpid with h | ⟨x, hx, h1, h2, h3⟩
        · exact hInv.ready_mem pid h
        · exact ⟨x, hx, h1, h3, h2⟩
      obtain ⟨x, hxmem, hxid, hxrem, hxarr⟩ :=
        hready_rec current (List.mem_cons_self _ _)
      have hxd : x = d := nodup_id_unique _ s.processes hnd' x d hxmem hmem
        (hxid.trans hid.symm)
      rw [hxd] at hxrem hxarr
      have hqnd : (current :: restq).Nodup := by
        rw [← hadm]
        exact rrAdmitSorted_nodup s hInv.ready_nodup hnd'
      rw [List.nodup_cons] at hqnd
      have hexec_pos : 0 < qMin ((tq : Int) : Rat) d.remaining := by
        rw [qMin_eq]
        refine lt_min ?_ hxrem
        exact_mod_cast htq
      have hexec_le : qMin ((tq : Int) : Rat) d.remaining ≤ d.remaining := by
        rw [qMin_eq]; exact min_le_right _ _
      exact rrDispatch_inv cost P (fun _ => True)
        { s with ready_queue := current :: restq } current restq d
        (qMin ((tq : Int) : Rat) d.remaining) none s'
        hInv.sched hInv.procs_map hInv.work hInv.rem_nonneg hInv.resp
        hInv.qspec_all hInv.results_ok hnd hmem hid hxarr hxrem
        (fun pid hpid => hready_rec pid (List.mem_cons_of_mem _ hpid))
        hqnd.2 hqnd.1 hexec_pos hexec_le
        (fun rt' => trivial) (fun z b hb => trivial) (fun z h => trivial) hbody

theorem rr_std_body_no_stop (cost : Rat) (tq : Int) (s s' : RRState) :
    rr_std_body cost tq s ≠ .stop s' := by
  simp only [rr_std_body]
  intro h
  split at h
  · cases hna : rrNextArrival s with
    | none => rw [hna] at h; exact BodyStep.noConfusion h
    | some na => rw [hna] at h; exact BodyStep.noConfusion h
  · rename_i current restq _
    cases hfind : s.processes.find? (fun d => d.process.id = current) with
    | none => rw [hfind] at h; exact BodyStep.noConfusion h
    | some d =>
      rw [hfind] at h
      exact rrDispatch_no_stop _ _ _ _ _ _ _ s' h

/-- `_standard_round_robin` produces a `GoodRun` on valid workloads with
a valid quantum. -/
theorem standard_round_robin_good (fuel : Nat) (request : SchedulingRequest)
    (r : SchedulingResult) (hv : ValidWorkload request.processes)
    (hq : ValidQuantum request.time_quantum)
    (h : standard_round_robin fuel request = .ok r) :
    GoodRun request.context_switch_cost request.processes ResultOk r := by
  obtain ⟨hnd, hpb⟩ := hv
  simp only [standard_round_robin] at h
  split at h
  · exact Except.noConfusion h
  · rename_i earliest hmin
    exact runLoop_inv rrCond
      (rr_std_body request.context_switch_cost (pyOrInt request.time_quantum 2))
      (rrFinish request.context_switch_cost "Round Robin (Standard)")
      (RRInv request.context_switch_cost request.processes (fun _ => True)) _
      (fun s s' hc hInv hb =>
        rr_std_body_inv _ _ _ hnd hq s s' hInv hb)
      (fun s s' hc hInv hb =>
        absurd hb (rr_std_body_no_stop _ _ s s'))
      (fun s hc hInv =>
        rrFinish_good _ _ _ _ s hInv (rrExit_work _ _ _ s hInv hc))
      fuel _ r
      (RRInv_init request.context_switch_cost request.processes (fun _ => True)
        (fun p => { process := p, remaining := p.burst_time, response_time := none })
        earliest (fun p => rfl) (fun p => rfl) (fun p => rfl)
        (fun p hp => trivial) hnd (fun p hp => (hpb p hp).1)) h

theorem rr_weighted_body_inv (cost : Rat) (P : List Process)
    (hnd : (P.map (fun p => p.id)).Nodup) (s s' : RRState)
    (hInv : RRInv cost P (fun x => 1 ≤ x.quantum) s)
    (hbody : rr_weighted_body cost s = .next s') :
    RRInv cost P (fun x => 1 ≤ x.quantum) s' := by
  simp only [rr_weighted_body] at hbody
  split at hbody
  case h_1 hadm =>
    rw [hadm] at hbody
    cases hna : rrNextArrival s with
    | none => rw [hna] at hbody; exact BodyStep.noConfusion hbody
    | some na =>
      rw [hna] at hbody
      cases BodyStep.next.inj hbody
      have hgt : s.current_time ≤ na := le_of_lt (rrNextArrival_gt s na hna)
      exact ⟨hInv.sched.mono hgt, hInv.procs_map, hInv.work, hInv.rem_nonneg,
        List.nodup_nil, fun pid hpid => absurd hpid (List.not_mem_nil pid),
        fun d hd => (hInv.resp d hd).relax hgt, hInv.qspec_all, hInv.results_ok⟩
  case h_2 current restq hadm =>
    rw [hadm] at hbody
    cases hfind : s.processes.find? (fun d => d.process.id = current) with
    | none => rw [hfind] at hbody; exact BodyStep.noConfusion hbody
    | some d =>
      rw [hfind] at hbody
      have hmem : d ∈ s.processes := List.mem_of_find?_eq_some hfind
      have hpd := List.find?_some hfind
      have hid : d.process.id = current := of_decide_eq_true hpd
      have hnd' : (s.processes.map (fun z => z.process.id)).Nodup :=
        rrProcs_id_nodup P s.processes hInv.procs_map hnd
      have hready_rec : ∀ pid ∈ current :: restq, ∃ x ∈ s.processes,
          x.process.id = pid ∧ 0 < x.remaining ∧
            x.process.arrival_time ≤ s.current_time := by
        intro pid hpid
        rw [← hadm] at hpid
        rcases rrAdmitPlain_prop s.processes _ _ _ pid hpid with h | ⟨x, hx, h1, h2, h3⟩
        · exact hInv.ready_mem pid h
        · exact ⟨x, hx, h1, h3, h2⟩
      obtain ⟨x, hxmem, hxid, hxrem, hxarr⟩ :=
        hready_rec current (List.mem_cons_self _ _)
      have hxd : x = d := nodup_id_unique _ s.processes hnd' x d hxmem hmem
        (hxid.trans hid.symm)
      rw [hxd] at hxrem hxarr
      have hqnd : (current :: restq).Nodup := by
        rw [← hadm]
        exact rrAdmitPlain_nodup s.processes _ _ _ hInv.ready_nodup hnd'
      rw [List.nodup_cons] at hqnd
      have hdq : 1 ≤ d.quantum := hInv.qspec_all d hmem
      have hexec_pos : 0 < qMin ((d.quantum : Int) : Rat) d.remaining := by
        rw [qMin_eq]
        refine lt_min ?_ hxrem
        have : (0 : Int) < d.quantum := by omega
        exact_mod_cast this
      have hexec_le : qMin ((d.quantum : Int) : Rat) d.remaining ≤ d.remaining := by
        rw [qMin_eq]; exact min_le_right _ _
      exact rrDispatch_inv cost P (fun x => 1 ≤ x.quantum)
        { s with ready_queue := current :: restq } current restq d
        (qMin ((d.quantum : Int) : Rat) d.remaining) none s'
        hInv.sched hInv.procs_map hInv.work hInv.rem_nonneg hInv.resp
        hInv.qspec_all hInv.results_ok hnd hmem hid hxarr hxrem
        (fun pid hpid => hready_rec pid (List.mem_cons_of_mem _ hpid))
        hqnd.2 hqnd.1 hexec_pos hexec_le
        (fun rt' => hdq) (fun z b hb => Option.noConfusion hb)
        (fun z h => h) hbody

theorem rr_weighted_body_no_stop (cost : Rat) (s s' : RRState) :
    rr_weighted_body cost s ≠ .stop s' := by
  simp only [rr_weighted_body]
  intro h
  split at h
  · cases hna : rrNextArrival s with
    | none => rw [hna] at h; exact BodyStep.noConfusion h
    | some na => rw [hna] at h; exact BodyStep.noConfusion h
  · rename_i current restq _
    cases hfind : s.processes.find? (fun d => d.process.id = current) with
    | none => rw [hfind] at h; exact BodyStep.noConfusion h
    | some d =>
      rw [hfind] at h
      exact rrDispatch_no_stop _ _ _ _ _ _ _ s' h

/-- `_weighted_round_robin` produces a `GoodRun` on valid workloads. -/
theorem weighted_round_robin_good (fuel : Nat) (request : SchedulingRequest)
    (r : SchedulingResult) (hv : ValidWorkload request.processes)
    (h : weighted_round_robin fuel request = .ok r) :
    GoodRun request.context_switch_cost request.processes ResultOk r := by
  obtain ⟨hnd, hpb⟩ := hv
  simp only [weighted_round_robin] at h
  split at h
  · exact Except.noConfusion h
  · rename_i earliest hmin
    exact runLoop_inv rrCond (rr_weighted_body request.context_switch_cost)
      (rrFinish request.context_switch_cost "Round Robin (Weighted)")
      (RRInv request.context_switch_cost request.processes (fun x => 1 ≤ x.quantum)) _
      (fun s s' hc hInv hb =>
        rr_weighted_body_inv _ _ hnd s s' hInv hb)
      (fun s s' hc hInv hb =>
        absurd hb (rr_weighted_body_no_stop _ s s'))
      (fun s hc hInv =>
        rrFinish_good _ _ _ _ s hInv (rrExit_work _ _ _ s hInv hc))
      fuel _ r
      (RRInv_init request.context_switch_cost request.processes
        (fun x => 1 ≤ x.quantum)
        (fun p => { process := p, remaining := p.burst_time, response_time := none,
                    quantum := weighted_quantum (pyOrInt request.time_quantum 2)
                      (weightsGet request.process_weights p.id) })
        earliest (fun p => rfl) (fun p => rfl) (fun p => rfl)
        (fun p hp => weighted_quantum_pos _ _) hnd (fun p hp => (hpb p hp).1)) h

theorem rr_deficit_body_inv (cost : Rat) (bq : Int) (P : List Process)
    (hnd : (P.map (fun p => p.id)).Nodup) (hbq : 0 < bq) (s s' : RRState)
    (hInv : RRInv cost P (fun x => 0 ≤ x.deficit_counter) s)
    (hbody : rr_deficit_body cost bq s = .next s') :
    RRInv cost P (fun x => 0 ≤ x.deficit_counter) s' := by
  have hbq' : (0 : Rat) ≤ ((bq : Int) : Rat) := by exact_mod_cast le_of_lt hbq
  have hnd' : (s.processes.map (fun z => z.process.id)).Nodup :=
    rrProcs_id_nodup P s.processes hInv.procs_map hnd
  -- stage A: the counter-initializing top-of-loop arrival scan
  have hmapA : ((drrAdmit bq s.processes s.current_time s.ready_queue none).1).map
      (fun z => z.process) = P := by
    rw [drrAdmit_proj (fun z => z.process) (fun x c => rfl)]
    exact hInv.procs_map
  have hndA : (((drrAdmit bq s.processes s.current_time s.ready_queue none).1).map
      (fun z => z.process.id)).Nodup :=
    rrProcs_id_nodup P _ hmapA hnd
  have hremA : ∀ y ∈ (drrAdmit bq s.processes s.current_time s.ready_queue none).1,
      0 ≤ y.remaining :=
    drrAdmit_forall bq _ s.processes s.current_time s.ready_queue none
      hInv.rem_nonneg (fun x hx h => h)
  have hrespA : ∀ y ∈ (drrAdmit bq s.processes s.current_time s.ready_queue none).1,
      RespInv s.current_time y.process.arrival_time y.process.burst_time y.remaining
        y.response_time :=
    drrAdmit_forall bq _ s.processes s.current_time s.ready_queue none
      hInv.resp (fun x hx h => h)
  have hqsA : ∀ y ∈ (drrAdmit bq s.processes s.current_time s.ready_queue none).1,
      (0 : Rat) ≤ y.deficit_counter :=
    drrAdmit_forall bq _ s.processes s.current_time s.ready_queue none
      hInv.qspec_all (fun x hx h => hbq')
  have hworkA : sumBy (fun z => z.remaining)
      ((drrAdmit bq s.processes s.current_time s.ready_queue none).1) =
      sumBy (fun z => z.remaining) s.processes := by
    rw [sumBy_eq_sum, sumBy_eq_sum,
      drrAdmit_proj (fun z => z.remaining) (fun x c => rfl)]
  simp only [rr_deficit_body] at hbody
  split at hbody
  case h_1 hadm =>
    rw [hadm] at hbody
    cases hna : rrNextArrival { s with processes :=
        (drrAdmit bq s.processes s.current_time s.ready_queue none).1 } with
    | none => rw [hna] at hbody; exact BodyStep.noConfusion hbody
    | some na =>
      rw [hna] at hbody
      cases BodyStep.next.inj hbody
      have hgt : s.current_time ≤ na :=
        le_of_lt (rrNextArrival_gt { s with processes :=
          (drrAdmit bq s.processes s.current_time s.ready_queue none).1 } na hna)
      refine ⟨hInv.sched.mono hgt, hmapA, ?_, hremA, List.nodup_nil,
        fun pid hpid => absurd hpid (List.not_mem_nil pid),
        fun z hz => (hrespA z hz).relax hgt, hqsA, hInv.results_ok⟩
      show sumExecDur s.schedule + sumBy (fun z => z.remaining)
        ((drrAdmit bq s.processes s.current_time s.ready_queue none).1) = sumBurst P
      rw [hworkA]
      exact hInv.work
  case h_2 current restq hadm =>
    rw [hadm] at hbody
    cases hfind : ((drrAdmit bq s.processes s.current_time s.ready_queue none).1).find?
        (fun d => d.process.id = current) with
    | none => rw [hfind] at hbody; exact BodyStep.noConfusion hbody
    | some d0 =>
      rw [hfind] at hbody
      have hd0mem : d0 ∈ (drrAdmit bq s.processes s.current_time s.ready_queue none).1 :=
        List.mem_of_find?_eq_some hfind
      have hpd := List.find?_some hfind
      have hd0id : d0.process.id = current := of_decide_eq_true hpd
      have hadm' : rrAdmitPlain s.processes s.current_time s.ready_queue none =
          current :: restq := hadm
      have hqnd : (current :: restq).Nodup := by
        rw [← hadm']
        exact rrAdmitPlain_nodup s.processes _ _ _ hInv.ready_nodup hnd'
      rw [List.nodup_cons] at hqnd
      have hready_rec : ∀ pid ∈ current :: restq, ∃ x ∈ s.processes,
          x.process.id = pid ∧ 0 < x.remaining ∧
            x.process.arrival_time ≤ s.current_time := by
        intro pid hpid
        rw [← hadm'] at hpid
        rcases rrAdmitPlain_prop s.processes _ _ _ pid hpid with h | ⟨x, hx, h1, h2, h3⟩
        · exact hInv.ready_mem pid h
        · exact ⟨x, hx, h1, h3, h2⟩
      obtain ⟨x, hxmem, hxid, hxrem, hxarr⟩ :=
        hready_rec current (List.mem_cons_self _ _)
      obtain ⟨x1, hx1mem, hx1proc, hx1rem⟩ :=
        drrAdmit_track bq s.processes s.current_time s.ready_queue none x hxmem
      have hx1d0 : x1 = d0 := nodup_id_unique _ _ hndA x1 d0 hx1mem hd0mem
        (by rw [hx1proc, hxid, hd0id])
      have hd0rem : 0 < d0.remaining := by rw [← hx1d0, hx1rem]; exact hxrem
      have hd0arr : d0.process.arrival_time ≤ s.current_time := by
        rw [← hx1d0, hx1proc]; exact hxarr
      -- stage B: the in-place deficit top-up of the dispatched record
      set dd : RRProc :=
        { d0 with deficit_counter := qAdd d0.deficit_counter ((bq : Int) : Rat) }
        with hdd
      have hdd_proc : dd.process = d0.process := by rw [hdd]
      have hdd_rem : dd.remaining = d0.remaining := by rw [hdd]
      have hdd_resp : dd.response_time = d0.response_time := by rw [hdd]
      have hdd_q : dd.deficit_counter = qAdd d0.deficit_counter ((bq : Int) : Rat) := by
        rw [hdd]
      obtain ⟨m₁, m₂, hdecA⟩ := List.append_of_mem hd0mem
      have hupd2 : updRR current (fun _ => dd)
          ((drrAdmit bq s.processes s.current_time s.ready_queue none).1) =
          m₁ ++ dd :: m₂ := by
        rw [updRR, hdecA]
        exact map_upd_decomp (fun z => z.process.id) current _ m₁ m₂ d0 hd0id
          (hdecA ▸ hndA)
      have hmapB : (m₁ ++ dd :: m₂).map (fun z => z.process) = P := by
        rw [← hmapA, hdecA, List.map_append, List.map_append, List.map_cons,
          List.map_cons, hdd_proc]
      have hworkB : sumExecDur s.schedule +
          sumBy (fun z => z.remaining) (m₁ ++ dd :: m₂) = sumBurst P := by
        have h1 : sumBy (fun z => z.remaining) (m₁ ++ dd :: m₂) =
            sumBy (fun z => z.remaining) s.processes := by
          rw [sumBy_append, sumBy_cons, hdd_rem, ← sumBy_cons, ← sumBy_append, ← hdecA]
          exact hworkA
        rw [h1]
        exact hInv.work
      have hremB : ∀ z ∈ m₁ ++ dd :: m₂, 0 ≤ z.remaining := by
        intro z hz
        rcases List.mem_append.mp hz with hz | hz
        · exact hremA z (hdecA ▸ List.mem_append.mpr (Or.inl hz))
        · rcases List.mem_cons.mp hz with heq | hz
          · rw [heq, hdd_rem]; exact le_of_lt hd0rem
          · exact hremA z (hdecA ▸ List.mem_append.mpr
              (Or.inr (List.mem_cons_of_mem _ hz)))
      have hrespB : ∀ z ∈ m₁ ++ dd :: m₂, RespInv s.current_time
          z.process.arrival_time z.process.burst_time z.remaining z.response_time := by
        intro z hz
        rcases List.mem_append.mp hz with hz | hz
        · exact hrespA z (hdecA ▸ List.mem_append.mpr (Or.inl hz))
        · rcases List.mem_cons.mp hz with heq | hz
          · rw [heq, hdd_proc, hdd_rem, hdd_resp]
            exact hrespA d0 hd0mem
          · exact hrespA z (hdecA ▸ List.mem_append.mpr
              (Or.inr (List.mem_cons_of_mem _ hz)))
      have hqsB : ∀ z ∈ m₁ ++ dd :: m₂, (0 : Rat) ≤ z.deficit_counter := by
        intro z hz
        rcases List.mem_append.mp hz with hz | hz
        · exact hqsA z (hdecA ▸ List.mem_append.mpr (Or.inl hz))
        · rcases List.mem_cons.mp hz with heq | hz
          · rw [heq, hdd_q, qAdd_eq]
            have h0 := hqsA d0 hd0mem
            linarith
          · exact hqsA z (hdecA ▸ List.mem_append.mpr
              (Or.inr (List.mem_cons_of_mem _ hz)))
      have hrest2 : ∀ pid ∈ restq, ∃ z ∈ m₁ ++ dd :: m₂, z.process.id = pid ∧
          0 < z.remaining ∧ z.process.arrival_time ≤ s.current_time := by
        intro pid hpid
        obtain ⟨x2, hx2mem, hx2id, hx2rem, hx2arr⟩ :=
          hready_rec pid (List.mem_cons_of_mem _ hpid)
        obtain ⟨y, hymem, hyproc, hyrem⟩ :=
          drrAdmit_track bq s.processes s.current_time s.ready_queue none x2 hx2mem
        have hyid : y.process.id = pid := by rw [hyproc]; exact hx2id
        have hpidne : pid ≠ current := fun h => hqnd.1 (h ▸ hpid)
        have hymem' : y ∈ m₁ ++ dd :: m₂ := by
          rw [hdecA] at hymem
          rcases List.mem_append.mp hymem with h | h
          · exact List.mem_append.mpr (Or.inl h)
          · rcases List.mem_cons.mp h with heq | h
            · rw [heq] at hyid
              exact absurd (hyid.symm.trans hd0id) hpidne
            · exact List.mem_append.mpr (Or.inr (List.mem_cons_of_mem _ h))
        exact ⟨y, hymem', hyid, by rw [hyrem]; exact hx2rem,
          by rw [hyproc]; exact hx2arr⟩
      have hddmem : dd ∈ m₁ ++ dd :: m₂ :=
        List.mem_append.mpr (Or.inr (List.mem_cons_self _ _))
      have hddid : dd.process.id = current := by rw [hdd_proc]; exact hd0id
      have hddarr : dd.process.arrival_time ≤ s.current_time := by
        rw [hdd_proc]; exact hd0arr
      have hddrem : 0 < dd.remaining := by rw [hdd_rem]; exact hd0rem
      have hexec_pos : 0 < qMin dd.deficit_counter dd.remaining := by
        rw [qMin_eq]
        refine lt_min ?_ hddrem
        rw [hdd_q, qAdd_eq]
        have h0 := hqsA d0 hd0mem
        have h1 : (0 : Rat) < ((bq : Int) : Rat) := by exact_mod_cast hbq
        linarith
      have hexec_le : qMin dd.deficit_counter dd.remaining ≤ dd.remaining := by
        rw [qMin_eq]; exact min_le_right _ _
      have hrun : (0 : Rat) ≤ qSub dd.deficit_counter
          (qMin dd.deficit_counter dd.remaining) := by
        rw [qSub_eq, qMin_eq]
        have h0 := min_le_left dd.deficit_counter dd.remaining
        linarith
      have hpost : ∀ (x2 : RRProc) (b : Int), (some bq : Option Int) = some b →
          (0 : Rat) ≤ ((b : Int) : Rat) := by
        intro x2 b hb
        cases Option.some.inj hb
        exact hbq'
      have hbody' : rrDispatch cost
          { s with
            processes := updRR current (fun _ => dd)
              ((drrAdmit bq s.processes s.current_time s.ready_queue none).1),
            ready_queue := current :: restq }
          current restq dd (qMin dd.deficit_counter dd.remaining) (some bq) =
          .next s' := hbody
      rw [hupd2] at hbody'
      exact rrDispatch_inv cost P (fun z => 0 ≤ z.deficit_counter)
        { s with processes := m₁ ++ dd :: m₂, ready_queue := current :: restq }
        current restq dd (qMin dd.deficit_counter dd.remaining) (some bq) s'
        hInv.sched hmapB hworkB hremB hrespB hqsB hInv.results_ok hnd
        hddmem hddid hddarr hddrem hrest2 hqnd.2 hqnd.1 hexec_pos hexec_le
        (fun rt' => hrun) hpost (fun x2 h => le_refl (0 : Rat)) hbody'

theorem rr_deficit_body_no_stop (cost : Rat) (bq : Int) (s s' : RRState) :
    rr_deficit_body cost bq s ≠ .stop s' := by
  simp only [rr_deficit_body]
  intro h
  split at h
  · cases hna : rrNextArrival { s with processes :=
        (drrAdmit bq s.processes s.current_time s.ready_queue none).1 } with
    | none => rw [hna] at h; exact BodyStep.noConfusion h
    | some na => rw [hna] at h; exact BodyStep.noConfusion h
  · rename_i current restq _
    cases hfind : ((drrAdmit bq s.processes s.current_time s.ready_queue none).1).find?
        (fun d => d.process.id = current) with
    | none => rw [hfind] at h; exact BodyStep.noConfusion h
    | some d0 =>
      rw [hfind] at h
      exact rrDispatch_no_stop _ _ _ _ _ _ _ s' h

/-- `_deficit_round_robin` produces a `GoodRun` on valid workloads with
a valid quantum. -/
theorem deficit_round_robin_good (fuel : Nat) (request : SchedulingRequest)
    (r : SchedulingResult) (hv : ValidWorkload request.processes)
    (hq : ValidQuantum request.time_quantum)
    (h : deficit_round_robin fuel request = .ok r) :
    GoodRun request.context_switch_cost request.processes ResultOk r := by
  obtain ⟨hnd, hpb⟩ := hv
  have hbq' : (0 : Rat) ≤ ((pyOrInt request.time_quantum 2 : Int) : Rat) := by
    have : (0 : Int) < pyOrInt request.time_quantum 2 := hq
    exact_mod_cast le_of_lt this
  simp only [deficit_round_robin] at h
  split at h
  · exact Except.noConfusion h
  · rename_i earliest hmin
    exact runLoop_inv rrCond
      (rr_deficit_body request.context_switch_cost (pyOrInt request.time_quantum 2))
      (rrFinish request.context_switch_cost "Round Robin (Deficit)")
      (RRInv request.context_switch_cost request.processes
        (fun x => 0 ≤ x.deficit_counter)) _
      (fun s s' hc hInv hb =>
        rr_deficit_body_inv _ _ _ hnd hq s s' hInv hb)
      (fun s s' hc hInv hb =>
        absurd hb (rr_deficit_body_no_stop _ _ s s'))
      (fun s hc hInv =>
        rrFinish_good _ _ _ _ s hInv (rrExit_work _ _ _ s hInv hc))
      fuel _ r
      (RRInv_init request.context_switch_cost request.processes
        (fun x => 0 ≤ x.deficit_counter)
        (fun p => { process := p, remaining := p.burst_time, response_time := none,
                    deficit_counter :=
                      if p.arrival_time = earliest
                      then ((pyOrInt request.time_quantum 2 : Int) : Rat) else 0 })
        earliest (fun p => rfl) (fun p => rfl) (fun p => rfl)
        (fun p hp => by
          show (0 : Rat) ≤ if p.arrival_time = earliest
            then ((pyOrInt request.time_quantum 2 : Int) : Rat) else 0
          split
          · exact hbq'
          · exact le_refl 0)
        hnd (fun p hp => (hpb p hp).1)) h

/-! ## MLFQ loop invariant. -/

theorem decMap_proj {α β : Type} (f : α → α) (p : α → Prop) [DecidablePred p]
    (proj : α → β) (l : List α) (h : ∀ x, proj (f x) = proj x) :
    (l.map (fun x => if p x then f x else x)).map proj = l.map proj := by
  rw [List.map_map]
  refine List.map_congr_left ?_
  intro x _
  show proj (if p x then f x else x) = proj x
  by_cases hp : p x
  · rw [if_pos hp, h]
  · rw [if_neg hp]

theorem decMap_sumBy (f : MlfqProc → MlfqProc) (p : MlfqProc → Prop) [DecidablePred p]
    (g : MlfqProc → Rat) (l : List MlfqProc) (h : ∀ x, g (f x) = g x) :
    sumBy g (l.map (fun x => if p x then f x else x)) = sumBy g l := by
  rw [sumBy_eq_sum, sumBy_eq_sum, decMap_proj f p g l h]

theorem decMap_forall {α : Type} (f : α → α) (p : α → Prop) [DecidablePred p]
    (Q : α → Prop) (l : List α) (hl : ∀ x ∈ l, Q x) (hf : ∀ x ∈ l, Q x → Q (f x)) :
    ∀ y ∈ l.map (fun x => if p x then f x else x), Q y := by
  intro y hy
  obtain ⟨x, hx, rfl⟩ := List.mem_map.mp hy
  by_cases hp : p x
  · rw [if_pos hp]; exact hf x hx (hl x hx)
  · rw [if_neg hp]; exact hl x hx

theorem decMap_track {α β : Type} (f : α → α) (p : α → Prop) [DecidablePred p]
    (proj : α → β) (hf : ∀ z, proj (f z) = proj z) (l : List α) (x : α) (hx : x ∈ l) :
    ∃ y ∈ l.map (fun z => if p z then f z else z), proj y = proj x := by
  refine ⟨if p x then f x else x, List.mem_map.mpr ⟨x, hx, rfl⟩, ?_⟩
  by_cases hp : p x
  · rw [if_pos hp]; exact hf x
  · rw [if_neg hp]

theorem decMap_rev {α β : Type} (f : α → α) (p : α → Prop) [DecidablePred p]
    (proj : α → β) (hf : ∀ z, proj (f z) = proj z) (l : List α) (y : α)
    (hy : y ∈ l.map (fun z => if p z then f z else z)) :
    ∃ x ∈ l, proj y = proj x := by
  obtain ⟨x, hx, rfl⟩ := List.mem_map.mp hy
  refine ⟨x, hx, ?_⟩
  by_cases hp : p x
  · rw [if_pos hp]; exact hf x
  · rw [if_neg hp]

theorem foldl_preserve_mem {α β : Type} (step : α → β → α) (Inv : α → Prop) :
    ∀ (l : List β), (∀ a b, b ∈ l → Inv a → Inv (step a b)) →
      ∀ a, Inv a → Inv (l.foldl step a) := by
  intro l
  induction l with
  | nil => intro _ a h; exact h
  | cons x xs ih =>
    intro hstep a h
    rw [List.foldl_cons]
    exact ih (fun a2 b hb h2 => hstep a2 b (List.mem_cons_of_mem _ hb) h2) _
      (hstep a x (List.mem_cons_self _ _) h)

theorem list_set_ne_nil {α : Type} (l : List α) (n : Nat) (a : α) (h : l ≠ []) :
    l.set n a ≠ [] := by
  intro he
  apply h
  have hlen := congrArg List.length he
  rw [List.length_set] at hlen
  exact List.length_eq_zero.mp hlen

theorem getD_oob {α : Type} (l : List α) (n : Nat) (d : α) (h : l.length ≤ n) :
    l.getD n d = d := by
  rw [List.getD_eq_getElem?_getD, List.getElem?_eq_none h]
  rfl

theorem getD_set_ne {α : Type} (l : List α) (i j : Nat) (a d : α) (h : i ≠ j) :
    (l.set i a).getD j d = l.getD j d := by
  rw [List.getD_eq_getElem?_getD, List.getD_eq_getElem?_getD, List.getElem?_set_ne h]

theorem getD_set_self {α : Type} (l : List α) (i : Nat) (a d : α) (h : i < l.length) :
    (l.set i a).getD i d = a := by
  rw [List.getD_eq_getElem?_getD, List.getElem?_set_self h]
  rfl

theorem inAnyQueue_iff (queues : List (List Int)) (pid : Int) :
    inAnyQueue queues pid = true ↔
      ∃ j, j < queues.length ∧ pid ∈ queues.getD j [] := by
  rw [inAnyQueue, List.any_eq_true]
  constructor
  · rintro ⟨q, hq, hpid⟩
    obtain ⟨j, hj, hget⟩ := List.mem_iff_getElem.mp hq
    refine ⟨j, hj, ?_⟩
    rw [List.getD_eq_getElem queues [] hj, hget]
    exact of_decide_eq_true hpid
  · rintro ⟨j, hj, hmem⟩
    refine ⟨queues.getD j [], ?_, decide_eq_true hmem⟩
    rw [List.getD_eq_getElem queues [] hj]
    exact List.getElem_mem hj

theorem inAnyQueue_of_mem_getD (queues : List (List Int)) (j : Nat) (pid : Int)
    (h : pid ∈ queues.getD j []) : inAnyQueue queues pid = true := by
  rw [inAnyQueue_iff]
  by_cases hj : j < queues.length
  · exact ⟨j, hj, h⟩
  · rw [getD_oob queues j [] (le_of_not_lt hj)] at h
    exact absurd h (List.not_mem_nil pid)

/-- Unfolding equations of the MLFQ arrival scan. -/
theorem mlfqAdmit_fst (procs : List MlfqProc) (queues : List (List Int)) (t : Rat)
    (excl : Option Int) : (mlfqAdmit procs queues t excl).1 = procs.map (fun d =>
      if (qLeB d.process.arrival_time t && qLtB 0 d.remaining &&
          !inAnyQueue queues d.process.id && decide (some d.process.id ≠ excl)) = true then
        { d with queue_level := 0, wait_start_time := t }
      else d) := rfl

theorem mlfqAdmit_snd (procs : List MlfqProc) (queues : List (List Int)) (t : Rat)
    (excl : Option Int) : (mlfqAdmit procs queues t excl).2 =
      queues.set 0 (queues.getD 0 [] ++
        ((procs.filter (fun d => qLeB d.process.arrival_time t && qLtB 0 d.remaining &&
            !inAnyQueue queues d.process.id && decide (some d.process.id ≠ excl))).map
          (fun d => d.process.id))) := rfl

/-- Unfolding equations of the priority boost. -/
theorem boost_fst (q0 : List Int) (rest : List (List Int)) (procs : List MlfqProc)
    (t : Rat) : (priority_boost_corrected (q0 :: rest) procs t).1 =
      (q0 ++ rest.flatten) :: rest.map (fun _ => []) := rfl

theorem boost_snd (q0 : List Int) (rest : List (List Int)) (procs : List MlfqProc)
    (t : Rat) : (priority_boost_corrected (q0 :: rest) procs t).2 =
      procs.map (fun d => if d.process.id ∈ rest.flatten then
        { d with queue_level := 0, wait_start_time := t } else d) := rfl

/-- Unfolding equations of one aging index step. -/
theorem mlfqAgingAt_fst (t : Rat) (thr : Int) (acc : List (List Int) × List MlfqProc)
    (i : Nat) : (mlfqAgingAt t thr acc i).1 =
      (acc.1.set i ((acc.1.getD i []).filter (fun pid => !mlfqIsOld t thr acc.2 pid))).set
        (i - 1) (acc.1.getD (i - 1) [] ++
          (acc.1.getD i []).filter (mlfqIsOld t thr acc.2)) := rfl

theorem mlfqAgingAt_snd (t : Rat) (thr : Int) (acc : List (List Int) × List MlfqProc)
    (i : Nat) : (mlfqAgingAt t thr acc i).2 = acc.2.map (fun d =>
      if d.process.id ∈ (acc.1.getD i []).filter (mlfqIsOld t thr acc.2) then
        { d with queue_level := Nat.max 0 (i - 1), wait_start_time := t }
      else d) := rfl

/-- The stage invariant survives any conditional record update that
preserves the process, the remaining time and the recorded response,
provided the new queue contents trace back to old queue members or to
arrived records. -/
theorem mCore_condMap (P : List Process) (W t : Rat) (procs : List MlfqProc)
    (queues queues' : List (List Int)) (f : MlfqProc → MlfqProc) (p : MlfqProc → Prop)
    [DecidablePred p]
    (hf : ∀ z, (f z).process = z.process ∧ (f z).remaining = z.remaining ∧
      (f z).response_time = z.response_time)
    (hq : ∀ pid, inAnyQueue queues' pid = true → inAnyQueue queues pid = true ∨
      ∃ d ∈ procs, d.process.id = pid ∧ d.process.arrival_time ≤ t)
    (hne : queues' ≠ [])
    (hc : MCore P W t procs queues) :
    MCore P W t (procs.map (fun z => if p z then f z else z)) queues' := by
  refine ⟨?_, ?_, ?_, ?_, ?_, hne⟩
  · rw [decMap_proj f p _ procs (fun z => (hf z).1)]
    exact hc.procs_map
  · rw [decMap_sumBy f p _ procs (fun z => (hf z).2.1)]
    exact hc.rem_sum
  · refine decMap_forall f p _ procs hc.rem_nonneg ?_
    intro z hz h
    show 0 ≤ (f z).remaining
    rw [(hf z).2.1]
    exact h
  · refine decMap_forall f p _ procs hc.resp ?_
    intro z hz h
    show RespInv t (f z).process.arrival_time (f z).process.burst_time (f z).remaining
      (f z).response_time
    rw [(hf z).1, (hf z).2.1, (hf z).2.2]
    exact h
  · intro pid hpid
    have hrec : ∃ d ∈ procs, d.process.id = pid ∧ d.process.arrival_time ≤ t := by
      rcases hq pid hpid with h | h
      · exact hc.queued_mem pid h
      · exact h
    obtain ⟨x, hx, hid, harr⟩ := hrec
    obtain ⟨y, hy, hyp⟩ := decMap_track f p (fun z => z.process)
      (fun z => (hf z).1) procs x hx
    exact ⟨y, hy, by rw [hyp]; exact hid, by rw [hyp]; exact harr⟩

theorem mlfqAdmit_core (P : List Process) (W t : Rat) (procs : List MlfqProc)
    (queues : List (List Int)) (excl : Option Int)
    (hc : MCore P W t procs queues) :
    MCore P W t (mlfqAdmit procs queues t excl).1 (mlfqAdmit procs queues t excl).2 := by
  rw [mlfqAdmit_fst, mlfqAdmit_snd]
  refine mCore_condMap P W t procs queues _ _ _ (fun z => ⟨rfl, rfl, rfl⟩) ?_
    (list_set_ne_nil _ _ _ hc.qne) hc
  intro pid hpid
  rw [inAnyQueue_iff] at hpid
  obtain ⟨j, hj, hmem⟩ := hpid
  rw [List.length_set] at hj
  by_cases hj0 : (0 : Nat) = j
  · subst hj0
    rw [getD_set_self _ _ _ _ hj] at hmem
    rcases List.mem_append.mp hmem with h | h
    · exact Or.inl (inAnyQueue_of_mem_getD queues 0 pid h)
    · obtain ⟨x, hx, rfl⟩ := List.mem_map.mp h
      obtain ⟨hmem2, hel⟩ := List.mem_filter.mp hx
      rw [Bool.and_eq_true, Bool.and_eq_true, Bool.and_eq_true] at hel
      exact Or.inr ⟨x, hmem2, rfl, (qLeB_iff _ _).mp hel.1.1.1⟩
  · rw [getD_set_ne _ _ _ _ _ hj0] at hmem
    exact Or.inl (inAnyQueue_of_mem_getD queues j pid hmem)

theorem mlfqAdmit_keep (procs : List MlfqProc) (queues : List (List Int)) (t : Rat)
    (excl : Option Int) (pid : Int) (h : inAnyQueue queues pid = true) :
    inAnyQueue (mlfqAdmit procs queues t excl).2 pid = true := by
  rw [mlfqAdmit_snd]
  rw [inAnyQueue_iff] at h ⊢
  obtain ⟨j, hj, hmem⟩ := h
  by_cases hj0 : (0 : Nat) = j
  · subst hj0
    refine ⟨0, ?_, ?_⟩
    · rw [List.length_set]; exact hj
    · rw [getD_set_self _ _ _ _ hj]
      exact List.mem_append.mpr (Or.inl hmem)
  · refine ⟨j, ?_, ?_⟩
    · rw [List.length_set]; exact hj
    · rw [getD_set_ne _ _ _ _ _ hj0]; exact hmem

/-- An arrived, unfinished, unqueued process is queued by the arrival
scan; a queued one stays queued — so after the scan it is queued. -/
theorem mlfqAdmit_ensures (procs : List MlfqProc) (queues : List (List Int)) (t : Rat)
    (d : MlfqProc) (hd : d ∈ procs) (hq : queues ≠ [])
    (harr : d.process.arrival_time ≤ t) (hrem : 0 < d.remaining) :
    inAnyQueue (mlfqAdmit procs queues t none).2 d.process.id = true := by
  by_cases hin : inAnyQueue queues d.process.id = true
  · exact mlfqAdmit_keep procs queues t none _ hin
  · rw [mlfqAdmit_snd, inAnyQueue_iff]
    refine ⟨0, ?_, ?_⟩
    · rw [List.length_set]; exact List.length_pos.mpr hq
    · rw [getD_set_self _ _ _ _ (List.length_pos.mpr hq)]
      refine List.mem_append.mpr (Or.inr ?_)
      refine List.mem_map.mpr ⟨d, ?_, rfl⟩
      refine List.mem_filter.mpr ⟨hd, ?_⟩
      have hfalse : inAnyQueue queues d.process.id = false := Bool.eq_false_iff.mpr hin
      rw [Bool.and_eq_true, Bool.and_eq_true, Bool.and_eq_true]
      refine ⟨⟨⟨(qLeB_iff _ _).mpr harr, (qLtB_iff _ _).mpr hrem⟩, ?_⟩, ?_⟩
      · rw [hfalse]; rfl
      · exact decide_eq_true (by simp)

theorem boost_core (P : List Process) (W t : Rat) (procs : List MlfqProc)
    (queues : List (List Int)) (hc : MCore P W t procs queues) :
    MCore P W t (priority_boost_corrected queues procs t).2
      (priority_boost_corrected queues procs t).1 := by
  cases hq : queues with
  | nil => exact absurd hq hc.qne
  | cons q0 rest =>
    rw [hq] at hc
    rw [boost_fst, boost_snd]
    refine mCore_condMap P W t procs (q0 :: rest) _ _ _ (fun z => ⟨rfl, rfl, rfl⟩) ?_
      (List.cons_ne_nil _ _) hc
    intro pid hpid
    left
    rw [inAnyQueue, List.any_eq_true] at hpid ⊢
    obtain ⟨q, hq2, hpq⟩ := hpid
    have hpid2 := of_decide_eq_true hpq
    rcases List.mem_cons.mp hq2 with rfl | hq2
    · rcases List.mem_append.mp hpid2 with h | h
      · exact ⟨q0, List.mem_cons_self _ _, decide_eq_true h⟩
      · obtain ⟨q2, hq3, hpid3⟩ := List.mem_flatten.mp h
        exact ⟨q2, List.mem_cons_of_mem _ hq3, decide_eq_true hpid3⟩
    · obtain ⟨q3, hq3, rfl⟩ := List.mem_map.mp hq2
      exact absurd hpid2 (List.not_mem_nil pid)

theorem boost_keep (queues : List (List Int)) (procs : List MlfqProc) (t : Rat)
    (pid : Int) (hq : queues ≠ []) (h : inAnyQueue queues pid = true) :
    inAnyQueue (priority_boost_corrected queues procs t).1 pid = true := by
  cases hqe : queues with
  | nil => exact absurd hqe hq
  | cons q0 rest =>
    rw [hqe] at h
    rw [boost_fst]
    rw [inAnyQueue, List.any_eq_true] at h ⊢
    obtain ⟨q, hq2, hpq⟩ := h
    have hp := of_decide_eq_true hpq
    refine ⟨q0 ++ rest.flatten, List.mem_cons_self _ _, decide_eq_true ?_⟩
    rcases List.mem_cons.mp hq2 with rfl | hq2
    · exact List.mem_append.mpr (Or.inl hp)
    · exact List.mem_append.mpr (Or.inr (List.mem_flatten.mpr ⟨q, hq2, hp⟩))

theorem boost_rev (queues : List (List Int)) (procs : List MlfqProc) (t : Rat)
    (y : MlfqProc) (hy : y ∈ (priority_boost_corrected queues procs t).2) :
    ∃ x ∈ procs, y.process = x.process ∧ y.remaining = x.remaining := by
  cases queues with
  | nil => exact ⟨y, hy, rfl, rfl⟩
  | cons q0 rest =>
    rw [boost_snd] at hy
    obtain ⟨x, hx, rfl⟩ := List.mem_map.mp hy
    by_cases hp : x.process.id ∈ rest.flatten
    · rw [if_pos hp]
      exact ⟨x, hx, rfl, rfl⟩
    · rw [if_neg hp]
      exact ⟨x, hx, rfl, rfl⟩

theorem mlfqAgingAt_core (P : List Process) (W t : Rat) (thr : Int)
    (acc : List (List Int) × List MlfqProc) (i : Nat)
    (hc : MCore P W t acc.2 acc.1) :
    MCore P W t (mlfqAgingAt t thr acc i).2 (mlfqAgingAt t thr acc i).1 := by
  rw [mlfqAgingAt_fst, mlfqAgingAt_snd]
  refine mCore_condMap P W t acc.2 acc.1 _ _ _ (fun z => ⟨rfl, rfl, rfl⟩) ?_
    (list_set_ne_nil _ _ _ (list_set_ne_nil _ _ _ hc.qne)) hc
  intro pid hpid
  left
  rw [inAnyQueue_iff] at hpid
  obtain ⟨j, hj, hmem⟩ := hpid
  rw [List.length_set, List.length_set] at hj
  by_cases hji : i - 1 = j
  · subst hji
    rw [getD_set_self _ _ _ _ (by rw [List.length_set]; exact hj)] at hmem
    rcases List.mem_append.mp hmem with h | h
    · exact inAnyQueue_of_mem_getD acc.1 (i - 1) pid h
    · exact inAnyQueue_of_mem_getD acc.1 i pid (List.mem_of_mem_filter h)
  · rw [getD_set_ne _ _ _ _ _ hji] at hmem
    by_cases hji2 : i = j
    · subst hji2
      rw [getD_set_self _ _ _ _ hj] at hmem
      exact inAnyQueue_of_mem_getD acc.1 i pid (List.mem_of_mem_filter hmem)
    · rw [getD_set_ne _ _ _ _ _ hji2] at hmem
      exact inAnyQueue_of_mem_getD acc.1 j pid hmem

theorem mlfqAgingAt_keep (t : Rat) (thr : Int) (acc : List (List Int) × List MlfqProc)
    (i : Nat) (hi : 1 ≤ i) (pid : Int) (h : inAnyQueue acc.1 pid = true) :
    inAnyQueue (mlfqAgingAt t thr acc i).1 pid = true := by
  rw [mlfqAgingAt_fst]
  rw [inAnyQueue_iff] at h
  obtain ⟨j, hj, hmem⟩ := h
  rw [inAnyQueue_iff]
  by_cases hji : j = i
  · subst hji
    by_cases hiold : mlfqIsOld t thr acc.2 pid = true
    · refine ⟨j - 1, ?_, ?_⟩
      · rw [List.length_set, List.length_set]; omega
      · rw [getD_set_self _ _ _ _ (by rw [List.length_set]; omega)]
        exact List.mem_append.mpr (Or.inr (List.mem_filter.mpr ⟨hmem, hiold⟩))
    · refine ⟨j, ?_, ?_⟩
      · rw [List.length_set, List.length_set]; exact hj
      · rw [getD_set_ne _ _ _ _ _ (by omega), getD_set_self _ _ _ _ hj]
        refine List.mem_filter.mpr ⟨hmem, ?_⟩
        rw [Bool.not_eq_true']
        exact Bool.eq_false_iff.mpr hiold
  · by_cases hji2 : j = i - 1
    · subst hji2
      refine ⟨i - 1, ?_, ?_⟩
      · rw [List.length_set, List.length_set]; exact hj
      · rw [getD_set_self _ _ _ _ (by rw [List.length_set]; exact hj)]
        exact List.mem_append.mpr (Or.inl hmem)
    · refine ⟨j, ?_, ?_⟩
      · rw [List.length_set, List.length_set]; exact hj
      · rw [getD_set_ne _ _ _ _ _ (fun hh => hji2 hh.symm),
          getD_set_ne _ _ _ _ _ (fun hh => hji hh.symm)]
        exact hmem

theorem foldl_aging_rev (t : Rat) (thr : Int) :
    ∀ (l : List Nat) (acc : List (List Int) × List MlfqProc) (y : MlfqProc),
      y ∈ (l.foldl (mlfqAgingAt t thr) acc).2 →
      ∃ x ∈ acc.2, y.process = x.process ∧ y.remaining = x.remaining := by
  intro l
  induction l with
  | nil => intro acc y hy; exact ⟨y, hy, rfl, rfl⟩
  | cons i xs ih =>
    intro acc y hy
    rw [List.foldl_cons] at hy
    obtain ⟨m, hm, h1, h2⟩ := ih (mlfqAgingAt t thr acc i) y hy
    rw [mlfqAgingAt_snd] at hm
    obtain ⟨x, hx, rfl⟩ := List.mem_map.mp hm
    by_cases hp : x.process.id ∈ (acc.1.getD i []).filter (mlfqIsOld t thr acc.2)
    · rw [if_pos hp] at h1 h2
      exact ⟨x, hx, h1, h2⟩
    · rw [if_neg hp] at h1 h2
      exact ⟨x, hx, h1, h2⟩

theorem apply_aging_core (P : List Process) (W t : Rat) (thr : Int)
    (queues : List (List Int)) (procs : List MlfqProc)
    (hc : MCore P W t procs queues) :
    MCore P W t (apply_aging_corrected queues procs t thr).2
      (apply_aging_corrected queues procs t thr).1 := by
  rw [apply_aging_corrected]
  split
  · exact hc
  · exact foldl_preserve_mem (mlfqAgingAt t thr)
      (fun acc => MCore P W t acc.2 acc.1) (List.range' 1 (queues.length - 1))
      (fun acc i hi h => mlfqAgingAt_core P W t thr acc i h) (queues, procs) hc

theorem apply_aging_keep (t : Rat) (thr : Int) (queues : List (List Int))
    (procs : List MlfqProc) (pid : Int) (h : inAnyQueue queues pid = true) :
    inAnyQueue (apply_aging_corrected queues procs t thr).1 pid = true := by
  rw [apply_aging_corrected]
  split
  · exact h
  · exact foldl_preserve_mem (mlfqAgingAt t thr)
      (fun acc => inAnyQueue acc.1 pid = true) (List.range' 1 (queues.length - 1))
      (fun acc i hi h2 => mlfqAgingAt_keep t thr acc i
        ((List.mem_range'_1.mp hi).1) pid h2) (queues, procs) h

theorem apply_aging_rev (t : Rat) (thr : Int) (queues : List (List Int))
    (procs : List MlfqProc) (y : MlfqProc)
    (hy : y ∈ (apply_aging_corrected queues procs t thr).2) :
    ∃ x ∈ procs, y.process = x.process ∧ y.remaining = x.remaining := by
  rw [apply_aging_corrected] at hy
  split at hy
  · exact ⟨y, hy, rfl, rfl⟩
  · exact foldl_aging_rev t thr _ (queues, procs) y hy

theorem mlfqStage_core (P : List Process) (W : Rat) (config : MLFQConfig)
    (st : MlfqState) (hc : MCore P W st.current_time st.processes st.queues) :
    MCore P W st.current_time (mlfqStage config st).processes
      (mlfqStage config st).queues := by
  have h1 := mlfqAdmit_core P W st.current_time st.processes st.queues none hc
  simp only [mlfqStage]
  split <;> split <;>
    first
      | exact apply_aging_core P W st.current_time config.aging_threshold _ _
          (boost_core P W st.current_time _ _ h1)
      | exact boost_core P W st.current_time _ _ h1
      | exact apply_aging_core P W st.current_time config.aging_threshold _ _ h1
      | exact h1

theorem mlfqStage_queued (config : MLFQConfig) (st : MlfqState) (d : MlfqProc)
    (hq : st.queues ≠ []) (hd : d ∈ st.processes) (hrem : 0 < d.remaining)
    (harr : d.process.arrival_time ≤ st.current_time) :
    inAnyQueue (mlfqStage config st).queues d.process.id = true := by
  have h1 := mlfqAdmit_ensures st.processes st.queues st.current_time d hd hq harr hrem
  have hne1 : (mlfqAdmit st.processes st.queues st.current_time none).2 ≠ [] := by
    rw [mlfqAdmit_snd]
    exact list_set_ne_nil _ _ _ hq
  simp only [mlfqStage]
  split <;> split <;>
    first
      | exact apply_aging_keep st.current_time config.aging_threshold _ _ _
          (boost_keep _ _ _ _ hne1 h1)
      | exact boost_keep _ _ _ _ hne1 h1
      | exact apply_aging_keep st.current_time config.aging_threshold _ _ _ h1
      | exact h1

theorem mlfqStage_track_rev (config : MLFQConfig) (st : MlfqState) (y : MlfqProc)
    (hy : y ∈ (mlfqStage config st).processes) :
    ∃ x ∈ st.processes, y.process = x.process ∧ y.remaining = x.remaining := by
  have hadm_rev : ∀ z, z ∈ (mlfqAdmit st.processes st.queues st.current_time none).1 →
      ∃ x ∈ st.processes, z.process = x.process ∧ z.remaining = x.remaining := by
    intro z hz
    rw [mlfqAdmit_fst] at hz
    obtain ⟨x, hx, rfl⟩ := List.mem_map.mp hz
    by_cases hp : (qLeB x.process.arrival_time st.current_time && qLtB 0 x.remaining &&
        !inAnyQueue st.queues x.process.id &&
        decide (some x.process.id ≠ (none : Option Int))) = true
    · rw [if_pos hp]; exact ⟨x, hx, rfl, rfl⟩
    · rw [if_neg hp]; exact ⟨x, hx, rfl, rfl⟩
  simp only [mlfqStage] at hy
  by_cases hb : (config.priority_boost && decide (0 < config.boost_interval) &&
      qLeB ((config.boost_interval : Int) : Rat) st.current_time &&
      qLeB ((config.boost_interval : Int) : Rat)
        (qSub st.current_time st.last_boost_time)) = true
  · rw [if_pos hb] at hy
    by_cases ha : (decide (0 < config.aging_threshold)) = true
    · rw [if_pos ha] at hy
      obtain ⟨m1, hm1, e1, e2⟩ := apply_aging_rev _ _ _ _ y hy
      obtain ⟨m2, hm2, e3, e4⟩ := boost_rev _ _ _ m1 hm1
      obtain ⟨m3, hm3, e5, e6⟩ := hadm_rev m2 hm2
      exact ⟨m3, hm3, e1.trans (e3.trans e5), e2.trans (e4.trans e6)⟩
    · rw [if_neg ha] at hy
      obtain ⟨m2, hm2, e3, e4⟩ := boost_rev _ _ _ y hy
      obtain ⟨m3, hm3, e5, e6⟩ := hadm_rev m2 hm2
      exact ⟨m3, hm3, e3.trans e5, e4.trans e6⟩
  · rw [if_neg hb] at hy
    by_cases ha : (decide (0 < config.aging_threshold)) = true
    · rw [if_pos ha] at hy
      obtain ⟨m1, hm1, e1, e2⟩ := apply_aging_rev _ _ _ _ y hy
      obtain ⟨m3, hm3, e5, e6⟩ := hadm_rev m1 hm1
      exact ⟨m3, hm3, e1.trans e5, e2.trans e6⟩
    · rw [if_neg ha] at hy
      exact hadm_rev y hy

theorem mlfqProcs_id_nodup (P : List Process) (l : List MlfqProc)
    (hmap : l.map (fun d => d.process) = P)
    (hnd : (P.map (fun p => p.id)).Nodup) :
    (l.map (fun d => d.process.id)).Nodup := by
  have h : l.map (fun d => d.process.id) = P.map (fun p => p.id) := by
    rw [← hmap, List.map_map]
    rfl
  rw [h]
  exact hnd

/-- The quantum looked up for any level is one of the configured quanta,
hence positive on a valid configuration. -/
theorem mlfqQuantum_pos (config : MLFQConfig) (hv : ValidMlfqConfig config)
    (level : Nat) (tq : Int) (h : mlfqQuantum config level = some tq) : 0 < tq := by
  obtain ⟨-, hne, hall⟩ := hv
  rw [mlfqQuantum] at h
  split at h
  · exact hall tq (List.get?_mem h)
  · have h' : tq ∈ config.time_quantums.getLast? := h
    obtain ⟨hne2, heq⟩ := List.mem_getLast?_eq_getLast h'
    rw [heq]
    exact hall _ (List.getLast_mem hne2)

theorem mlfqFinish_good (cost : Rat) (P : List Process) (config : MLFQConfig)
    (st : MlfqState) (hInv : MlfqInv cost P st)
    (hwork : sumExecDur st.schedule = sumBurst P) :
    GoodRun cost P ResultOk (mlfqFinish cost config st) := by
  refine ⟨hInv.sched.chain, hInv.sched.no_idle, hInv.sched.head_exec, ?_, ?_, hwork,
    hInv.results_ok⟩
  · show (calculate_metrics cost st.cs st.results st.current_time).context_switches =
      countCS st.schedule
    rw [calculate_metrics_cs]
    exact hInv.sched.cs_count.symm
  · intro hc
    show countCS st.schedule = 0
    rw [hInv.sched.cs_count]
    exact hInv.sched.cs_zero hc

theorem findIdx?_none_forall {α : Type} (p : α → Bool) :
    ∀ (l : List α) (i : Nat), List.findIdx? p l i = none → ∀ x ∈ l, p x = false := by
  intro l
  induction l with
  | nil => intro _ _ x hx; exact absurd hx (List.not_mem_nil x)
  | cons a as ih =>
    intro i h x hx
    rw [List.findIdx?_cons] at h
    split at h
    · exact absurd h (by simp)
    · rename_i hpa
      rcases List.mem_cons.mp hx with rfl | hx
      · exact Bool.eq_false_iff.mpr hpa
      · exact ih (i + 1) h x hx

theorem pyMinQ_none (l : List Rat) (h : pyMinQ l = none) : l = [] := by
  cases l with
  | nil => rfl
  | cons x xs => rw [pyMinQ_cons] at h; exact absurd h (by simp)

/-- The initial MLFQ state satisfies the loop invariant. -/
theorem MlfqInv_init (cost : Rat) (request : SchedulingRequest) (earliest : Rat)
    (n : Nat) (hn : 0 < n) (hb : ∀ p ∈ request.processes, 0 < p.burst_time) :
    MlfqInv cost request.processes
      { processes := request.processes.map (fun p =>
          { process := p, remaining := p.burst_time, queue_level := 0,
            response_time := none, last_execution_time := p.arrival_time,
            wait_start_time := if p.arrival_time = earliest then earliest
              else p.arrival_time, has_run := false }),
        queues := (List.replicate n ([] : List Int)).set 0
          (rrInitialReady request.processes earliest),
        schedule := [], results := [], current_time := earliest,
        last_process := none, cs := 0, last_boost_time := 0 } := by
  have hrep_ne : (List.replicate n ([] : List Int)) ≠ [] := by
    apply List.length_pos.mp
    rw [List.length_replicate]
    exact hn
  refine ⟨SchedInv_init cost earliest, ?_, ?_, ?_, ?_, ?_, ?_, ?_⟩
  · rw [List.map_map]
    exact List.map_id request.processes
  · show sumExecDur [] + sumBy (fun d : MlfqProc => d.remaining)
      (request.processes.map (fun p =>
        ({ process := p, remaining := p.burst_time, queue_level := 0,
           response_time := none, last_execution_time := p.arrival_time,
           wait_start_time := if p.arrival_time = earliest then earliest
             else p.arrival_time, has_run := false } : MlfqProc))) =
      sumBurst request.processes
    rw [sumExecDur, List.filter_nil, sumBy, List.foldr_nil, zero_add, sumBurst,
      sumBy_eq_sum, sumBy_eq_sum, List.map_map]
    rfl
  · intro d hd
    obtain ⟨p, hp, rfl⟩ := List.mem_map.mp hd
    exact le_of_lt (hb p hp)
  · exact list_set_ne_nil _ _ _ hrep_ne
  · intro pid hpid
    rw [inAnyQueue_iff] at hpid
    obtain ⟨j, hj, hmem⟩ := hpid
    rw [List.length_set, List.length_replicate] at hj
    by_cases hj0 : (0 : Nat) = j
    · subst hj0
      rw [getD_set_self _ _ _ _ (by rw [List.length_replicate]; exact hn)] at hmem
      obtain ⟨p, hp, hpid', hparr⟩ := rrInitialReady_prop request.processes earliest
        pid hmem
      refine ⟨_, List.mem_map.mpr ⟨p, hp, rfl⟩, hpid', le_of_eq hparr⟩
    · rw [getD_set_ne _ _ _ _ _ hj0,
        List.getD_eq_getElem (List.replicate n ([] : List Int)) []
          (by rw [List.length_replicate]; exact hj),
        List.getElem_replicate] at hmem
      exact absurd hmem (List.not_mem_nil pid)
  · intro d hd
    obtain ⟨p, hp, rfl⟩ := List.mem_map.mp hd
    exact ⟨fun _ => rfl, fun r hr => absurd hr (by simp)⟩
  · intro res hres
    exact absurd hres (List.not_mem_nil res)

theorem inAnyQueue_set_append (queues : List (List Int)) (k : Nat) (extra : List Int)
    (pid : Int) (h : inAnyQueue (queues.set k (queues.getD k [] ++ extra)) pid = true) :
    inAnyQueue queues pid = true ∨ pid ∈ extra := by
  rw [inAnyQueue_iff] at h
  obtain ⟨j, hj, hmem⟩ := h
  rw [List.length_set] at hj
  by_cases hkj : k = j
  · subst hkj
    rw [getD_set_self _ _ _ _ hj] at hmem
    rcases List.mem_append.mp hmem with h | h
    · exact Or.inl (inAnyQueue_of_mem_getD queues k pid h)
    · exact Or.inr h
  · rw [getD_set_ne _ _ _ _ _ hkj] at hmem
    exact Or.inl (inAnyQueue_of_mem_getD queues j pid hmem)

/-- The requeue/demotion step preserves the stage invariant: both of its
branches only change `queue_level`/`wait_start_time` of the dispatched
record and append that pid to one queue. -/
theorem mlfqRequeue_core (P : List Process) (W t : Rat) (config : MLFQConfig)
    (current : Int) (lvl : Nat) (tq : Int) (exec : Rat)
    (procs : List MlfqProc) (queues : List (List Int))
    (hc : MCore P W t procs queues)
    (hcur : ∃ x ∈ procs, x.process.id = current ∧ x.process.arrival_time ≤ t) :
    MCore P W t (mlfqRequeue config current lvl tq exec t procs queues).1
      (mlfqRequeue config current lvl tq exec t procs queues).2 := by
  rw [mlfqRequeue]
  split
  · have hq : ∀ pid, inAnyQueue (queues.set (lvl + 1)
        (queues.getD (lvl + 1) [] ++ [current])) pid = true →
        inAnyQueue queues pid = true ∨
        ∃ x ∈ procs, x.process.id = pid ∧ x.process.arrival_time ≤ t := by
      intro pid hpid
      rcases inAnyQueue_set_append queues (lvl + 1) [current] pid hpid with h | h
      · exact Or.inl h
      · rw [List.mem_singleton] at h
        subst h
        exact Or.inr hcur
    exact mCore_condMap P W t procs queues
      (queues.set (lvl + 1) (queues.getD (lvl + 1) [] ++ [current]))
      (fun x => { x with queue_level := lvl + 1, wait_start_time := t })
      (fun z => z.process.id = current) (fun z => ⟨rfl, rfl, rfl⟩) hq
      (list_set_ne_nil _ _ _ hc.qne) hc
  · have hq : ∀ pid, inAnyQueue (queues.set lvl
        (queues.getD lvl [] ++ [current])) pid = true →
        inAnyQueue queues pid = true ∨
        ∃ x ∈ procs, x.process.id = pid ∧ x.process.arrival_time ≤ t := by
      intro pid hpid
      rcases inAnyQueue_set_append queues lvl [current] pid hpid with h | h
      · exact Or.inl h
      · rw [List.mem_singleton] at h
        subst h
        exact Or.inr hcur
    exact mCore_condMap P W t procs queues
      (queues.set lvl (queues.getD lvl [] ++ [current]))
      (fun x => { x with wait_start_time := t })
      (fun z => z.process.id = current) (fun z => ⟨rfl, rfl, rfl⟩) hq
      (list_set_ne_nil _ _ _ hc.qne) hc

theorem mlfqDispatch_no_stop (cost : Rat) (config : MLFQConfig) (st : MlfqState)
    (lvl : Nat) (current : Int) (restq : List Int) (d : MlfqProc) (s' : MlfqState) :
    mlfqDispatch cost config st lvl current restq d ≠ .stop s' := by
  simp only [mlfqDispatch]
  intro h
  split at h
  · exact BodyStep.noConfusion h
  · split at h <;> exact BodyStep.noConfusion h

/-- The MLFQ dispatch tail preserves the loop invariant. -/
theorem mlfqDispatch_inv (cost : Rat) (config : MLFQConfig) (P : List Process)
    (st : MlfqState) (lvl : Nat) (current : Int) (restq : List Int) (d : MlfqProc)
    (s' : MlfqState) (hv : ValidMlfqConfig config)
    (hnd : (P.map (fun p => p.id)).Nodup)
    (hInv : MlfqInv cost P st)
    (hmem : d ∈ st.processes) (hid : d.process.id = current)
    (harr : d.process.arrival_time ≤ st.current_time)
    (hsub : ∀ pid ∈ restq, pid ∈ st.queues.getD lvl [])
    (hbody : mlfqDispatch cost config st lvl current restq d = .next s') :
    MlfqInv cost P s' := by
  have hrem0 : 0 ≤ d.remaining := hInv.rem_nonneg d hmem
  simp only [mlfqDispatch] at hbody
  set acs := guardedAcs cost st.schedule st.cs st.current_time st.last_process current
    with hacs
  obtain ⟨hsc2, ht2, hsum2⟩ := guardedAcs_inv cost st.schedule st.cs st.current_time
    st.last_process current hInv.sched
  rw [← hacs] at hsc2 ht2 hsum2
  have harr2 : d.process.arrival_time ≤ acs.2.2 := le_trans harr ht2
  set rt := if d.response_time = none then some (qSub acs.2.2 d.process.arrival_time)
    else d.response_time with hrt
  have hrt_ok : ∃ r, rt = some r ∧ 0 ≤ r ∧
      d.process.arrival_time + r + (d.process.burst_time - d.remaining) ≤ acs.2.2 := by
    rw [hrt]
    rcases hresp0 : d.response_time with _ | r0
    · rw [if_pos rfl]
      refine ⟨qSub acs.2.2 d.process.arrival_time, rfl, ?_, ?_⟩
      · rw [qSub_eq]; linarith
      · have hfull := (hInv.resp d hmem).1 hresp0
        rw [qSub_eq, hfull]
        ring_nf
        exact le_refl _
    · rw [if_neg (by simp)]
      obtain ⟨h0, h1⟩ := (hInv.resp d hmem).2 r0 hresp0
      exact ⟨r0, rfl, h0, le_trans h1 ht2⟩
  split at hbody
  case h_1 => exact BodyStep.noConfusion hbody
  case h_2 tq htq =>
    have htqp := mlfqQuantum_pos config hv lvl tq htq
    have htq0 : (0 : Rat) ≤ ((tq : Int) : Rat) := by exact_mod_cast le_of_lt htqp
    set exec := qMin ((tq : Int) : Rat) d.remaining with hexec
    have hexec0 : 0 ≤ exec := by
      rw [hexec, qMin_eq]
      exact le_min htq0 hrem0
    have hexec_le : exec ≤ d.remaining := by
      rw [hexec, qMin_eq]; exact min_le_right _ _
    obtain ⟨hsc3, hsum3⟩ := append_exec_inv cost acs.1 acs.2.1 acs.2.2 current exec
      (some (lvl : Int)) hsc2 hexec0
    have htt : st.current_time ≤ qAdd acs.2.2 exec := by
      rw [qAdd_eq]; linarith
    have htt2 : acs.2.2 ≤ qAdd acs.2.2 exec := by
      rw [qAdd_eq]; linarith
    -- stage 1: the record update of the dispatched process
    obtain ⟨l₁, l₂, hdec⟩ := List.append_of_mem hmem
    have hnd' : (st.processes.map (fun z => z.process.id)).Nodup :=
      mlfqProcs_id_nodup P st.processes hInv.procs_map hnd
    set u : MlfqProc → MlfqProc := fun x =>
      { x with remaining := qSub d.remaining exec, response_time := rt,
               last_execution_time := qAdd acs.2.2 exec, has_run := true } with hu
    have hud_proc : (u d).process = d.process := by rw [hu]
    have hud_rem : (u d).remaining = qSub d.remaining exec := by rw [hu]
    have hud_resp : (u d).response_time = rt := by rw [hu]
    have hupd : updMlfq current u st.processes = l₁ ++ u d :: l₂ := by
      rw [updMlfq, hdec]
      exact map_upd_decomp (fun z => z.process.id) current u l₁ l₂ d hid (hdec ▸ hnd')
    set procs1 := l₁ ++ u d :: l₂ with hprocs1
    have hmap1 : procs1.map (fun z => z.process) = P := by
      rw [hprocs1, ← hInv.procs_map, hdec, List.map_append, List.map_append,
        List.map_cons, List.map_cons, hud_proc]
    have hrem1 : ∀ z ∈ procs1, 0 ≤ z.remaining := by
      intro z hz
      rw [hprocs1] at hz
      rcases List.mem_append.mp hz with hz | hz
      · exact hInv.rem_nonneg z (hdec ▸ List.mem_append.mpr (Or.inl hz))
      · rcases List.mem_cons.mp hz with rfl | hz
        · rw [hud_rem, qSub_eq]; linarith
        · exact hInv.rem_nonneg z
            (hdec ▸ List.mem_append.mpr (Or.inr (List.mem_cons_of_mem d hz)))
    have hresp1 : ∀ z ∈ procs1,
        RespInv (qAdd acs.2.2 exec) z.process.arrival_time z.process.burst_time
          z.remaining z.response_time := by
      intro z hz
      rw [hprocs1] at hz
      rcases List.mem_append.mp hz with hz | hz
      · exact (hInv.resp z (hdec ▸ List.mem_append.mpr (Or.inl hz))).relax htt
      · rcases List.mem_cons.mp hz with rfl | hz
        · rw [hud_proc, hud_rem, hud_resp]
          obtain ⟨r, hr, hr0, hr1⟩ := hrt_ok
          refine ⟨fun hnone => ?_, fun r2 hr2 => ?_⟩
          · rw [hnone] at hr
            exact absurd hr (by simp)
          · rw [hr] at hr2
            have hrr : r = r2 := Option.some.inj hr2
            subst hrr
            refine ⟨hr0, ?_⟩
            rw [qSub_eq, qAdd_eq]
            linarith
        · exact (hInv.resp z
            (hdec ▸ List.mem_append.mpr (Or.inr (List.mem_cons_of_mem d hz)))).relax htt
    have hq1 : ∀ pid, inAnyQueue (st.queues.set lvl restq) pid = true →
        ∃ z ∈ procs1, z.process.id = pid ∧
          z.process.arrival_time ≤ qAdd acs.2.2 exec := by
      intro pid hpid
      have hold : ∃ x ∈ st.processes, x.process.id = pid ∧
          x.process.arrival_time ≤ st.current_time := by
        rw [inAnyQueue_iff] at hpid
        obtain ⟨j, hj, hmemj⟩ := hpid
        rw [List.length_set] at hj
        by_cases hlj : lvl = j
        · subst hlj
          rw [getD_set_self _ _ _ _ hj] at hmemj
          exact hInv.queued_mem pid
            (inAnyQueue_of_mem_getD st.queues lvl pid (hsub pid hmemj))
        · rw [getD_set_ne _ _ _ _ _ hlj] at hmemj
          exact hInv.queued_mem pid (inAnyQueue_of_mem_getD st.queues j pid hmemj)
      obtain ⟨x, hx, hxid, hxarr⟩ := hold
      have hxmem1 : ∃ z ∈ procs1, z.process = x.process := by
        rw [← hupd]
        exact decMap_track u (fun z => z.process.id = current)
          (fun z => z.process) (fun z => by rw [hu]) st.processes x hx
      obtain ⟨z, hz, hzp⟩ := hxmem1
      exact ⟨z, hz, by rw [hzp]; exact hxid, by rw [hzp]; exact le_trans hxarr htt⟩
    have hqne4 : (st.queues.set lvl restq) ≠ [] := list_set_ne_nil _ _ _ hInv.queues_ne
    have hc4 : MCore P (sumBy (fun z => z.remaining) procs1) (qAdd acs.2.2 exec)
        procs1 (st.queues.set lvl restq) :=
      ⟨hmap1, rfl, hrem1, hresp1, hq1, hqne4⟩
    have hc5 := mlfqAdmit_core P (sumBy (fun z => z.remaining) procs1)
      (qAdd acs.2.2 exec) procs1 (st.queues.set lvl restq) (some current) hc4
    have hcur5 : ∃ x ∈ (mlfqAdmit procs1 (st.queues.set lvl restq) (qAdd acs.2.2 exec)
        (some current)).1, x.process.id = current ∧
        x.process.arrival_time ≤ qAdd acs.2.2 exec := by
      have hud_mem : u d ∈ procs1 := by
        rw [hprocs1]
        exact List.mem_append.mpr (Or.inr (List.mem_cons_self _ _))
      rw [mlfqAdmit_fst]
      obtain ⟨y, hy, hyp⟩ := decMap_track
        (fun z => { z with queue_level := 0, wait_start_time := qAdd acs.2.2 exec })
        (fun z => (qLeB z.process.arrival_time (qAdd acs.2.2 exec) && qLtB 0 z.remaining
          && !inAnyQueue (st.queues.set lvl restq) z.process.id &&
          decide (some z.process.id ≠ some current)) = true)
        (fun z => z.process) (fun z => rfl) procs1 (u d) hud_mem
      refine ⟨y, hy, ?_, ?_⟩
      · rw [hyp, hud_proc]
        exact hid
      · rw [hyp, hud_proc]
        exact le_trans harr2 htt2
    have hwork5 : sumExecDur (acs.1 ++
        [{ process_id := current, start_time := acs.2.2,
           end_time := qAdd acs.2.2 exec, type := "execution",
           queue_level := some (lvl : Int) }]) +
        sumBy (fun z => z.remaining) procs1 = sumBurst P := by
      rw [hsum3, hsum2, ← hInv.work, hprocs1, hdec, sumBy_append, sumBy_append,
        sumBy_cons, sumBy_cons, hud_rem]
      rw [qSub_eq]
      ring
    rw [hupd] at hbody
    split at hbody
    case isTrue hpos =>
      cases BodyStep.next.inj hbody
      have hc6 := mlfqRequeue_core P (sumBy (fun z => z.remaining) procs1)
        (qAdd acs.2.2 exec) config current lvl tq exec
        (mlfqAdmit procs1 (st.queues.set lvl restq) (qAdd acs.2.2 exec)
          (some current)).1
        (mlfqAdmit procs1 (st.queues.set lvl restq) (qAdd acs.2.2 exec)
          (some current)).2 hc5 hcur5
      have hwork6 : sumExecDur (acs.1 ++
          [{ process_id := current, start_time := acs.2.2,
             end_time := qAdd acs.2.2 exec, type := "execution",
             queue_level := some (lvl : Int) }]) +
          sumBy (fun z => z.remaining)
            (mlfqRequeue config current lvl tq exec (qAdd acs.2.2 exec)
              (mlfqAdmit procs1 (st.queues.set lvl restq) (qAdd acs.2.2 exec)
                (some current)).1
              (mlfqAdmit procs1 (st.queues.set lvl restq) (qAdd acs.2.2 exec)
                (some current)).2).1 = sumBurst P := by
        rw [hc6.rem_sum]
        exact hwork5
      exact ⟨hsc3, hc6.procs_map, hwork6, hc6.rem_nonneg, hc6.qne, hc6.queued_mem,
        hc6.resp, hInv.results_ok⟩
    case isFalse hneg =>
      cases BodyStep.next.inj hbody
      have hrem_z : qSub d.remaining exec = 0 := by
        have hz : ¬ (0 < qSub d.remaining exec) :=
          fun hlt => hneg ((qLtB_iff _ _).mpr hlt)
        rw [qSub_eq] at hz ⊢
        push_neg at hz
        linarith
      have hwork6 : sumExecDur (acs.1 ++
          [{ process_id := current, start_time := acs.2.2,
             end_time := qAdd acs.2.2 exec, type := "execution",
             queue_level := some (lvl : Int) }]) +
          sumBy (fun z => z.remaining)
            (mlfqAdmit procs1 (st.queues.set lvl restq) (qAdd acs.2.2 exec)
              (some current)).1 = sumBurst P := by
        rw [hc5.rem_sum]
        exact hwork5
      refine ⟨hsc3, hc5.procs_map, hwork6, hc5.rem_nonneg, hc5.qne, hc5.queued_mem,
        hc5.resp, ?_⟩
      intro res hres
      rcases List.mem_append.mp hres with hres | hres
      · exact hInv.results_ok res hres
      · rcases List.mem_singleton.mp hres with rfl
        obtain ⟨r, hr, hr0, hr1⟩ := hrt_ok
        rw [qSub_eq] at hrem_z
        refine ⟨?_, ?_, ⟨r, hr, hr0, ?_⟩⟩
        · show 0 ≤ qSub (qSub (qAdd acs.2.2 exec) d.process.arrival_time)
            d.process.burst_time
          simp only [qSub_eq, qAdd_eq]
          linarith
        · show qSub (qAdd acs.2.2 exec) d.process.arrival_time =
            qSub (qSub (qAdd acs.2.2 exec) d.process.arrival_time)
              d.process.burst_time + d.process.burst_time
          simp only [qSub_eq, qAdd_eq]
          ring
        · show r ≤ qSub (qSub (qAdd acs.2.2 exec) d.process.arrival_time)
            d.process.burst_time
          simp only [qSub_eq, qAdd_eq]
          linarith

theorem mlfqExit_work (cost : Rat) (P : List Process) (st : MlfqState)
    (hInv : MlfqInv cost P st) (hc : mlfqCond st = false) :
    sumExecDur st.schedule = sumBurst P := by
  rw [mlfqCond, Bool.or_eq_false_iff] at hc
  obtain ⟨h1, h2⟩ := hc
  rw [List.any_eq_false] at h2
  have hall : ∀ d ∈ st.processes, d.remaining = 0 := by
    intro d hd
    have h3 := (qLtB_eq_false_iff 0 d.remaining).mp (Bool.not_eq_true _ ▸ h2 d hd)
    linarith [hInv.rem_nonneg d hd]
  have hw := hInv.work
  rw [sumBy_zero _ _ hall, add_zero] at hw
  exact hw

theorem mlfq_body_inv (cost : Rat) (config : MLFQConfig) (P : List Process)
    (hnd : (P.map (fun p => p.id)).Nodup) (hv : ValidMlfqConfig config)
    (s s' : MlfqState) (hInv : MlfqInv cost P s)
    (hbody : mlfq_body cost config s = .next s') : MlfqInv cost P s' := by
  have hstc : MCore P (sumBy (fun z => z.remaining) s.processes) s.current_time
      s.processes s.queues :=
    ⟨hInv.procs_map, rfl, hInv.rem_nonneg, hInv.resp, hInv.queued_mem, hInv.queues_ne⟩
  have hstage := mlfqStage_core P (sumBy (fun z => z.remaining) s.processes) config s
    hstc
  have hInv2 : MlfqInv cost P (mlfqStage config s) := by
    refine ⟨hInv.sched, hstage.procs_map, ?_, hstage.rem_nonneg, hstage.qne,
      hstage.queued_mem, hstage.resp, hInv.results_ok⟩
    show sumExecDur s.schedule + sumBy (fun z => z.remaining)
      (mlfqStage config s).processes = sumBurst P
    rw [hstage.rem_sum]
    exact hInv.work
  simp only [mlfq_body] at hbody
  split at hbody
  case h_1 hidx =>
    split at hbody
    case h_1 nt hpm =>
      cases BodyStep.next.inj hbody
      have hmem := pyMinQ_mem _ nt hpm
      obtain ⟨z, hz, hza⟩ := List.mem_map.mp hmem
      obtain ⟨hz2, hzf⟩ := List.mem_filter.mp hz
      rw [Bool.and_eq_true, qLtB_iff, qLtB_iff] at hzf
      have hgt : s.current_time < nt := by
        have h3 : (mlfqStage config s).current_time < z.process.arrival_time := hzf.2
        rw [hza] at h3
        exact h3
      refine ⟨hInv2.sched.mono (le_of_lt hgt), hInv2.procs_map, hInv2.work,
        hInv2.rem_nonneg, hInv2.queues_ne, ?_,
        fun z2 hz2b => (hInv2.resp z2 hz2b).relax (le_of_lt hgt), hInv2.results_ok⟩
      intro pid hp
      obtain ⟨x, hx, h1, h2⟩ := hInv2.queued_mem pid hp
      exact ⟨x, hx, h1, le_trans h2 (le_of_lt hgt)⟩
    case h_2 hpm => exact BodyStep.noConfusion hbody
  case h_2 lvl hlvl =>
    split at hbody
    case h_1 => exact BodyStep.noConfusion hbody
    case h_2 current restq hq5 =>
      split at hbody
      case h_1 => exact BodyStep.noConfusion hbody
      case h_2 d hfind =>
        have hdmem : d ∈ (mlfqStage config s).processes :=
          List.mem_of_find?_eq_some hfind
        have hpd := List.find?_some hfind
        have hdid : d.process.id = current := of_decide_eq_true hpd
        have hcurq : inAnyQueue (mlfqStage config s).queues current = true := by
          refine inAnyQueue_of_mem_getD _ lvl current ?_
          rw [hq5]
          exact List.mem_cons_self _ _
        obtain ⟨x, hx, hxid, hxarr⟩ := hInv2.queued_mem current hcurq
        have hndm : ((mlfqStage config s).processes.map
            (fun z => z.process.id)).Nodup :=
          mlfqProcs_id_nodup P _ hInv2.procs_map hnd
        have hxd : x = d := nodup_id_unique _ _ hndm x d hx hdmem (hxid.trans hdid.symm)
        rw [hxd] at hxarr
        refine mlfqDispatch_inv cost config P (mlfqStage config s) lvl current restq d
          s' hv hnd hInv2 hdmem hdid hxarr ?_ hbody
        intro pid hpid
        rw [hq5]
        exact List.mem_cons_of_mem _ hpid

theorem mlfq_body_stop (cost : Rat) (config : MLFQConfig) (P : List Process)
    (s s'' : MlfqState) (hInv : MlfqInv cost P s)
    (hbody : mlfq_body cost config s = .stop s'') :
    MlfqInv cost P s'' ∧ sumExecDur s''.schedule = sumBurst P := by
  have hstc : MCore P (sumBy (fun z => z.remaining) s.processes) s.current_time
      s.processes s.queues :=
    ⟨hInv.procs_map, rfl, hInv.rem_nonneg, hInv.resp, hInv.queued_mem, hInv.queues_ne⟩
  have hstage := mlfqStage_core P (sumBy (fun z => z.remaining) s.processes) config s
    hstc
  have hInv2 : MlfqInv cost P (mlfqStage config s) := by
    refine ⟨hInv.sched, hstage.procs_map, ?_, hstage.rem_nonneg, hstage.qne,
      hstage.queued_mem, hstage.resp, hInv.results_ok⟩
    show sumExecDur s.schedule + sumBy (fun z => z.remaining)
      (mlfqStage config s).processes = sumBurst P
    rw [hstage.rem_sum]
    exact hInv.work
  simp only [mlfq_body] at hbody
  split at hbody
  case h_1 hidx =>
    split at hbody
    case h_1 nt hpm => exact BodyStep.noConfusion hbody
    case h_2 hpm =>
      cases BodyStep.stop.inj hbody
      have hzero : ∀ y ∈ (mlfqStage config s).processes, y.remaining = 0 := by
        intro y hy
        by_contra hne
        have hypos : 0 < y.remaining :=
          lt_of_le_of_ne (hInv2.rem_nonneg y hy) (Ne.symm hne)
        by_cases harr : y.process.arrival_time ≤ s.current_time
        · obtain ⟨x, hx, hproc, hrem⟩ := mlfqStage_track_rev config s y hy
          have hq := mlfqStage_queued config s x hInv.queues_ne hx
            (by rw [← hrem]; exact hypos)
            (by show x.process.arrival_time ≤ s.current_time
                rw [← hproc]; exact harr)
          rw [inAnyQueue, List.any_eq_true] at hq
          obtain ⟨q, hqmem, hqpid⟩ := hq
          have hempty := findIdx?_none_forall (fun q => !q.isEmpty)
            (mlfqStage config s).queues 0 hidx q hqmem
          rw [Bool.not_eq_false'] at hempty
          have hqnil : q = [] := List.isEmpty_iff.mp hempty
          rw [hqnil] at hqpid
          exact absurd (of_decide_eq_true hqpid) (List.not_mem_nil _)
        · push_neg at harr
          have hmem2 : y.process.arrival_time ∈
              (((mlfqStage config s).processes.filter (fun z =>
                qLtB 0 z.remaining &&
                qLtB (mlfqStage config s).current_time z.process.arrival_time)).map
                (fun z => z.process.arrival_time)) := by
            refine List.mem_map.mpr ⟨y, List.mem_filter.mpr ⟨hy, ?_⟩, rfl⟩
            rw [Bool.and_eq_true]
            exact ⟨(qLtB_iff _ _).mpr hypos, (qLtB_iff _ _).mpr harr⟩
          rw [pyMinQ_none _ hpm] at hmem2
          exact absurd hmem2 (List.not_mem_nil _)
      refine ⟨hInv2, ?_⟩
      have hw := hInv2.work
      rw [sumBy_zero _ _ hzero, add_zero] at hw
      exact hw
  case h_2 lvl hlvl =>
    split at hbody
    case h_1 => exact BodyStep.noConfusion hbody
    case h_2 current restq hq5 =>
      split at hbody
      case h_1 => exact BodyStep.noConfusion hbody
      case h_2 d hfind =>
        exact absurd hbody (mlfqDispatch_no_stop _ _ _ _ _ _ _ s'')

/-- `mlfq` produces a `GoodRun` on valid workloads with a valid
configuration. -/
theorem mlfq_good (fuel : Nat) (request : SchedulingRequest) (r : SchedulingResult)
    (hv : ValidWorkload request.processes)
    (hm : ValidMlfqConfig (request.mlfq_config.getD {}))
    (h : mlfq fuel request = .ok r) :
    GoodRun request.context_switch_cost request.processes ResultOk r := by
  obtain ⟨hnd, hpb⟩ := hv
  have hnz : ¬ ((request.mlfq_config.getD {}).num_queues.toNat = 0) := by
    obtain ⟨h1, -, -⟩ := hm
    omega
  simp only [mlfq] at h
  split at h
  · exact Except.noConfusion h
  · rename_i earliest hmin
    rw [if_neg hnz] at h
    exact runLoop_inv mlfqCond
      (mlfq_body request.context_switch_cost (request.mlfq_config.getD {}))
      (mlfqFinish request.context_switch_cost (request.mlfq_config.getD {}))
      (MlfqInv request.context_switch_cost request.processes) _
      (fun s s' hc hInv hb =>
        mlfq_body_inv request.context_switch_cost (request.mlfq_config.getD {})
          request.processes hnd hm s s' hInv hb)
      (fun s s' hc hInv hb => by
        obtain ⟨hi, hw⟩ := mlfq_body_stop request.context_switch_cost
          (request.mlfq_config.getD {}) request.processes s s' hInv hb
        exact mlfqFinish_good _ _ _ s' hi hw)
      (fun s hc hInv =>
        mlfqFinish_good _ _ _ s hInv (mlfqExit_work _ _ s hInv hc))
      fuel _ r
      (MlfqInv_init request.context_switch_cost request earliest
        (request.mlfq_config.getD {}).num_queues.toNat (by omega)
        (fun p hp => (hpb p hp).1)) h

/-! ## C9: the CFS nice-to-weight conversion. -/

/-- C9: `calculate_weight` maps every nice value in −20..19 to the fixed
Linux nice-to-weight table (indexed by nice + 20), in particular
−20 → 88761, 0 → 1024 and 19 → 15. -/
theorem C9_nice_to_weight (n : Int) (h1 : -20 ≤ n) (h2 : n ≤ 19) :
    calculate_weight n = linux_nice_to_weight.getD (n + 20).toNat 0 ∧
    calculate_weight (-20) = 88761 ∧ calculate_weight 0 = 1024 ∧
    calculate_weight 19 = 15 := by
  refine ⟨?_, by decide, by decide, by decide⟩
  interval_cases n <;> decide

/-- Witness for C9 at nice = 5 (weight 335). -/
theorem C9_nice_to_weight_witness :
    calculate_weight 5 = linux_nice_to_weight.getD ((5 : Int) + 20).toNat 0 ∧
    calculate_weight 5 = 335 :=
  ⟨(C9_nice_to_weight 5 (by decide) (by decide)).1, by decide⟩

/-! ## C2: there is no input validation. -/

/-- C2 counterexample: an empty workload does not fail with any
`EmptyWorkload` validation error — FCFS returns a normal (empty) result,
and round robin dies with Python's `ValueError` from `min()` on an empty
sequence; moreover a process with negative burst and arrival is accepted
by FCFS, which emits a negative-length execution entry for it. -/
theorem C2_counterexample :
    fcfs emptyReq = ⟨[], [], ⟨0, 0, 0, 0, 0, 0, 0⟩, "FCFS"⟩ ∧
    standard_round_robin 100 emptyReq = .error .valueError ∧
    (fcfs invalidReq).schedule = [⟨1, 0, -1, "execution", none⟩] := by
  refine ⟨by decide, by decide, by decide⟩

/-- C2 amended: the engine performs no input validation at all.  On an
empty process list, FCFS/SJF/SRTF/priority return a normal result with
empty process and schedule lists and all-zero metrics; the round-robin
variants and MLFQ raise an unhandled `ValueError` (`min()` of an empty
sequence) regardless of fuel; and invalid processes (burst ≤ 0,
arrival < 0) are accepted without error. -/
theorem C2_amended : ∀ fuel : Nat,
    fcfs emptyReq = ⟨[], [], ⟨0, 0, 0, 0, 0, 0, 0⟩, "FCFS"⟩ ∧
    sjf (fuel + 1) emptyReq = .ok ⟨[], [], ⟨0, 0, 0, 0, 0, 0, 0⟩, "SJF (Non-preemptive)"⟩ ∧
    srtf (fuel + 1) emptyReq = .ok ⟨[], [], ⟨0, 0, 0, 0, 0, 0, 0⟩, "SRTF (Preemptive SJF)"⟩ ∧
    priority_non_preemptive (fuel + 1) emptyReq =
      .ok ⟨[], [], ⟨0, 0, 0, 0, 0, 0, 0⟩, "Priority (Fixed, Non-preemptive)"⟩ ∧
    priority_preemptive (fuel + 1) emptyReq =
      .ok ⟨[], [], ⟨0, 0, 0, 0, 0, 0, 0⟩, "Priority (Fixed, Preemptive)"⟩ ∧
    standard_round_robin fuel emptyReq = .error .valueError ∧
    weighted_round_robin fuel emptyReq = .error .valueError ∧
    deficit_round_robin fuel emptyReq = .error .valueError ∧
    mlfq fuel emptyReq = .error .valueError ∧
    (fcfs invalidReq).schedule = [⟨1, 0, -1, "execution", none⟩] := by
  intro fuel
  refine ⟨rfl, rfl, rfl, rfl, rfl, rfl, rfl, rfl, rfl, by decide⟩

/-! ## C4: dynamic-mode priority aging. -/

/-- C4: at the failing input (`c4Req`, dynamic preemptive priority), the
code runs P3 at t = 12 (its schedule is P1, P3, P2), although the aged
effective priorities — which the claim says the selection uses — pick P2
there: `effective_priority(P2) = 6 − 1 = 5 = effective_priority(P3)` and
the `(effective_priority, arrival_time, pid)` tie-break favours P2.  The
second conjunct evaluates that claimed comparator on the two ready
processes at t = 12. -/
theorem C4_dynamic_preemptive_ignores_aging :
    (priority_preemptive 50 c4Req).toOption.map
      (fun r => r.schedule.map (fun e => (e.process_id, e.start_time, e.end_time))) =
      some [(1, 0, 12), (3, 12, 17), (2, 17, 22)] ∧
    (pyMinBy lexLtIQI (fun p => (effective_priority_np 12 p, p.arrival_time, p.id))
      [⟨2, 0, 5, 6, 1⟩, ⟨3, 11, 5, 5, 1⟩]).map (fun p => p.id) = some 2 := by
  refine ⟨by decide, by decide⟩

/-! ## C1 / C5 counterexamples. -/

/-- C1 counterexample: on `c1Req` (P2 arrives at 5, four time units after
P1 finishes) the schedule has a gap — consecutive entries are not
contiguous — and no idle entry is appended for the skipped interval. -/
theorem C1_counterexample :
    (fcfs c1Req).schedule = [⟨1, 0, 1, "execution", none⟩, ⟨2, 5, 6, "execution", none⟩] ∧
    contiguousB (fcfs c1Req).schedule = false ∧
    noneOfType "idle" (fcfs c1Req).schedule = true := by
  refine ⟨by decide, by decide, by decide⟩

/-- C5 counterexample: on `c5Req` the first SRTF slice of P1 ends at
t = 5 (P2's arrival), although P2's comparator at that future instant,
`(7, 5, 2)`, does not beat P1's `(10 − 5, 0, 1)` — the spec's event time
is 10.  The code compares remaining times at dispatch time instead. -/
theorem C5_counterexample :
    (srtf 50 c5Req).toOption.map
      (fun r => r.schedule.map (fun e => (e.process_id, e.start_time, e.end_time))) =
      some [(1, 0, 5), (1, 5, 10), (2, 10, 17)] ∧
    srtfSpecNextEvent (preInit c5Req).processes 0 c5Selected = 10 := by
  refine ⟨by decide, by decide⟩

/-! ## Helper lemmas for the remaining claim theorems. -/

theorem countCS_zero_noneOfType (sch : List ScheduleEntry) (h : countCS sch = 0) :
    noneOfType "context_switch" sch = true := by
  induction sch with
  | nil => rfl
  | cons e rest ih =>
    by_cases he : e.type = "context_switch"
    · exfalso
      have hlen : countCS (e :: rest) = countCS rest + 1 := by
        simp only [countCS, List.filter_cons, if_pos (decide_eq_true he)]
        rfl
      omega
    · have h' : countCS rest = 0 := by
        simp only [countCS, List.filter_cons,
          if_neg (fun hh => he (of_decide_eq_true hh))] at h
        exact h
      simp only [noneOfType, List.all_cons, Bool.and_eq_true]
      exact ⟨decide_eq_true he, ih h'⟩

/-- Minimum facts about the SRTF next-event candidate list: the chosen
event is a lower bound of the completion time and of every qualifying
arrival, and it is one of them. -/
theorem srtf_slice_min (procs : List PreProc) (t0 selRem ev : Rat)
    (heq : pyMinQ (srtfNextEvents procs t0 selRem) = some ev) :
    ev ≤ qAdd t0 selRem ∧
    (∀ d ∈ procs,
      (qLtB t0 d.process.arrival_time && qLtB 0 d.remaining &&
        qLtB d.process.arrival_time (qAdd t0 selRem) &&
        qLtB d.remaining selRem) = true →
      ev ≤ d.process.arrival_time) ∧
    (ev = qAdd t0 selRem ∨
      ∃ d ∈ procs,
        (qLtB t0 d.process.arrival_time && qLtB 0 d.remaining &&
          qLtB d.process.arrival_time (qAdd t0 selRem) &&
          qLtB d.remaining selRem) = true ∧
        ev = d.process.arrival_time) := by
  have hle := pyMinQ_le _ _ heq
  have hmem := pyMinQ_mem _ _ heq
  rw [srtfNextEvents] at hmem
  refine ⟨?_, ?_, ?_⟩
  · refine hle _ ?_
    rw [srtfNextEvents]
    exact List.mem_cons_self _ _
  · intro d hd hc
    refine hle _ ?_
    rw [srtfNextEvents]
    exact List.mem_cons_of_mem _
      (List.mem_map.mpr ⟨d, List.mem_filter.mpr ⟨hd, hc⟩, rfl⟩)
  · rcases List.mem_cons.mp hmem with h | h
    · exact Or.inl h
    · obtain ⟨d, hdf, hda⟩ := List.mem_map.mp h
      obtain ⟨hdm, hdc⟩ := List.mem_filter.mp hdf
      exact Or.inr ⟨d, hdm, hdc, hda.symm⟩

theorem rrPostAdmit_rev_current (dm : Option Int) (procs : List RRProc) (t : Rat)
    (restq : List Int) (current : Int) (y : RRProc)
    (hy : y ∈ (rrPostAdmit dm procs t restq current).1)
    (hid : y.process.id = current) : y ∈ procs := by
  cases dm with
  | none => exact hy
  | some b =>
    rw [rrPostAdmit_fst_some] at hy
    obtain ⟨x, hx, he⟩ := List.mem_map.mp hy
    by_cases hc : (rrEligible t restq x && decide (some x.process.id ≠ some current)) = true
    · exfalso
      rw [if_pos hc] at he
      have hxid : x.process.id = current := by rw [← he] at hid; exact hid
      rw [Bool.and_eq_true] at hc
      exact of_decide_eq_true hc.2 (by rw [hxid])
    · rw [if_neg hc] at he
      rw [← he]
      exact hx

theorem updRR_rev_current (pid : Int) (f : RRProc → RRProc)
    (l : List RRProc) (y : RRProc) (hy : y ∈ updRR pid f l)
    (hid : y.process.id = pid) :
    ∃ x ∈ l, x.process.id = pid ∧ y = f x := by
  rw [updRR] at hy
  obtain ⟨x, hx, he⟩ := List.mem_map.mp hy
  by_cases hp : x.process.id = pid
  · rw [if_pos hp] at he
    exact ⟨x, hx, hp, he.symm⟩
  · rw [if_neg hp] at he
    rw [← he] at hid
    exact absurd hid hp

theorem updRR_rev_const (pid : Int) (dd : RRProc) (l : List RRProc) (y : RRProc)
    (hy : y ∈ updRR pid (fun _ => dd) l) (hid : y.process.id = pid) : y = dd := by
  rw [updRR] at hy
  obtain ⟨x, hx, he⟩ := List.mem_map.mp hy
  by_cases hp : x.process.id = pid
  · rw [if_pos hp] at he
    exact he.symm
  · rw [if_neg hp] at he
    rw [← he] at hid
    exact absurd hid hp

/-! ## The claim theorems. -/

/-- C1 (amended): for every algorithm, on valid inputs the returned
schedule is in timeline order and free of overlaps — every entry has
`start_time ≤ end_time` and ends no later than the next entry starts —
but it is not contiguous (gaps remain where the clock jumped, see
`C1_counterexample`), and no idle entry is ever appended for a skipped
interval: the schedule never contains an entry of type `"idle"`. -/
theorem C1_amended :
    (∀ request : SchedulingRequest,
      (∀ p ∈ request.processes, 0 < p.burst_time) →
      chainWFB (fcfs request).schedule = true ∧
        noneOfType "idle" (fcfs request).schedule = true) ∧
    (∀ (fuel : Nat) (request : SchedulingRequest) (r : SchedulingResult),
      ValidWorkload request.processes → sjf_non_preemptive fuel request = .ok r →
      chainWFB r.schedule = true ∧ noneOfType "idle" r.schedule = true) ∧
    (∀ (fuel : Nat) (request : SchedulingRequest) (r : SchedulingResult),
      ValidWorkload request.processes → priority_non_preemptive fuel request = .ok r →
      chainWFB r.schedule = true ∧ noneOfType "idle" r.schedule = true) ∧
    (∀ (fuel : Nat) (request : SchedulingRequest) (r : SchedulingResult),
      ValidWorkload request.processes → srtf fuel request = .ok r →
      chainWFB r.schedule = true ∧ noneOfType "idle" r.schedule = true) ∧
    (∀ (fuel : Nat) (request : SchedulingRequest) (r : SchedulingResult),
      ValidWorkload request.processes → priority_preemptive fuel request = .ok r →
      chainWFB r.schedule = true ∧ noneOfType "idle" r.schedule = true) ∧
    (∀ (fuel : Nat) (request : SchedulingRequest) (r : SchedulingResult),
      ValidWorkload request.processes → ValidQuantum request.time_quantum →
      standard_round_robin fuel request = .ok r →
      chainWFB r.schedule = true ∧ noneOfType "idle" r.schedule = true) ∧
    (∀ (fuel : Nat) (request : SchedulingRequest) (r : SchedulingResult),
      ValidWorkload request.processes → weighted_round_robin fuel request = .ok r →
      chainWFB r.schedule = true ∧ noneOfType "idle" r.schedule = true) ∧
    (∀ (fuel : Nat) (request : SchedulingRequest) (r : SchedulingResult),
      ValidWorkload request.processes → ValidQuantum request.time_quantum →
      deficit_round_robin fuel request = .ok r →
      chainWFB r.schedule = true ∧ noneOfType "idle" r.schedule = true) ∧
    (∀ (fuel : Nat) (request : SchedulingRequest) (r : SchedulingResult),
      ValidWorkload request.processes →
      ValidMlfqConfig (request.mlfq_config.getD {}) → mlfq fuel request = .ok r →
      chainWFB r.schedule = true ∧ noneOfType "idle" r.schedule = true) := by
  refine ⟨?_, ?_, ?_, ?_, ?_, ?_, ?_, ?_, ?_⟩
  · intro request hb
    have hg := fcfs_good request hb
    exact ⟨hg.1, hg.2.1⟩
  · intro fuel request r hv h
    have hg := sjf_np_good fuel request r hv h
    exact ⟨hg.1, hg.2.1⟩
  · intro fuel request r hv h
    have hg := priority_np_good fuel request r hv h
    exact ⟨hg.1, hg.2.1⟩
  · intro fuel request r hv h
    have hg := srtf_good fuel request r hv h
    exact ⟨hg.1, hg.2.1⟩
  · intro fuel request r hv h
    have hg := priority_p_good fuel request r hv h
    exact ⟨hg.1, hg.2.1⟩
  · intro fuel request r hv hq h
    have hg := standard_round_robin_good fuel request r hv hq h
    exact ⟨hg.1, hg.2.1⟩
  · intro fuel request r hv h
    have hg := weighted_round_robin_good fuel request r hv h
    exact ⟨hg.1, hg.2.1⟩
  · intro fuel request r hv hq h
    have hg := deficit_round_robin_good fuel request r hv hq h
    exact ⟨hg.1, hg.2.1⟩
  · intro fuel request r hv hm h
    have hg := mlfq_good fuel request r hv hm h
    exact ⟨hg.1, hg.2.1⟩

/-- Witness for C1 (amended) on the two-process gap workload `c1Req`. -/
theorem C1_amended_witness :
    chainWFB (fcfs c1Req).schedule = true ∧
    noneOfType "idle" (fcfs c1Req).schedule = true :=
  C1_amended.1 c1Req (by decide)

/-- C3: for every algorithm, on valid inputs the durations of the
execution entries of the returned schedule sum to the total burst time of
the workload — every demanded time unit appears in the timeline. -/
theorem C3_work_conservation :
    (∀ request : SchedulingRequest,
      (∀ p ∈ request.processes, 0 < p.burst_time) →
      sumExecDur (fcfs request).schedule = sumBurst request.processes) ∧
    (∀ (fuel : Nat) (request : SchedulingRequest) (r : SchedulingResult),
      ValidWorkload request.processes → sjf_non_preemptive fuel request = .ok r →
      sumExecDur r.schedule = sumBurst request.processes) ∧
    (∀ (fuel : Nat) (request : SchedulingRequest) (r : SchedulingResult),
      ValidWorkload request.processes → priority_non_preemptive fuel request = .ok r →
      sumExecDur r.schedule = sumBurst request.processes) ∧
    (∀ (fuel : Nat) (request : SchedulingRequest) (r : SchedulingResult),
      ValidWorkload request.processes → srtf fuel request = .ok r →
      sumExecDur r.schedule = sumBurst request.processes) ∧
    (∀ (fuel : Nat) (request : SchedulingRequest) (r : SchedulingResult),
      ValidWorkload request.processes → priority_preemptive fuel request = .ok r →
      sumExecDur r.schedule = sumBurst request.processes) ∧
    (∀ (fuel : Nat) (request : SchedulingRequest) (r : SchedulingResult),
      ValidWorkload request.processes → ValidQuantum request.time_quantum →
      standard_round_robin fuel request = .ok r →
      sumExecDur r.schedule = sumBurst request.processes) ∧
    (∀ (fuel : Nat) (request : SchedulingRequest) (r : SchedulingResult),
      ValidWorkload request.processes → weighted_round_robin fuel request = .ok r →
      sumExecDur r.schedule = sumBurst request.processes) ∧
    (∀ (fuel : Nat) (request : SchedulingRequest) (r : SchedulingResult),
      ValidWorkload request.processes → ValidQuantum request.time_quantum →
      deficit_round_robin fuel request = .ok r →
      sumExecDur r.schedule = sumBurst request.processes) ∧
    (∀ (fuel : Nat) (request : SchedulingRequest) (r : SchedulingResult),
      ValidWorkload request.processes →
      ValidMlfqConfig (request.mlfq_config.getD {}) → mlfq fuel request = .ok r →
      sumExecDur r.schedule = sumBurst request.processes) := by
  refine ⟨?_, ?_, ?_, ?_, ?_, ?_, ?_, ?_, ?_⟩
  · intro request hb
    exact (fcfs_good request hb).2.2.2.2.2.1
  · intro fuel request r hv h
    exact (sjf_np_good fuel request r hv h).2.2.2.2.2.1
  · intro fuel request r hv h
    exact (priority_np_good fuel request r hv h).2.2.2.2.2.1
  · intro fuel request r hv h
    exact (srtf_good fuel request r hv h).2.2.2.2.2.1
  · intro fuel request r hv h
    exact (priority_p_good fuel request r hv h).2.2.2.2.2.1
  · intro fuel request r hv hq h
    exact (standard_round_robin_good fuel request r hv hq h).2.2.2.2.2.1
  · intro fuel request r hv h
    exact (weighted_round_robin_good fuel request r hv h).2.2.2.2.2.1
  · intro fuel request r hv hq h
    exact (deficit_round_robin_good fuel request r hv hq h).2.2.2.2.2.1
  · intro fuel request r hv hm h
    exact (mlfq_good fuel request r hv hm h).2.2.2.2.2.1

/-- Witness for C3 on `c1Req` (FCFS) and on the concrete SJF run
`sjf_non_preemptive 5 oneReq = .ok c3Res`. -/
theorem C3_work_conservation_witness :
    sumExecDur (fcfs c1Req).schedule = sumBurst c1Req.processes ∧
    sjf_non_preemptive 5 oneReq = .ok c3Res ∧
    sumExecDur c3Res.schedule = sumBurst oneReq.processes :=
  ⟨C3_work_conservation.1 c1Req (by decide), by decide,
   C3_work_conservation.2.1 5 oneReq c3Res (by decide) (by decide)⟩

/-- C8: every result row of every algorithm on a valid workload satisfies
`waiting_time ≥ 0`, `turnaround_time = waiting_time + burst_time` and
carries a recorded response time with `0 ≤ response_time ≤ waiting_time`
(see `ResultOk`); for the non-preemptive policies (FCFS, SJF, priority)
the response time equals the waiting time. -/
theorem C8_result_algebra :
    (∀ request : SchedulingRequest,
      (∀ p ∈ request.processes, 0 < p.burst_time) →
      ∀ res ∈ (fcfs request).processes,
        ResultOk res ∧ res.response_time = some res.waiting_time) ∧
    (∀ (fuel : Nat) (request : SchedulingRequest) (r : SchedulingResult),
      ValidWorkload request.processes → sjf_non_preemptive fuel request = .ok r →
      ∀ res ∈ r.processes, ResultOk res ∧ res.response_time = some res.waiting_time) ∧
    (∀ (fuel : Nat) (request : SchedulingRequest) (r : SchedulingResult),
      ValidWorkload request.processes → priority_non_preemptive fuel request = .ok r →
      ∀ res ∈ r.processes, ResultOk res ∧ res.response_time = some res.waiting_time) ∧
    (∀ (fuel : Nat) (request : SchedulingRequest) (r : SchedulingResult),
      ValidWorkload request.processes → srtf fuel request = .ok r →
      ∀ res ∈ r.processes, ResultOk res) ∧
    (∀ (fuel : Nat) (request : SchedulingRequest) (r : SchedulingResult),
      ValidWorkload request.processes → priority_preemptive fuel request = .ok r →
      ∀ res ∈ r.processes, ResultOk res) ∧
    (∀ (fuel : Nat) (request : SchedulingRequest) (r : SchedulingResult),
      ValidWorkload request.processes → ValidQuantum request.time_quantum →
      standard_round_robin fuel request = .ok r →
      ∀ res ∈ r.processes, ResultOk res) ∧
    (∀ (fuel : Nat) (request : SchedulingRequest) (r : SchedulingResult),
      ValidWorkload request.processes → weighted_round_robin fuel request = .ok r →
      ∀ res ∈ r.processes, ResultOk res) ∧
    (∀ (fuel : Nat) (request : SchedulingRequest) (r : SchedulingResult),
      ValidWorkload request.processes → ValidQuantum request.time_quantum →
      deficit_round_robin fuel request = .ok r →
      ∀ res ∈ r.processes, ResultOk res) ∧
    (∀ (fuel : Nat) (request : SchedulingRequest) (r : SchedulingResult),
      ValidWorkload request.processes →
      ValidMlfqConfig (request.mlfq_config.getD {}) → mlfq fuel request = .ok r →
      ∀ res ∈ r.processes, ResultOk res) := by
  refine ⟨?_, ?_, ?_, ?_, ?_, ?_, ?_, ?_, ?_⟩
  · intro request hb
    exact (fcfs_good request hb).2.2.2.2.2.2
  · intro fuel request r hv h
    exact (sjf_np_good fuel request r hv h).2.2.2.2.2.2
  · intro fuel request r hv h
    exact (priority_np_good fuel request r hv h).2.2.2.2.2.2
  · intro fuel request r hv h
    exact (srtf_good fuel request r hv h).2.2.2.2.2.2
  · intro fuel request r hv h
    exact (priority_p_good fuel request r hv h).2.2.2.2.2.2
  · intro fuel request r hv hq h
    exact (standard_round_robin_good fuel request r hv hq h).2.2.2.2.2.2
  · intro fuel request r hv h
    exact (weighted_round_robin_good fuel request r hv h).2.2.2.2.2.2
  · intro fuel request r hv hq h
    exact (deficit_round_robin_good fuel request r hv hq h).2.2.2.2.2.2
  · intro fuel request r hv hm h
    exact (mlfq_good fuel request r hv hm h).2.2.2.2.2.2

/-- Witness for C8 at the first FCFS result row of `c1Req`. -/
theorem C8_result_algebra_witness :
    (⟨1, 0, 1, 0, 1, 1, 0, some 0⟩ : ProcessResult) ∈ (fcfs c1Req).processes ∧
    (ResultOk ⟨1, 0, 1, 0, 1, 1, 0, some 0⟩ ∧
      (⟨1, 0, 1, 0, 1, 1, 0, some 0⟩ : ProcessResult).response_time =
        some (⟨1, 0, 1, 0, 1, 1, 0, some 0⟩ : ProcessResult).waiting_time) :=
  ⟨by decide, C8_result_algebra.1 c1Req (by decide) ⟨1, 0, 1, 0, 1, 1, 0, some 0⟩
    (by decide)⟩

/-- C10: for every algorithm on valid inputs, the metrics'
`context_switches` field counts the context-switch entries of the
schedule; when `context_switch_cost = 0` the schedule contains no
context-switch entry and that count is 0; and for any cost the first
entry of a non-empty schedule is an execution entry, so no context switch
ever precedes the first dispatch. -/
theorem C10_context_switches :
    (∀ request : SchedulingRequest,
      (∀ p ∈ request.processes, 0 < p.burst_time) →
      (fcfs request).metrics.context_switches = countCS (fcfs request).schedule ∧
      (request.context_switch_cost = 0 →
        noneOfType "context_switch" (fcfs request).schedule = true ∧
        (fcfs request).metrics.context_switches = 0) ∧
      headIsExecB (fcfs request).schedule = true) ∧
    (∀ (fuel : Nat) (request : SchedulingRequest) (r : SchedulingResult),
      ValidWorkload request.processes → sjf_non_preemptive fuel request = .ok r →
      r.metrics.context_switches = countCS r.schedule ∧
      (request.context_switch_cost = 0 →
        noneOfType "context_switch" r.schedule = true ∧
        r.metrics.context_switches = 0) ∧
      headIsExecB r.schedule = true) ∧
    (∀ (fuel : Nat) (request : SchedulingRequest) (r : SchedulingResult),
      ValidWorkload request.processes → priority_non_preemptive fuel request = .ok r →
      r.metrics.context_switches = countCS r.schedule ∧
      (request.context_switch_cost = 0 →
        noneOfType "context_switch" r.schedule = true ∧
        r.metrics.context_switches = 0) ∧
      headIsExecB r.schedule = true) ∧
    (∀ (fuel : Nat) (request : SchedulingRequest) (r : SchedulingResult),
      ValidWorkload request.processes → srtf fuel request = .ok r →
      r.metrics.context_switches = countCS r.schedule ∧
      (request.context_switch_cost = 0 →
        noneOfType "context_switch" r.schedule = true ∧
        r.metrics.context_switches = 0) ∧
      headIsExecB r.schedule = true) ∧
    (∀ (fuel : Nat) (request : SchedulingRequest) (r : SchedulingResult),
      ValidWorkload request.processes → priority_preemptive fuel request = .ok r →
      r.metrics.context_switches = countCS r.schedule ∧
      (request.context_switch_cost = 0 →
        noneOfType "context_switch" r.schedule = true ∧
        r.metrics.context_switches = 0) ∧
      headIsExecB r.schedule = true) ∧
    (∀ (fuel : Nat) (request : SchedulingRequest) (r : SchedulingResult),
      ValidWorkload request.processes → ValidQuantum request.time_quantum →
      standard_round_robin fuel request = .ok r →
      r.metrics.context_switches = countCS r.schedule ∧
      (request.context_switch_cost = 0 →
        noneOfType "context_switch" r.schedule = true ∧
        r.metrics.context_switches = 0) ∧
      headIsExecB r.schedule = true) ∧
    (∀ (fuel : Nat) (request : SchedulingRequest) (r : SchedulingResult),
      ValidWorkload request.processes → weighted_round_robin fuel request = .ok r →
      r.metrics.context_switches = countCS r.schedule ∧
      (request.context_switch_cost = 0 →
        noneOfType "context_switch" r.schedule = true ∧
        r.metrics.context_switches = 0) ∧
      headIsExecB r.schedule = true) ∧
    (∀ (fuel : Nat) (request : SchedulingRequest) (r : SchedulingResult),
      ValidWorkload request.processes → ValidQuantum request.time_quantum →
      deficit_round_robin fuel request = .ok r →
      r.metrics.context_switches = countCS r.schedule ∧
      (request.context_switch_cost = 0 →
        noneOfType "context_switch" r.schedule = true ∧
        r.metrics.context_switches = 0) ∧
      headIsExecB r.schedule = true) ∧
    (∀ (fuel : Nat) (request : SchedulingRequest) (r : SchedulingResult),
      ValidWorkload request.processes →
      ValidMlfqConfig (request.mlfq_config.getD {}) → mlfq fuel request = .ok r →
      r.metrics.context_switches = countCS r.schedule ∧
      (request.context_switch_cost = 0 →
        noneOfType "context_switch" r.schedule = true ∧
        r.metrics.context_switches = 0) ∧
      headIsExecB r.schedule = true) := by
  have step : ∀ (cost : Rat) (P : List Process) (RP : ProcessResult → Prop)
      (r : SchedulingResult), GoodRun cost P RP r →
      r.metrics.context_switches = countCS r.schedule ∧
      (cost = 0 →
        noneOfType "context_switch" r.schedule = true ∧
        r.metrics.context_switches = 0) ∧
      headIsExecB r.schedule = true := by
    intro cost P RP r hg
    refine ⟨hg.2.2.2.1, fun hc => ?_, hg.2.2.1⟩
    have h0 : countCS r.schedule = 0 := hg.2.2.2.2.1 (le_of_eq hc)
    refine ⟨countCS_zero_noneOfType _ h0, ?_⟩
    rw [hg.2.2.2.1]
    exact h0
  refine ⟨?_, ?_, ?_, ?_, ?_, ?_, ?_, ?_, ?_⟩
  · intro request hb
    exact step _ _ _ _ (fcfs_good request hb)
  · intro fuel request r hv h
    exact step _ _ _ _ (sjf_np_good fuel request r hv h)
  · intro fuel request r hv h
    exact step _ _ _ _ (priority_np_good fuel request r hv h)
  · intro fuel request r hv h
    exact step _ _ _ _ (srtf_good fuel request r hv h)
  · intro fuel request r hv h
    exact step _ _ _ _ (priority_p_good fuel request r hv h)
  · intro fuel request r hv hq h
    exact step _ _ _ _ (standard_round_robin_good fuel request r hv hq h)
  · intro fuel request r hv h
    exact step _ _ _ _ (weighted_round_robin_good fuel request r hv h)
  · intro fuel request r hv hq h
    exact step _ _ _ _ (deficit_round_robin_good fuel request r hv hq h)
  · intro fuel request r hv hm h
    exact step _ _ _ _ (mlfq_good fuel request r hv hm h)

/-- Witness for C10 on the zero-cost workload `c4Req` under FCFS. -/
theorem C10_context_switches_witness :
    (fcfs c4Req).metrics.context_switches = countCS (fcfs c4Req).schedule ∧
    (noneOfType "context_switch" (fcfs c4Req).schedule = true ∧
      (fcfs c4Req).metrics.context_switches = 0) ∧
    headIsExecB (fcfs c4Req).schedule = true := by
  have h := C10_context_switches.1 c4Req (by decide)
  exact ⟨h.1, h.2.1 (by decide), h.2.2⟩

/-- C5 (amended): when the SRTF loop dispatches `selected`, the emitted
execution entry ends at the event time `ev`, which is exactly the minimum
of (a) the completion time `t0 + remaining` of the selected process and
(b) the arrival times of the unfinished processes that arrive strictly
inside the slice and whose *currently stored* remaining time is strictly
smaller than the selected process's remaining time — both sides of the
comparison taken as they are at dispatch time, not re-evaluated at the
future arrival instant as the spec words it (`C5_counterexample` shows
the two rules disagree). -/
theorem C5_amended (cost : Rat) (st : PreState) (selected : PreProc) (s' : PreState)
    (hne : ¬ preAvailable st = [])
    (hsel : pyMinBy lexLtQQI
      (fun d => (d.remaining, d.process.arrival_time, d.process.id))
      (preAvailable st) = some selected)
    (hbody : srtf_body cost st = .next s') :
    ∃ t0 ev : Rat,
      t0 = (guardedAcs cost st.schedule st.cs st.current_time st.last_process
        selected.process.id).2.2 ∧
      pyMinQ (srtfNextEvents st.processes t0 selected.remaining) = some ev ∧
      s'.schedule = (guardedAcs cost st.schedule st.cs st.current_time
          st.last_process selected.process.id).1 ++
        [{ process_id := selected.process.id, start_time := t0,
           end_time := qAdd t0 (qSub ev t0), type := "execution" }] ∧
      qAdd t0 (qSub ev t0) = ev ∧
      ev ≤ qAdd t0 selected.remaining ∧
      (∀ d ∈ st.processes,
        (qLtB t0 d.process.arrival_time && qLtB 0 d.remaining &&
          qLtB d.process.arrival_time (qAdd t0 selected.remaining) &&
          qLtB d.remaining selected.remaining) = true →
        ev ≤ d.process.arrival_time) ∧
      (ev = qAdd t0 selected.remaining ∨
        ∃ d ∈ st.processes,
          (qLtB t0 d.process.arrival_time && qLtB 0 d.remaining &&
            qLtB d.process.arrival_time (qAdd t0 selected.remaining) &&
            qLtB d.remaining selected.remaining) = true ∧
          ev = d.process.arrival_time) := by
  simp only [srtf_body] at hbody
  rw [if_neg hne] at hbody
  rw [hsel] at hbody
  have hbody' : preDispatch cost st selected
      (fun t => srtfNextEvents st.processes t selected.remaining) = .next s' := hbody
  simp only [preDispatch] at hbody'
  split at hbody'
  case h_1 heq => exact BodyStep.noConfusion hbody'
  case h_2 ev heq =>
    have hmin := srtf_slice_min st.processes
      (guardedAcs cost st.schedule st.cs st.current_time st.last_process
        selected.process.id).2.2 selected.remaining ev heq
    split at hbody'
    case isTrue hrem =>
      cases BodyStep.next.inj hbody'
      refine ⟨_, ev, rfl, heq, rfl, ?_, hmin.1, hmin.2.1, hmin.2.2⟩
      simp only [qAdd_eq, qSub_eq]
      ring
    case isFalse hrem =>
      cases BodyStep.next.inj hbody'
      refine ⟨_, ev, rfl, heq, rfl, ?_, hmin.1, hmin.2.1, hmin.2.2⟩
      simp only [qAdd_eq, qSub_eq]
      ring

/-- Witness for C5 (amended) at the first dispatch of `c5Req`: the slice
of P1 starting at t = 0 ends at P2's arrival time 5. -/
theorem C5_amended_witness :
    ∃ t0 ev : Rat,
      t0 = (guardedAcs 0 (preInit c5Req).schedule (preInit c5Req).cs
        (preInit c5Req).current_time (preInit c5Req).last_process
        c5Selected.process.id).2.2 ∧
      pyMinQ (srtfNextEvents (preInit c5Req).processes t0 c5Selected.remaining) =
        some ev ∧
      c5Step.schedule = (guardedAcs 0 (preInit c5Req).schedule (preInit c5Req).cs
          (preInit c5Req).current_time (preInit c5Req).last_process
          c5Selected.process.id).1 ++
        [{ process_id := c5Selected.process.id, start_time := t0,
           end_time := qAdd t0 (qSub ev t0), type := "execution" }] ∧
      qAdd t0 (qSub ev t0) = ev ∧
      ev ≤ qAdd t0 c5Selected.remaining ∧
      (∀ d ∈ (preInit c5Req).processes,
        (qLtB t0 d.process.arrival_time && qLtB 0 d.remaining &&
          qLtB d.process.arrival_time (qAdd t0 c5Selected.remaining) &&
          qLtB d.remaining c5Selected.remaining) = true →
        ev ≤ d.process.arrival_time) ∧
      (ev = qAdd t0 c5Selected.remaining ∨
        ∃ d ∈ (preInit c5Req).processes,
          (qLtB t0 d.process.arrival_time && qLtB 0 d.remaining &&
            qLtB d.process.arrival_time (qAdd t0 c5Selected.remaining) &&
            qLtB d.remaining c5Selected.remaining) = true ∧
          ev = d.process.arrival_time) :=
  C5_amended 0 (preInit c5Req) c5Selected c5Step (by decide) (by decide) (by decide)

/-- C6: the deficit-counter mechanics of deficit round robin.  (1) A
process admitted to the ready queue has its counter set to the base
quantum.  (2) When the loop body dispatches `current` (whose scanned
record is `d0`), the base quantum is first added to the counter and the
emitted slice runs for `min(counter, remaining)`.  (3) Afterwards the
dispatched record's counter is the topped-up counter minus the amount
run — the unused accrual is kept — except that it is reset to 0 when the
process completed (no work left). -/
theorem C6_deficit_counter (cost : Rat) (bq : Int) (st : RRState) (s' : RRState)
    (current : Int) (restq : List Int) (d0 : RRProc)
    (hadm : (drrAdmit bq st.processes st.current_time st.ready_queue none).2 =
      current :: restq)
    (hfind : ((drrAdmit bq st.processes st.current_time st.ready_queue none).1).find?
      (fun d => d.process.id = current) = some d0)
    (hbody : rr_deficit_body cost bq st = .next s') :
    (∀ (procs : List RRProc) (t : Rat) (ready : List Int) (excl : Option Int)
      (x : RRProc), x ∈ procs →
      (rrEligible t ready x && decide (some x.process.id ≠ excl)) = true →
      { x with deficit_counter := ((bq : Int) : Rat) } ∈
        (drrAdmit bq procs t ready excl).1) ∧
    (∃ (sch : List ScheduleEntry) (t0 : Rat),
      s'.schedule = sch ++
        [{ process_id := current, start_time := t0,
           end_time := qAdd t0 (qMin (qAdd d0.deficit_counter ((bq : Int) : Rat))
             d0.remaining),
           type := "execution" }]) ∧
    (∀ y ∈ s'.processes, y.process.id = current →
      y.deficit_counter =
        if qLtB 0 (qSub d0.remaining
            (qMin (qAdd d0.deficit_counter ((bq : Int) : Rat)) d0.remaining)) = true then
          qSub (qAdd d0.deficit_counter ((bq : Int) : Rat))
            (qMin (qAdd d0.deficit_counter ((bq : Int) : Rat)) d0.remaining)
        else 0) := by
  have hmain : (∃ (sch : List ScheduleEntry) (t0 : Rat),
      s'.schedule = sch ++
        [{ process_id := current, start_time := t0,
           end_time := qAdd t0 (qMin (qAdd d0.deficit_counter ((bq : Int) : Rat))
             d0.remaining),
           type := "execution" }]) ∧
      (∀ y ∈ s'.processes, y.process.id = current →
        y.deficit_counter =
          if qLtB 0 (qSub d0.remaining
              (qMin (qAdd d0.deficit_counter ((bq : Int) : Rat)) d0.remaining)) = true then
            qSub (qAdd d0.deficit_counter ((bq : Int) : Rat))
              (qMin (qAdd d0.deficit_counter ((bq : Int) : Rat)) d0.remaining)
          else 0) := by
    simp only [rr_deficit_body] at hbody
    split at hbody
    case h_1 hadm2 =>
      rw [hadm2] at hadm
      exact List.noConfusion hadm
    case h_2 cur2 restq2 hadm2 =>
      rw [hadm2] at hbody
      rw [hadm2] at hadm
      injection hadm with h1 h2
      rw [h1, h2] at hbody
      split at hbody
      case h_1 hfind2 =>
        rw [hfind2] at hfind
        exact Option.noConfusion hfind
      case h_2 d1 hfind2 =>
        rw [hfind2] at hfind
        cases Option.some.inj hfind
        have hb2 : rrDispatch cost
            { st with
              processes := updRR current (fun _ =>
                  { d0 with
                    deficit_counter := qAdd d0.deficit_counter ((bq : Int) : Rat) })
                ((drrAdmit bq st.processes st.current_time st.ready_queue none).1),
              ready_queue := current :: restq }
            current restq
            { d0 with deficit_counter := qAdd d0.deficit_counter ((bq : Int) : Rat) }
            (qMin (qAdd d0.deficit_counter ((bq : Int) : Rat)) d0.remaining)
            (some bq) = .next s' := hbody
        simp only [rrDispatch] at hb2
        split at hb2
        case isTrue hpos =>
          cases BodyStep.next.inj hb2
          refine ⟨⟨_, _, rfl⟩, ?_⟩
          intro y hy hid
          have hy1 := rrPostAdmit_rev_current (some bq) _ _ _ _ y hy hid
          obtain ⟨x2, hx2, hx2id, hyx⟩ := updRR_rev_current current _ _ y hy1 hid
          have hx2dd := updRR_rev_const current _ _ x2 hx2 hx2id
          rw [hx2dd] at hyx
          rw [hyx]
          rw [if_pos (show qLtB 0 (qSub d0.remaining
            (qMin (qAdd d0.deficit_counter ((bq : Int) : Rat)) d0.remaining)) =
              true from hpos)]
          rfl
        case isFalse hneg =>
          cases BodyStep.next.inj hb2
          refine ⟨⟨_, _, rfl⟩, ?_⟩
          intro y hy hid
          have hy0 : y ∈ updRR current (fun x => { x with deficit_counter := (0 : Rat) })
              ((rrPostAdmit (some bq)
                (updRR current
                  (rrUpd (some bq)
                    (qSub d0.remaining
                      (qMin (qAdd d0.deficit_counter ((bq : Int) : Rat)) d0.remaining))
                    (if d0.response_time = none then
                      some (qSub (guardedAcs cost st.schedule st.cs st.current_time
                        st.last_process current).2.2 d0.process.arrival_time)
                     else d0.response_time)
                    (qMin (qAdd d0.deficit_counter ((bq : Int) : Rat)) d0.remaining))
                  (updRR current (fun _ =>
                      { d0 with
                        deficit_counter := qAdd d0.deficit_counter ((bq : Int) : Rat) })
                    ((drrAdmit bq st.processes st.current_time st.ready_queue none).1)))
                (qAdd (guardedAcs cost st.schedule st.cs st.current_time
                  st.last_process current).2.2
                  (qMin (qAdd d0.deficit_counter ((bq : Int) : Rat)) d0.remaining))
                restq current).1) := hy
          obtain ⟨x0, hx0, hx0id, hyx⟩ := updRR_rev_current current _ _ y hy0 hid
          rw [hyx]
          rw [if_neg (show ¬ qLtB 0 (qSub d0.remaining
            (qMin (qAdd d0.deficit_counter ((bq : Int) : Rat)) d0.remaining)) =
              true from hneg)]
  refine ⟨?_, hmain.1, hmain.2⟩
  intro procs t ready excl x hx hcond
  exact List.mem_map.mpr ⟨x, hx, by rw [if_pos hcond]⟩

/-- Witness for C6 on the one-process state `c6St` (quantum 2): admission
resets a stale counter 7 to the quantum 2, and after the completing
dispatch (slice `min(2 + 2, 3) = 3`) the counter of the finished process
is 0. -/
theorem C6_deficit_counter_witness :
    (⟨⟨1, 0, 3, 0, 1⟩, 3, none, 0, 2⟩ : RRProc) ∈
      (drrAdmit 2 [⟨⟨1, 0, 3, 0, 1⟩, 3, none, 0, 7⟩] 0 [] none).1 ∧
    (⟨⟨1, 0, 3, 0, 1⟩, 0, some 0, 0, 0⟩ : RRProc).deficit_counter = 0 := by
  have h := C6_deficit_counter 0 2 c6St c6St' 1 [] ⟨⟨1, 0, 3, 0, 1⟩, 3, none, 0, 2⟩
    (by decide) (by decide) (by decide)
  refine ⟨h.1 [⟨⟨1, 0, 3, 0, 1⟩, 3, none, 0, 7⟩] 0 [] none
    ⟨⟨1, 0, 3, 0, 1⟩, 3, none, 0, 7⟩ (by decide) (by decide), ?_⟩
  have h2 := h.2.2 ⟨⟨1, 0, 3, 0, 1⟩, 0, some 0, 0, 0⟩ (by decide) rfl
  rw [h2]
  decide

/-- C7: MLFQ level movement.  (1) A requeued process that did not consume
its full quantum — or that already sits in the last queue — keeps every
record's queue level unchanged (no demotion, and demotion is capped at
the last queue).  (2) When the full quantum was consumed below the last
queue, the dispatched process moves down exactly one level (with its wait
timer reset) and every other record is untouched.  (3) One aging step at
index `i ≥ 1` promotes exactly the processes of queue `i` that the aging
test selects by exactly one level, to `i − 1`, resetting their wait
timers, and leaves every other record unchanged.  (4) The aging test
holds for a process precisely when it has waited at least
`aging_threshold` time units since its `wait_start_time`. -/
theorem C7_mlfq_levels :
    (∀ (config : MLFQConfig) (current : Int) (lvl : Nat) (tq : Int) (exec t : Rat)
      (procs : List MlfqProc) (queues : List (List Int)),
      (qLeB ((tq : Int) : Rat) exec &&
        decide ((lvl : Int) < config.num_queues - 1)) = false →
      ∀ y ∈ (mlfqRequeue config current lvl tq exec t procs queues).1,
        ∃ x ∈ procs, y.process = x.process ∧ y.queue_level = x.queue_level) ∧
    (∀ (config : MLFQConfig) (current : Int) (lvl : Nat) (tq : Int) (exec t : Rat)
      (procs : List MlfqProc) (queues : List (List Int)),
      (qLeB ((tq : Int) : Rat) exec &&
        decide ((lvl : Int) < config.num_queues - 1)) = true →
      ∀ y ∈ (mlfqRequeue config current lvl tq exec t procs queues).1,
        (y.process.id = current → y.queue_level = lvl + 1 ∧ y.wait_start_time = t) ∧
        (y.process.id ≠ current → y ∈ procs)) ∧
    (∀ (t : Rat) (thr : Int) (acc : List (List Int) × List MlfqProc) (i : Nat),
      1 ≤ i → ∀ x ∈ acc.2,
        (x.process.id ∈ (acc.1.getD i []).filter (mlfqIsOld t thr acc.2) →
          { x with queue_level := i - 1, wait_start_time := t } ∈
            (mlfqAgingAt t thr acc i).2) ∧
        (x.process.id ∉ (acc.1.getD i []).filter (mlfqIsOld t thr acc.2) →
          x ∈ (mlfqAgingAt t thr acc i).2)) ∧
    (∀ (t : Rat) (thr : Int) (procs : List MlfqProc) (pid : Int) (d : MlfqProc),
      procs.find? (fun z => z.process.id = pid) = some d →
      (mlfqIsOld t thr procs pid = true ↔
        ((thr : Int) : Rat) ≤ qSub t d.wait_start_time)) := by
  refine ⟨?_, ?_, ?_, ?_⟩
  · intro config current lvl tq exec t procs queues hcond y hy
    have hy' : y ∈ updMlfq current (fun x => { x with wait_start_time := t }) procs := by
      rw [mlfqRequeue,
        if_neg (fun hh => Bool.noConfusion (hcond.symm.trans hh))] at hy
      exact hy
    rw [updMlfq] at hy'
    obtain ⟨x, hx, he⟩ := List.mem_map.mp hy'
    by_cases hp : x.process.id = current
    · rw [if_pos hp] at he
      exact ⟨x, hx, by rw [← he], by rw [← he]⟩
    · rw [if_neg hp] at he
      exact ⟨x, hx, by rw [← he], by rw [← he]⟩
  · intro config current lvl tq exec t procs queues hcond y hy
    have hy' : y ∈ updMlfq current
        (fun x => { x with queue_level := lvl + 1, wait_start_time := t }) procs := by
      rw [mlfqRequeue, if_pos hcond] at hy
      exact hy
    rw [updMlfq] at hy'
    obtain ⟨x, hx, he⟩ := List.mem_map.mp hy'
    constructor
    · intro hid
      by_cases hp : x.process.id = current
      · rw [if_pos hp] at he
        rw [← he]
        exact ⟨rfl, rfl⟩
      · rw [if_neg hp] at he
        rw [← he] at hid
        exact absurd hid hp
    · intro hid
      by_cases hp : x.process.id = current
      · rw [if_pos hp] at he
        rw [← he] at hid
        exact absurd hp hid
      · rw [if_neg hp] at he
        rw [← he]
        exact hx
  · intro t thr acc i hi x hx
    constructor
    · intro hpr
      have hmem : { x with queue_level := Nat.max 0 (i - 1), wait_start_time := t } ∈
          (mlfqAgingAt t thr acc i).2 :=
        List.mem_map.mpr ⟨x, hx, by rw [if_pos hpr]⟩
      have hm : Nat.max 0 (i - 1) = i - 1 := by
        simp [Nat.max_def]
      rwa [hm] at hmem
    · intro hnpr
      exact List.mem_map.mpr ⟨x, hx, by rw [if_neg hnpr]⟩
  · intro t thr procs pid d hfind
    have hdef : mlfqIsOld t thr procs pid =
        qLeB ((thr : Int) : Rat) (qSub t d.wait_start_time) := by
      simp only [mlfqIsOld]
      rw [hfind]
    rw [hdef]
    exact qLeB_iff _ _

/-- Witness for C7: the record of `c7Procs` (in queue 0 since t = 0) is
aging-eligible at t = 5 with threshold 2, and a full-quantum requeue at
level 0 under the default three-queue configuration demotes it to level
1 with its wait timer reset to the requeue time 3. -/
theorem C7_mlfq_levels_witness :
    mlfqIsOld 5 2 c7Procs 1 = true ∧
    ((⟨⟨1, 0, 3, 0, 1⟩, 3, 1, none, 0, 3, false⟩ : MlfqProc).queue_level = 0 + 1 ∧
      (⟨⟨1, 0, 3, 0, 1⟩, 3, 1, none, 0, 3, false⟩ : MlfqProc).wait_start_time = 3) :=
  ⟨(C7_mlfq_levels.2.2.2 5 2 c7Procs 1 ⟨⟨1, 0, 3, 0, 1⟩, 3, 0, none, 0, 0, false⟩
      (by decide)).mpr (by decide),
   (C7_mlfq_levels.2.1 {} 1 0 2 2 3 c7Procs [] (by decide)
      ⟨⟨1, 0, 3, 0, 1⟩, 3, 1, none, 0, 3, false⟩ (by decide)).1 rfl⟩

end LearnOS
